import Mathlib

/-!
# C412 cache simulator: replacement policies

A shallow embedding of `src/Cache_Policy/Cache.c` and `src/Cache_Policy/Cache_Blk.h`.

* C structs become Lean structures; `uint64_t`/`uint32_t`/`uint8_t` fields are `Nat`,
  with an explicit `% 2 ^ w` wherever the C operation can wrap.
* `cache->sets[s].ways[w]` is a pointer into the flat `blocks` array that is fixed once by
  `initCache` (`sets[i / assoc].ways[i % assoc] = &blocks[i]`) and never reassigned; the
  embedding addresses a line by the pair `(s, w)` and keeps the lines in
  `Cache.sets : Nat → Nat → Cache_Block`.  Arrays are total maps: C performs no bounds check.
* Functions that mutate the cache return the new cache; out-parameters (`*wb_addr`,
  `*victim_blk`) are passed in and returned.
* The replacement policy is chosen by the preprocessor (`LRU`, `LFU`, `SRRIP`); it is a
  parameter `Policy` here.
* The unbounded `for (;;)` of `srrip` takes a fuel argument that bounds the number of scans.
-/

namespace CachePolicy

/-! ## Constants (Cache.c, lines 4-9) -/

/-- Size of a cache line in bytes. -/
def block_size : Nat := 64

/-- Size of the cache in KB; also the number of SHCT entries. -/
def cache_size : Nat := 512

/-- Associativity. -/
def assoc : Nat := 8

/-- Width of the saturating counters. -/
def counter_bits : Nat := 2

/-- The all-ones 64-bit value used as the tag of an empty line. -/
def UINTMAX_MAX : Nat := 2 ^ 64 - 1

/-! ## Data model (Cache_Blk.h) -/

/-- Saturating counter: `struct Sat_Counter`. -/
structure Sat_Counter where
  counter_bits : Nat
  max_val : Nat
  counter : Nat
deriving DecidableEq, Repr

/-- Cache line: `struct Cache_Block`. -/
structure Cache_Block where
  tag : Nat
  valid : Bool
  dirty : Bool
  when_touched : Nat
  frequency : Nat
  set : Nat
  way : Nat
  PC : Nat
  core_id : Int
  sig : Nat
  outcome : Bool
  RRPV_idx : Nat
  RRPV : Sat_Counter
deriving DecidableEq, Repr

/-- Modelled from the spec: the request kind of `Request`, declared in a header that is not
among the sources; the code only compares it with `STORE`. -/
inductive Request_Type where
  | LOAD
  | STORE
deriving DecidableEq, Repr

/-- Modelled from the spec: the access request handed over by the driver (declared in a header
that is not among the sources): a 64-bit address, the access kind and the 64-bit instruction
pointer. -/
structure Request where
  req_type : Request_Type
  load_or_store_addr : Nat
  PC : Nat
deriving DecidableEq, Repr

/-- Modelled from the spec: `struct Cache` (declared in `Cache.h`, which is not among the
sources), with the fields that `Cache.c` reads and writes.  `sets s w` is the line
`*cache->sets[s].ways[w]`; `SHCT i` is `cache->SHCT[i]`. -/
structure Cache where
  blk_mask : Nat
  num_blocks : Nat
  num_sets : Nat
  num_ways : Nat
  set_shift : Nat
  set_mask : Nat
  tag_shift : Nat
  sets : Nat → Nat → Cache_Block
  SHCT : Nat → Sat_Counter

/-- The build-time switch `#ifdef LRU / LFU / SRRIP`. -/
inductive Policy where
  | LRU
  | LFU
  | SRRIP
deriving DecidableEq, Repr

/-! ## Saturating counters (Cache.c, lines 343-398) -/

/-- `initSatCounter`: value 0, `max_val = (uint8_t)((1 << counter_bits) - 1)`. -/
def initSatCounter (counter_bits : Nat) : Sat_Counter :=
  { counter_bits := counter_bits
    counter := 0
    max_val := ((1 <<< counter_bits) - 1) % 256 }

/-- `incrementCounter`.  The `++` runs only under `counter < max_val`, and `max_val` is a
`uint8_t`, so it cannot wrap. -/
def incrementCounter (sat_counter : Sat_Counter) : Sat_Counter :=
  if sat_counter.counter < sat_counter.max_val then
    { sat_counter with counter := sat_counter.counter + 1 }
  else sat_counter

/-- `decrementCounter`.  The `--` runs only under `counter > 0`. -/
def decrementCounter (sat_counter : Sat_Counter) : Sat_Counter :=
  if sat_counter.counter > 0 then
    { sat_counter with counter := sat_counter.counter - 1 }
  else sat_counter

/-- `setTwoCounter`. -/
def setTwoCounter (sat_counter : Sat_Counter) : Sat_Counter :=
  { sat_counter with counter := 2 }

/-- `setZeroCounter`. -/
def setZeroCounter (sat_counter : Sat_Counter) : Sat_Counter :=
  { sat_counter with counter := 0 }

/-- `checkZero`. -/
def checkZero (sat_counter : Sat_Counter) : Bool :=
  if sat_counter.counter = 0 then true else false

/-- `checkThree`. -/
def checkThree (sat_counter : Sat_Counter) : Bool :=
  if sat_counter.counter = 3 then true else false

/-- One call on a counter, for sequences of calls. -/
inductive CounterOp where
  | inc
  | dec
deriving DecidableEq, Repr

/-- Apply one `incrementCounter` / `decrementCounter` call. -/
def applyCounterOp (c : Sat_Counter) : CounterOp → Sat_Counter
  | CounterOp.inc => incrementCounter c
  | CounterOp.dec => decrementCounter c

/-- Apply a finite sequence of counter calls, first call first. -/
def applyCounterOps (c : Sat_Counter) (ops : List CounterOp) : Sat_Counter :=
  ops.foldl applyCounterOp c

/-! ## Addresses -/

/-- `blkAlign`: `addr & ~mask` on `uint64_t`. -/
def blkAlign (addr mask : Nat) : Nat :=
  addr &&& ((2 ^ 64 - 1) ^^^ mask)

/-- The tag of an address: `addr >> cache->tag_shift`. -/
def tagOf (cache : Cache) (addr : Nat) : Nat :=
  addr >>> cache.tag_shift

/-- The set index of an address: `(addr >> cache->set_shift) & cache->set_mask`. -/
def setIdxOf (cache : Cache) (addr : Nat) : Nat :=
  (addr >>> cache.set_shift) &&& cache.set_mask

/-- The write-back address `(victim->tag << tag_shift) | (victim->set << set_shift)`; the
first shift is on a `uint64_t`, the second on a `uint32_t`. -/
def wbAddrOf (cache : Cache) (victim : Cache_Block) : Nat :=
  ((victim.tag <<< cache.tag_shift) % 2 ^ 64) ||| ((victim.set <<< cache.set_shift) % 2 ^ 32)

/-- The SHCT index of an instruction pointer: `PC & (cache_size - 1)`. -/
def sigOf (pc : Nat) : Nat :=
  pc &&& (cache_size - 1)

/-- The set that a request maps to: the set index of its block-aligned address. -/
def reqSet (cache : Cache) (req : Request) : Nat :=
  setIdxOf cache (blkAlign req.load_or_store_addr cache.blk_mask)

/-- The tag that `findBlock` looks for on behalf of a request. -/
def reqTag (cache : Cache) (req : Request) : Nat :=
  tagOf cache (blkAlign req.load_or_store_addr cache.blk_mask)

/-! ## Cache state helpers -/

/-- The line `*cache->sets[p.1].ways[p.2]`. -/
def Cache.blk (cache : Cache) (p : Nat × Nat) : Cache_Block :=
  cache.sets p.1 p.2

/-- Store `b` into the line `(p.1, p.2)`. -/
def Cache.setBlk (cache : Cache) (p : Nat × Nat) (b : Cache_Block) : Cache :=
  { cache with
    sets := fun s w => if s = p.1 ∧ w = p.2 then b else cache.sets s w }

/-- Replace the ways of set `s`. -/
def Cache.setWays (cache : Cache) (s : Nat) (ways : Nat → Cache_Block) : Cache :=
  { cache with sets := fun s' w => if s' = s then ways w else cache.sets s' w }

/-- The line `b` with its RRPV counter replaced. -/
def setRRPV (b : Cache_Block) (r : Sat_Counter) : Cache_Block :=
  { b with RRPV := r }

/-- Store `c` into `cache->SHCT[i]`. -/
def Cache.setSHCT (cache : Cache) (i : Nat) (c : Sat_Counter) : Cache :=
  { cache with SHCT := fun j => if j = i then c else cache.SHCT j }

/-! ## Loops -/

/-- `for (i = start; i < start + k; i++) if (p i) return i;` : the first index that
satisfies `p`, if any. -/
def scanFirst (p : Nat → Bool) : Nat → Nat → Option Nat
  | 0, _ => none
  | k + 1, i => if p i then some i else scanFirst p k (i + 1)

/-- `for (i = start; i < start + k; i++) if (key i < key victim) victim = i;` : the
minimum search of `lru` and `lfu`. -/
def minScan (key : Nat → Nat) : Nat → Nat → Nat → Nat
  | 0, _, victim => victim
  | k + 1, i, victim => minScan key k (i + 1) (if key i < key victim then i else victim)

/-- The inner scan of `srrip`: every way whose RRPV is 3 overwrites `victim` and sets
`found` (the `break` is commented out in the source). -/
def scanThree (ways : Nat → Cache_Block) : Nat → Nat → Nat × Bool → Nat × Bool
  | 0, _, acc => acc
  | k + 1, i, acc =>
    scanThree ways k (i + 1) (if checkThree (ways i).RRPV then (i, true) else acc)

/-- The aging pass of `srrip`: `incrementCounter(&(ways[i]->RRPV))` for each way. -/
def ageLoop : Nat → Nat → (Nat → Cache_Block) → (Nat → Cache_Block)
  | 0, _, ways => ways
  | k + 1, i, ways =>
    ageLoop k (i + 1)
      (fun j => if j = i then setRRPV (ways i) (incrementCounter (ways i).RRPV) else ways j)

/-- The `for (;;)` of `srrip`: scan, stop when found, else age every way and repeat.
`fuel` bounds the number of scans; `none` means the fuel ran out.  Returns the ways after
aging, the victim's way index and the number of aging passes performed (`passes` counts
them; the source keeps no such counter). -/
def srripLoop (num_ways : Nat) :
    Nat → (Nat → Cache_Block) → Nat → Nat → Option ((Nat → Cache_Block) × Nat × Nat)
  | 0, _, _, _ => none
  | fuel + 1, ways, victim, passes =>
    let r := scanThree ways num_ways 0 (victim, false)
    if r.2 then some (ways, r.1, passes)
    else srripLoop num_ways fuel (ageLoop num_ways 0 ways) r.1 (passes + 1)

/-! ## Lookup and hit path -/

/-- `findBlock`: the first way of the target set that is valid with a matching tag. -/
def findBlock (cache : Cache) (addr : Nat) : Option (Nat × Nat) :=
  let tag := addr >>> cache.tag_shift
  let set_idx := (addr >>> cache.set_shift) &&& cache.set_mask
  match scanFirst (fun i => decide (tag = (cache.sets set_idx i).tag) && (cache.sets set_idx i).valid)
      cache.num_ways 0 with
  | some i => some (set_idx, i)
  | none => none

/-- The line after a hit (Cache.c, lines 99-112). -/
def touchBlock (blk : Cache_Block) (req : Request) (access_time : Nat) : Cache_Block :=
  { blk with
    outcome := true
    sig := blk.PC &&& (cache_size - 1)
    RRPV := setZeroCounter blk.RRPV
    when_touched := access_time
    frequency := (blk.frequency + 1) % 2 ^ 64
    dirty := if req.req_type = Request_Type.STORE then true else blk.dirty }

/-- `accessBlock`: returns the new cache and the hit flag. -/
def accessBlock (cache : Cache) (req : Request) (access_time : Nat) : Cache × Bool :=
  let blk_aligned_addr := blkAlign req.load_or_store_addr cache.blk_mask
  match findBlock cache blk_aligned_addr with
  | some p =>
    let blk := cache.blk p
    let sig := blk.PC &&& (cache_size - 1)
    let cache1 := cache.setSHCT sig (incrementCounter (cache.SHCT sig))
    (cache1.setBlk p (touchBlock blk req access_time), true)
  | none => (cache, false)

/-! ## Victim selection -/

/-- What a victim search hands back: the cache after the search, the victim pointer
(`*victim_blk`), the content of `*wb_addr` and the returned flag. -/
structure VictimResult where
  cache : Cache
  victim_blk : Nat × Nat
  wb_addr : Nat
  wb_required : Bool

/-- "Step three, invalidate victim" of `lru`, `lfu` and `srrip`. -/
def invalidate (victim : Cache_Block) : Cache_Block :=
  { victim with
    tag := UINTMAX_MAX
    valid := false
    dirty := false
    frequency := 0
    when_touched := 0 }

/-- `lru`. -/
def lru (cache : Cache) (addr : Nat) (wb_addr : Nat) : VictimResult :=
  let set_idx := (addr >>> cache.set_shift) &&& cache.set_mask
  let ways := cache.sets set_idx
  match scanFirst (fun i => !(ways i).valid) cache.num_ways 0 with
  | some i => { cache := cache, victim_blk := (set_idx, i), wb_addr := wb_addr, wb_required := false }
  | none =>
    let v := minScan (fun i => (ways i).when_touched) (cache.num_ways - 1) 1 0
    let victim := ways v
    { cache := cache.setBlk (set_idx, v) (invalidate victim)
      victim_blk := (set_idx, v)
      wb_addr := wbAddrOf cache victim
      wb_required := true }

/-- `lfu`. -/
def lfu (cache : Cache) (addr : Nat) (wb_addr : Nat) : VictimResult :=
  let set_idx := (addr >>> cache.set_shift) &&& cache.set_mask
  let ways := cache.sets set_idx
  match scanFirst (fun i => !(ways i).valid) cache.num_ways 0 with
  | some i => { cache := cache, victim_blk := (set_idx, i), wb_addr := wb_addr, wb_required := false }
  | none =>
    let v := minScan (fun i => (ways i).frequency) (cache.num_ways - 1) 1 0
    let victim := ways v
    { cache := cache.setBlk (set_idx, v) (invalidate victim)
      victim_blk := (set_idx, v)
      wb_addr := wbAddrOf cache victim
      wb_required := true }

/-- `srrip`; `none` when the search loop is out of fuel. -/
def srrip (fuel : Nat) (cache : Cache) (addr : Nat) (wb_addr : Nat) : Option VictimResult :=
  let set_idx := (addr >>> cache.set_shift) &&& cache.set_mask
  let ways := cache.sets set_idx
  match scanFirst (fun i => !(ways i).valid) cache.num_ways 0 with
  | some i =>
    some { cache := cache, victim_blk := (set_idx, i), wb_addr := wb_addr, wb_required := false }
  | none =>
    match srripLoop cache.num_ways fuel ways 0 0 with
    | none => none
    | some (ways1, v, _) =>
      let cache1 := cache.setWays set_idx ways1
      let victim := ways1 v
      some { cache := cache1.setBlk (set_idx, v) (invalidate victim)
             victim_blk := (set_idx, v)
             wb_addr := wbAddrOf cache victim
             wb_required := true }

/-- The victim search selected by the build. -/
def findVictim (policy : Policy) (fuel : Nat) (cache : Cache) (addr : Nat) (wb_addr : Nat) :
    Option VictimResult :=
  match policy with
  | Policy.LRU => some (lru cache addr wb_addr)
  | Policy.LFU => some (lfu cache addr wb_addr)
  | Policy.SRRIP => srrip fuel cache addr wb_addr

/-! ## Insertion -/

/-- The `#ifdef SRRIP` part of `insertBlock` (lines 136-153): eviction bookkeeping on the
SHCT, then the insertion RRPV. -/
def shipUpdate (cache : Cache) (p : Nat × Nat) (req : Request) : Cache :=
  let victim := cache.blk p
  let sig0 := victim.PC &&& (cache_size - 1)
  let cache1 :=
    if victim.outcome != true then cache.setSHCT sig0 (decrementCounter (cache.SHCT sig0))
    else cache
  let sig1 := req.PC &&& (cache_size - 1)
  let rrpv :=
    if checkZero (cache1.SHCT sig1) then incrementCounter (setTwoCounter victim.RRPV)
    else setTwoCounter victim.RRPV
  cache1.setBlk p { victim with outcome := false, sig := sig1, RRPV := rrpv }

/-- The common tail of `insertBlock` (lines 154-164). -/
def fillBlock (cache : Cache) (victim : Cache_Block) (req : Request) (access_time : Nat) :
    Cache_Block :=
  { victim with
    tag := req.load_or_store_addr >>> cache.tag_shift
    valid := true
    when_touched := access_time
    frequency := (victim.frequency + 1) % 2 ^ 64
    dirty := if req.req_type = Request_Type.STORE then true else victim.dirty }

/-- "Step two, insert the new block" of `insertBlock` (lines 135-164) on the victim `p`:
the `#ifdef SRRIP` part when the policy is SRRIP, then the common tail. -/
def insertTail (policy : Policy) (cache : Cache) (p : Nat × Nat) (req : Request)
    (access_time : Nat) : Cache :=
  let cache1 := if policy = Policy.SRRIP then shipUpdate cache p req else cache
  cache1.setBlk p (fillBlock cache1 (cache1.blk p) req access_time)

/-- What `insertBlock` hands back: the new cache, the content of `*wb_addr`, the returned
flag, and (for reference in the theorems) the line that was filled. -/
structure InsertResult where
  cache : Cache
  wb_addr : Nat
  wb_required : Bool
  victim : Nat × Nat

/-- `insertBlock`; `none` only when the `srrip` search is out of fuel. -/
def insertBlock (policy : Policy) (fuel : Nat) (cache : Cache) (req : Request)
    (access_time : Nat) (wb_addr : Nat) : Option InsertResult :=
  let blk_aligned_addr := blkAlign req.load_or_store_addr cache.blk_mask
  match findVictim policy fuel cache blk_aligned_addr wb_addr with
  | none => none
  | some r =>
    some { cache := insertTail policy r.cache r.victim_blk req access_time
           wb_addr := r.wb_addr
           wb_required := r.wb_required
           victim := r.victim_blk }

/-! ## Construction -/

/-- Block `i` of `cache->blocks` after the first loop of `initCache` and the set/way
assignment of the third; `heap i` is the content of the freshly allocated block (the
fields `PC`, `core_id` and `RRPV_idx` are not initialised). -/
def initBlock (heap : Nat → Cache_Block) (i : Nat) : Cache_Block :=
  { heap i with
    tag := UINTMAX_MAX
    valid := false
    dirty := false
    when_touched := 0
    frequency := 0
    outcome := false
    sig := 0
    RRPV := initSatCounter counter_bits
    set := i / assoc
    way := i % assoc }

/-- `initCache`.  `sets[i / assoc].ways[i % assoc] = &blocks[i]`, so way `w` of set `s` is
block `s * assoc + w`.  The SHCT has `cache_size` entries, each initialised to 2. -/
def initCache (heap : Nat → Cache_Block) : Cache :=
  let num_blocks := cache_size * 1024 / block_size
  let num_sets := cache_size * 1024 / (block_size * assoc)
  let set_shift := Nat.log2 block_size
  { blk_mask := block_size - 1
    num_blocks := num_blocks
    num_sets := num_sets
    num_ways := assoc
    set_shift := set_shift
    set_mask := num_sets - 1
    tag_shift := set_shift + Nat.log2 num_sets
    sets := fun s w => initBlock heap (s * assoc + w)
    SHCT := fun _ => setTwoCounter (initSatCounter counter_bits) }

/-! ## Operation sequences -/

/-- One call of the driver on the cache. -/
inductive Op where
  | access (req : Request) (access_time : Nat)
  | insert (req : Request) (access_time : Nat) (wb_addr : Nat)

/-- Run one call: the new cache and, for an `insertBlock`, the line it filled. -/
def stepOp (policy : Policy) (fuel : Nat) (cache : Cache) : Op → Option (Cache × Option (Nat × Nat))
  | Op.access req t => some ((accessBlock cache req t).1, none)
  | Op.insert req t wb =>
    match insertBlock policy fuel cache req t wb with
    | none => none
    | some r => some (r.cache, some r.victim)

/-- Run a sequence of calls, first call first. -/
def runOps (policy : Policy) (fuel : Nat) : List Op → Cache → Option Cache
  | [], cache => some cache
  | op :: ops, cache =>
    match stepOp policy fuel cache op with
    | none => none
    | some (cache1, _) => runOps policy fuel ops cache1

/-- No `insertBlock` of the sequence, run from `cache`, selects the line `line` as victim. -/
def Avoids (policy : Policy) (fuel : Nat) (line : Nat × Nat) : List Op → Cache → Prop
  | [], _ => True
  | op :: ops, cache =>
    match stepOp policy fuel cache op with
    | none => True
    | some (cache1, v) => v ≠ some line ∧ Avoids policy fuel line ops cache1

/-- The first `k` inserts of a fill: `insertBlock (a i) (t i)` for `i = 0 .. k - 1`. -/
def fillOpsOf (a : Nat → Request) (t wb : Nat → Nat) (k : Nat) : List Op :=
  (List.range k).map fun i => Op.insert (a i) (t i) (wb i)

/-! ## Concrete states -/

/-- A freshly allocated heap whose bytes are all zero. -/
def heap0 : Nat → Cache_Block :=
  fun _ => ⟨0, false, false, 0, 0, 0, 0, 0, 0, 0, false, 0, ⟨0, 0, 0⟩⟩

/-- The `i`-th of the conflicting requests `0x0, 0x10000, 0x20000, ...`: loads issued by
the instruction at PC 0, all mapping to set 0 of the cache built by `initCache`. -/
def conflictReq (i : Nat) : Request :=
  ⟨Request_Type.LOAD, i * 0x10000, 0⟩

/-- The cache built by `initCache` on a zeroed heap after `insertBlock` of the first `k`
conflicting requests, at times `1, 2, ..., k`. -/
def fillState (policy : Policy) (k : Nat) : Cache :=
  (runOps policy 4 (fillOpsOf conflictReq (fun i => i + 1) (fun _ => 0) k)
    (initCache heap0)).getD (initCache heap0)

/-! ## State predicates -/

/-- The RRPV of a line is a 2-bit counter: `max_val = 3` and value at most 3. -/
def RRPVok (b : Cache_Block) : Prop :=
  b.RRPV.max_val = 3 ∧ b.RRPV.counter ≤ 3

/-- Every way of set `s` has a 2-bit RRPV. -/
def SetOk (cache : Cache) (s : Nat) : Prop :=
  ∀ w, w < cache.num_ways → RRPVok (cache.sets s w)

/-- Well-formed cache: at least one way per set, the block-offset bits lie below the tag
bits, and every line has a 2-bit RRPV (as `initCache` sets it up). -/
def WF (cache : Cache) : Prop :=
  0 < cache.num_ways ∧ cache.blk_mask < 2 ^ cache.tag_shift ∧ ∀ s, SetOk cache s

/-- The geometry of two caches is the same. -/
def SameGeom (c c1 : Cache) : Prop :=
  c1.blk_mask = c.blk_mask ∧ c1.num_blocks = c.num_blocks ∧ c1.num_sets = c.num_sets ∧
  c1.num_ways = c.num_ways ∧ c1.set_shift = c.set_shift ∧ c1.set_mask = c.set_mask ∧
  c1.tag_shift = c.tag_shift

/-- The geometry that `initCache` derives from the constants. -/
def InitGeom (c : Cache) : Prop :=
  c.blk_mask = 63 ∧ c.num_ways = 8 ∧ c.set_shift = 6 ∧ c.set_mask = 1023 ∧ c.tag_shift = 16

/-- The `set` field of every line is the index of the set that holds it. -/
def SetFieldOk (c : Cache) : Prop :=
  ∀ s w, s ≤ c.set_mask → w < c.num_ways → (c.sets s w).set = s

/-- The line `b1` holds the same block as `b`: same tag and validity, same slot. -/
def SameLine (b b1 : Cache_Block) : Prop :=
  b1.tag = b.tag ∧ b1.valid = b.valid ∧ b1.set = b.set ∧ b1.way = b.way ∧ b1.PC = b.PC

/-- A line that is not valid is not dirty and has reference count 0. -/
def Clean (b : Cache_Block) : Prop :=
  b.valid = false → b.dirty = false ∧ b.frequency = 0

/-- A 2-bit saturating counter: `max_val = 3` and value at most 3. -/
def CounterOk (x : Sat_Counter) : Prop :=
  x.max_val = 3 ∧ x.counter ≤ 3

/-- A line that is not valid has its outcome flag clear. -/
def Untouched (b : Cache_Block) : Prop :=
  b.valid = false → b.outcome = false

/-- Within every set, at most one valid way holds any given tag. -/
def TagUnique (c : Cache) : Prop :=
  ∀ s w1 w2, w1 < c.num_ways → w2 < c.num_ways →
    (c.sets s w1).valid = true → (c.sets s w2).valid = true →
    (c.sets s w1).tag = (c.sets s w2).tag → w1 = w2

/-! ## Reachable states -/

/-- The states that a driver reaches from `initCache` by `accessBlock` and `insertBlock`
calls (an `insertBlock` call that returns, whatever the fuel); `guard cache req` is the
condition under which the driver calls `insertBlock` for `req`. -/
inductive Reach (policy : Policy) (guard : Cache → Request → Prop) : Cache → Prop where
  | init (heap : Nat → Cache_Block) : Reach policy guard (initCache heap)
  | access (c : Cache) (req : Request) (t : Nat) :
      Reach policy guard c → Reach policy guard (accessBlock c req t).1
  | insert (c : Cache) (req : Request) (t wb fuel : Nat) (res : InsertResult) :
      Reach policy guard c → guard c req → insertBlock policy fuel c req t wb = some res →
      Reach policy guard res.cache

/-- Reachable from `initCache` by any `accessBlock` and `insertBlock` calls. -/
def Reachable (policy : Policy) (c : Cache) : Prop :=
  Reach policy (fun _ _ => True) c

/-- Reachable from `initCache` when the driver inserts a (64-bit) address only on a miss:
only when `findBlock` on the block-aligned address is `NULL`. -/
def MissDriven (policy : Policy) (c : Cache) : Prop :=
  Reach policy
    (fun c1 req => req.load_or_store_addr < 2 ^ 64 ∧
      findBlock c1 (blkAlign req.load_or_store_addr c1.blk_mask) = none) c

/-! ## Further concrete states -/

/-- A request for address `0x12345` issued by the instruction at PC `0x400`. -/
def pcReq : Request :=
  ⟨Request_Type.STORE, 0x12345, 0x400⟩

/-- The `i`-th conflicting request when each is issued by an instruction of its own, at PC
`i + 1`. -/
def pcConflictReq (i : Nat) : Request :=
  ⟨Request_Type.LOAD, i * 0x10000, i + 1⟩

/-- The cache built by `initCache` on a zeroed heap after `insertBlock` under SRRIP of the
first `k` requests `pcConflictReq`, at times `1, 2, ..., k`. -/
def pcFillState (k : Nat) : Cache :=
  (runOps Policy.SRRIP 4 (fillOpsOf pcConflictReq (fun i => i + 1) (fun _ => 0) k)
    (initCache heap0)).getD (initCache heap0)

/-- The state `pcFillState 8` after an `accessBlock` that hits the request inserted last:
the line in way 7 of set 0 has its outcome flag set and RRPV 0, the SHCT counter of its `PC`
is back at 1. -/
def hitState : Cache :=
  (runOps Policy.SRRIP 4
    (fillOpsOf pcConflictReq (fun i => i + 1) (fun _ => 0) 8 ++ [Op.access (pcConflictReq 7) 9])
    (initCache heap0)).getD (initCache heap0)

/-- A store to the unaligned address `0x3003f` (set 0, tag 3). -/
def wbReq : Request :=
  ⟨Request_Type.STORE, 0x3003f, 0⟩

/-- Seven inserts that fill the rest of set 0: the conflicting requests with the tags
0, 1, 2, 4, 5, 6, 7 at the times 2, 3, 4, 6, 7, 8, 9. -/
def wbOps : List Op :=
  [0, 1, 2, 4, 5, 6, 7].map fun i => Op.insert (conflictReq i) (i + 2) 0

/-- `Avoids` as a Boolean, for evaluation on concrete call sequences. -/
def avoidsB (policy : Policy) (fuel : Nat) (line : Nat × Nat) : List Op → Cache → Bool
  | [], _ => true
  | op :: ops, cache =>
    match stepOp policy fuel cache op with
    | none => true
    | some (cache1, v) => decide (v ≠ some line) && avoidsB policy fuel line ops cache1

/-! ## Loop lemmas -/

theorem scanFirst_some {p : Nat → Bool} {k i j : Nat} (h : scanFirst p k i = some j) :
    i ≤ j ∧ j < i + k ∧ p j = true ∧ ∀ m, i ≤ m → m < j → p m = false := by
  induction k generalizing i with
  | zero => simp [scanFirst] at h
  | succ k ih =>
    unfold scanFirst at h
    by_cases hp : p i = true
    · simp [hp] at h
      subst h
      refine ⟨le_refl _, by omega, hp, ?_⟩
      intro m h1 h2
      omega
    · simp [hp] at h
      obtain ⟨h1, h2, h3, h4⟩ := ih h
      refine ⟨by omega, by omega, h3, ?_⟩
      intro m hm1 hm2
      by_cases hmi : m = i
      · subst hmi
        simpa using hp
      · exact h4 m (by omega) hm2

theorem scanFirst_none {p : Nat → Bool} {k i : Nat} :
    scanFirst p k i = none ↔ ∀ m, i ≤ m → m < i + k → p m = false := by
  induction k generalizing i with
  | zero =>
    simp only [scanFirst, true_iff]
    intro m h1 h2
    omega
  | succ k ih =>
    unfold scanFirst
    by_cases hp : p i = true
    · simp only [hp, if_true]
      constructor
      · intro h
        cases h
      · intro h
        have := h i (le_refl _) (by omega)
        rw [hp] at this
        cases this
    · have hp' : p i = false := by simpa using hp
      simp only [hp', Bool.false_eq_true, if_false]
      rw [ih]
      constructor
      · intro h m h1 h2
        by_cases hmi : m = i
        · subst hmi
          exact hp'
        · exact h m (by omega) (by omega)
      · intro h m h1 h2
        exact h m (by omega) (by omega)

theorem scanFirst_exists {p : Nat → Bool} {k i m : Nat} (h1 : i ≤ m) (h2 : m < i + k)
    (hm : p m = true) : ∃ j, scanFirst p k i = some j := by
  cases hs : scanFirst p k i with
  | some j => exact ⟨j, rfl⟩
  | none =>
    have := (scanFirst_none.mp hs) m h1 h2
    rw [hm] at this
    cases this

theorem minScan_spec (key : Nat → Nat) (k i v : Nat) (hv : v < i) :
    (minScan key k i v = v ∨ (i ≤ minScan key k i v ∧ minScan key k i v < i + k)) ∧
    key (minScan key k i v) ≤ key v ∧
    (∀ m, i ≤ m → m < i + k → key (minScan key k i v) ≤ key m) ∧
    (minScan key k i v ≠ v → key (minScan key k i v) < key v) ∧
    (∀ m, i ≤ m → m < minScan key k i v → key (minScan key k i v) < key m) := by
  induction k generalizing i v with
  | zero =>
    have e : minScan key 0 i v = v := rfl
    rw [e]
    refine ⟨Or.inl rfl, le_refl _, ?_, ?_, ?_⟩
    · intro m h1 h2
      omega
    · intro h
      exact absurd rfl h
    · intro m h1 h2
      omega
  | succ k ih =>
    unfold minScan
    by_cases hlt : key i < key v
    · simp only [hlt, if_true]
      obtain ⟨a1, a2, a3, a4, a5⟩ := ih (i + 1) i (by omega)
      refine ⟨?_, by omega, ?_, ?_, ?_⟩
      · rcases a1 with h | h
        · right
          rw [h]
          omega
        · right
          omega
      · intro m h1 h2
        by_cases hmi : m = i
        · subst hmi
          exact a2
        · exact a3 m (by omega) (by omega)
      · intro _
        omega
      · intro m h1 h2
        by_cases hmi : m = i
        · subst hmi
          apply a4
          omega
        · exact a5 m (by omega) h2
    · simp only [hlt, if_false]
      obtain ⟨a1, a2, a3, a4, a5⟩ := ih (i + 1) v (by omega)
      refine ⟨?_, a2, ?_, a4, ?_⟩
      · rcases a1 with h | h
        · left
          exact h
        · right
          omega
      · intro m h1 h2
        by_cases hmi : m = i
        · subst hmi
          omega
        · exact a3 m (by omega) (by omega)
      · intro m h1 h2
        by_cases hmi : m = i
        · subst hmi
          have hne : minScan key k (m + 1) v ≠ v := by omega
          have := a4 hne
          omega
        · exact a5 m (by omega) h2

theorem scanThree_spec (ways : Nat → Cache_Block) (k i : Nat) (acc : Nat × Bool) :
    ((∀ m, i ≤ m → m < i + k → (ways m).RRPV.counter ≠ 3) ∧ scanThree ways k i acc = acc) ∨
    ((scanThree ways k i acc).2 = true ∧ i ≤ (scanThree ways k i acc).1 ∧
      (scanThree ways k i acc).1 < i + k ∧
      (ways (scanThree ways k i acc).1).RRPV.counter = 3 ∧
      ∀ m, (scanThree ways k i acc).1 < m → m < i + k → (ways m).RRPV.counter ≠ 3) := by
  induction k generalizing i acc with
  | zero =>
    left
    refine ⟨?_, rfl⟩
    intro m h1 h2
    omega
  | succ k ih =>
    unfold scanThree
    by_cases h3 : (ways i).RRPV.counter = 3
    · have hc : checkThree (ways i).RRPV = true := by simp [checkThree, h3]
      simp only [hc, if_true]
      rcases ih (i + 1) (i, true) with ⟨a1, a2⟩ | ⟨a1, a2, a3, a4, a5⟩
      · right
        rw [a2]
        refine ⟨rfl, le_refl _, by omega, h3, ?_⟩
        intro m h1 h2
        exact a1 m (by simpa using h1) (by omega)
      · right
        exact ⟨a1, by omega, by omega, a4, fun m h1 h2 => a5 m h1 (by omega)⟩
    · have hc : checkThree (ways i).RRPV = false := by simp [checkThree, h3]
      simp only [hc, Bool.false_eq_true, if_false]
      rcases ih (i + 1) acc with ⟨a1, a2⟩ | ⟨a1, a2, a3, a4, a5⟩
      · left
        refine ⟨?_, a2⟩
        intro m h1 h2
        by_cases hmi : m = i
        · subst hmi
          exact h3
        · exact a1 m (by omega) (by omega)
      · right
        exact ⟨a1, by omega, by omega, a4, fun m h1 h2 => a5 m h1 (by omega)⟩

theorem ageLoop_apply (k i : Nat) (ways : Nat → Cache_Block) (j : Nat) :
    ageLoop k i ways j =
      if i ≤ j ∧ j < i + k then setRRPV (ways j) (incrementCounter (ways j).RRPV)
      else ways j := by
  induction k generalizing i ways with
  | zero =>
    have : ¬ (i ≤ j ∧ j < i + 0) := by omega
    rw [if_neg this]
    rfl
  | succ k ih =>
    unfold ageLoop
    rw [ih]
    by_cases hji : j = i
    · subst hji
      have h1 : ¬ (j + 1 ≤ j ∧ j < j + 1 + k) := by omega
      have h2 : j ≤ j ∧ j < j + (k + 1) := by omega
      simp [h1, h2]
    · by_cases hr : i + 1 ≤ j ∧ j < i + 1 + k
      · have h2 : i ≤ j ∧ j < i + (k + 1) := by omega
        simp [hr, h2, hji]
      · have h2 : ¬ (i ≤ j ∧ j < i + (k + 1)) := by omega
        simp [hr, h2, hji]

theorem srripLoop_found (n fuel : Nat) (ways : Nat → Cache_Block) (v p : Nat)
    (h : (scanThree ways n 0 (v, false)).2 = true) :
    srripLoop n (fuel + 1) ways v p = some (ways, (scanThree ways n 0 (v, false)).1, p) := by
  simp [srripLoop, h]

theorem srripLoop_age (n fuel : Nat) (ways : Nat → Cache_Block) (v p : Nat)
    (h : ∀ m, m < n → (ways m).RRPV.counter ≠ 3) :
    srripLoop n (fuel + 1) ways v p = srripLoop n fuel (ageLoop n 0 ways) v (p + 1) := by
  rcases scanThree_spec ways n 0 (v, false) with ⟨_, a2⟩ | ⟨_, _, a3, a4, _⟩
  · simp [srripLoop, a2]
  · exact absurd a4 (h _ (by omega))

/-- Result of the search loop on a set whose RRPVs are 2-bit counters. -/
theorem srripLoop_spec (n d : Nat) : ∀ (fuel : Nat) (ways : Nat → Cache_Block) (v p : Nat),
    d < fuel → (∀ m, m < n → RRPVok (ways m)) →
    (∃ m, m < n ∧ 3 ≤ (ways m).RRPV.counter + d) →
    ∃ ways1 v1 p1, srripLoop n fuel ways v p = some (ways1, v1, p1) ∧
      v1 < n ∧ (ways1 v1).RRPV.counter = 3 ∧
      (∀ m, v1 < m → m < n → (ways1 m).RRPV.counter ≠ 3) ∧
      (∀ m, m < n → RRPVok (ways1 m)) ∧
      (∀ j, ways1 j = setRRPV (ways j) (ways1 j).RRPV) ∧
      (∀ j, n ≤ j → ways1 j = ways j) ∧ p1 ≤ p + d := by
  induction d with
  | zero =>
    intro fuel ways v p hf hok hex
    obtain ⟨m, hm, hm3⟩ := hex
    have hm3' : (ways m).RRPV.counter = 3 := by
      have := (hok m hm).2
      omega
    obtain ⟨f, rfl⟩ : ∃ f, fuel = f + 1 := ⟨fuel - 1, by omega⟩
    rcases scanThree_spec ways n 0 (v, false) with ⟨a1, _⟩ | ⟨a1, _, a3, a4, a5⟩
    · exact absurd hm3' (a1 m (by omega) (by omega))
    · refine ⟨ways, _, p, srripLoop_found n f ways v p a1, by omega, a4, ?_, hok, ?_, ?_, by omega⟩
      · intro j h1 h2
        exact a5 j h1 (by omega)
      · intro j
        rfl
      · intro j _
        rfl
  | succ d ih =>
    intro fuel ways v p hf hok hex
    obtain ⟨f, rfl⟩ : ∃ f, fuel = f + 1 := ⟨fuel - 1, by omega⟩
    rcases scanThree_spec ways n 0 (v, false) with ⟨a1, _⟩ | ⟨a1, _, a3, a4, a5⟩
    · have hno : ∀ m, m < n → (ways m).RRPV.counter ≠ 3 := fun m hm => a1 m (by omega) (by omega)
      rw [srripLoop_age n f ways v p hno]
      have hok' : ∀ m, m < n → RRPVok (ageLoop n 0 ways m) := by
        intro m hm
        rw [ageLoop_apply]
        have hc : 0 ≤ m ∧ m < 0 + n := by omega
        rw [if_pos hc]
        obtain ⟨h1, h2⟩ := hok m hm
        unfold RRPVok setRRPV incrementCounter
        split_ifs with hlt
        · simp only
          omega
        · exact ⟨h1, h2⟩
      have hex' : ∃ m, m < n ∧ 3 ≤ (ageLoop n 0 ways m).RRPV.counter + d := by
        obtain ⟨m, hm, hm3⟩ := hex
        refine ⟨m, hm, ?_⟩
        rw [ageLoop_apply]
        have hc : 0 ≤ m ∧ m < 0 + n := by omega
        rw [if_pos hc]
        obtain ⟨h1, h2⟩ := hok m hm
        have hne := hno m hm
        unfold setRRPV incrementCounter
        split_ifs with hlt
        · simp only
          omega
        · omega
      obtain ⟨ways1, v1, p1, e, b1, b2, b3, b4, b5, b6, b7⟩ :=
        ih f (ageLoop n 0 ways) v (p + 1) (by omega) hok' hex'
      refine ⟨ways1, v1, p1, e, b1, b2, b3, b4, ?_, ?_, by omega⟩
      · intro j
        rw [b5 j, ageLoop_apply]
        split_ifs <;> rfl
      · intro j hj
        rw [b6 j hj, ageLoop_apply]
        have hc : ¬ (0 ≤ j ∧ j < 0 + n) := by omega
        rw [if_neg hc]
    · refine ⟨ways, _, p, srripLoop_found n f ways v p a1, by omega, a4, ?_, hok, ?_, ?_, by omega⟩
      · intro j h1 h2
        exact a5 j h1 (by omega)
      · intro j
        rfl
      · intro j _
        rfl

/-! ## Address arithmetic -/

theorem testBit_allOnes_xor (mask i : Nat) :
    ((2 ^ 64 - 1) ^^^ mask).testBit i = (decide (i < 64) ^^ mask.testBit i) := by
  rw [Nat.testBit_xor, Nat.testBit_two_pow_sub_one]

theorem blkAlign_le (a mask : Nat) : blkAlign a mask ≤ a := by
  unfold blkAlign
  exact Nat.and_le_left

theorem blkAlign_testBit (a mask i : Nat) :
    (blkAlign a mask).testBit i = (a.testBit i && (decide (i < 64) ^^ mask.testBit i)) := by
  unfold blkAlign
  rw [Nat.testBit_and, testBit_allOnes_xor]

/-- The tag bits are untouched by block alignment when the block-offset mask lies below
the tag shift. -/
theorem shiftRight_blkAlign (a mask ts : Nat) (ha : a < 2 ^ 64) (hm : mask < 2 ^ ts) :
    blkAlign a mask >>> ts = a >>> ts := by
  apply Nat.eq_of_testBit_eq
  intro i
  rw [Nat.testBit_shiftRight, Nat.testBit_shiftRight, blkAlign_testBit]
  have hmask : mask.testBit (ts + i) = false := by
    apply Nat.testBit_lt_two_pow
    calc mask < 2 ^ ts := hm
      _ ≤ 2 ^ (ts + i) := Nat.pow_le_pow_right (by norm_num) (by omega)
  rw [hmask]
  by_cases h64 : ts + i < 64
  · simp [h64]
  · have : a.testBit (ts + i) = false := by
      apply Nat.testBit_lt_two_pow
      calc a < 2 ^ 64 := ha
        _ ≤ 2 ^ (ts + i) := Nat.pow_le_pow_right (by norm_num) (by omega)
    simp [this]

theorem round_trip_bits (x : Nat) (hlow : ∀ i, i < 6 → x.testBit i = false) :
    ((x >>> 16) <<< 16) ||| (((x >>> 6) &&& 1023) <<< 6) = x := by
  apply Nat.eq_of_testBit_eq
  intro i
  have e : (1023 : Nat) = 2 ^ 10 - 1 := by norm_num
  simp only [Nat.testBit_or, Nat.testBit_shiftLeft, Nat.testBit_shiftRight, Nat.testBit_and, e,
    Nat.testBit_two_pow_sub_one]
  by_cases h6 : 6 ≤ i
  · by_cases h16 : 16 ≤ i
    · have e1 : 16 + (i - 16) = i := by omega
      have e2 : 6 + (i - 6) = i := by omega
      simp only [h6, h16, e1, e2, decide_True, Bool.true_and, Bool.and_true]
      cases x.testBit i <;> simp
    · have e2 : 6 + (i - 6) = i := by omega
      have h10 : i - 6 < 10 := by omega
      simp [h6, h16, e2, h10]
  · have h16 : ¬ 16 ≤ i := by omega
    have := hlow i (by omega)
    simp [h6, h16, this]

theorem blkAlign_low (a i : Nat) (hi : i < 6) : (blkAlign a 63).testBit i = false := by
  rw [blkAlign_testBit]
  have e : (63 : Nat) = 2 ^ 6 - 1 := by norm_num
  rw [e, Nat.testBit_two_pow_sub_one]
  have h64 : i < 64 := by omega
  simp [hi, h64]

theorem shl16_lt (x : Nat) (hx : x < 2 ^ 64) : (x >>> 16) <<< 16 < 2 ^ 64 := by
  rw [Nat.shiftLeft_eq, Nat.shiftRight_eq_div_pow]
  exact lt_of_le_of_lt (Nat.div_mul_le_self x (2 ^ 16)) hx

theorem shl6_lt (x : Nat) : ((x >>> 6) &&& 1023) <<< 6 < 2 ^ 32 := by
  rw [Nat.shiftLeft_eq]
  have : (x >>> 6) &&& 1023 ≤ 1023 := Nat.and_le_right
  omega

theorem log2_block_size : Nat.log2 64 = 6 := by
  have h : (64 : Nat) = 2 ^ 6 := by norm_num
  rw [h, Nat.log2_two_pow]

theorem log2_num_sets : Nat.log2 1024 = 10 := by
  have h : (1024 : Nat) = 2 ^ 10 := by norm_num
  rw [h, Nat.log2_two_pow]

/-- The cache built by `initCache`, with the geometry computed. -/
theorem initCache_eq (heap : Nat → Cache_Block) :
    initCache heap = ⟨63, 8192, 1024, 8, 6, 1023, 16, fun s w => initBlock heap (s * 8 + w),
      fun _ => ⟨2, 3, 2⟩⟩ := by
  have h1 : Nat.log2 block_size = 6 := log2_block_size
  have h2 : Nat.log2 (cache_size * 1024 / (block_size * assoc)) = 10 := log2_num_sets
  unfold initCache
  simp only [h1, h2]
  rfl

theorem initCache_geom (heap : Nat → Cache_Block) :
    (initCache heap).blk_mask = 63 ∧ (initCache heap).num_ways = 8 ∧
    (initCache heap).set_shift = 6 ∧ (initCache heap).set_mask = 1023 ∧
    (initCache heap).tag_shift = 16 := by
  rw [initCache_eq]
  exact ⟨rfl, rfl, rfl, rfl, rfl⟩

/-- C8. Address round trip: with the geometry built by `initCache` (`blk_mask = 63`,
`set_shift = 6`, `set_mask = 1023`, `tag_shift = 16`), for every 64-bit address `a` the tag
and set index of `blkAlign a` recombine to `blkAlign a`, both as plain shifts and as the
wrapping 64-bit shifts of the C expression. -/
theorem address_round_trip (heap : Nat → Cache_Block) (a : Nat) (ha : a < 2 ^ 64) :
    (initCache heap).blk_mask = 63 ∧ (initCache heap).set_shift = 6 ∧
    (initCache heap).set_mask = 1023 ∧ (initCache heap).tag_shift = 16 ∧
    ((tagOf (initCache heap) (blkAlign a (initCache heap).blk_mask)
        <<< (initCache heap).tag_shift) |||
      (setIdxOf (initCache heap) (blkAlign a (initCache heap).blk_mask)
        <<< (initCache heap).set_shift)) = blkAlign a (initCache heap).blk_mask ∧
    (((tagOf (initCache heap) (blkAlign a (initCache heap).blk_mask)
        <<< (initCache heap).tag_shift) % 2 ^ 64) |||
      ((setIdxOf (initCache heap) (blkAlign a (initCache heap).blk_mask)
        <<< (initCache heap).set_shift) % 2 ^ 64)) = blkAlign a (initCache heap).blk_mask := by
  obtain ⟨g1, _, g3, g4, g5⟩ := initCache_geom heap
  refine ⟨g1, g3, g4, g5, ?_, ?_⟩
  · unfold tagOf setIdxOf
    rw [g1, g3, g4, g5]
    exact round_trip_bits _ (fun i hi => blkAlign_low a i hi)
  · unfold tagOf setIdxOf
    rw [g1, g3, g4, g5]
    have hx : blkAlign a 63 < 2 ^ 64 := lt_of_le_of_lt (blkAlign_le a 63) ha
    rw [Nat.mod_eq_of_lt (shl16_lt _ hx),
      Nat.mod_eq_of_lt (lt_trans (shl6_lt _) (by norm_num))]
    exact round_trip_bits _ (fun i hi => blkAlign_low a i hi)

/-! ## Saturating counters -/

theorem applyCounterOps_inv (b : Nat) (ops : List CounterOp) :
    (applyCounterOps (initSatCounter b) ops).max_val = ((1 <<< b) - 1) % 256 ∧
    (applyCounterOps (initSatCounter b) ops).counter_bits = b ∧
    (applyCounterOps (initSatCounter b) ops).counter ≤
      (applyCounterOps (initSatCounter b) ops).max_val := by
  unfold applyCounterOps
  induction ops using List.reverseRecOn with
  | nil => simp [initSatCounter]
  | append_singleton ops op ih =>
    rw [List.foldl_append]
    simp only [List.foldl_cons, List.foldl_nil]
    obtain ⟨h1, h2, h3⟩ := ih
    cases op with
    | inc =>
      simp only [applyCounterOp, incrementCounter]
      split_ifs with h
      · exact ⟨h1, h2, by simp only; omega⟩
      · exact ⟨h1, h2, h3⟩
    | dec =>
      simp only [applyCounterOp, decrementCounter]
      split_ifs with h
      · exact ⟨h1, h2, by simp only; omega⟩
      · exact ⟨h1, h2, h3⟩

/-- C9. Counter bounds: for every width `b`, after any finite sequence of `incrementCounter`
and `decrementCounter` calls on `initSatCounter b` the value is at most `2 ^ b - 1` (and at
most `max_val`); on such a counter `incrementCounter` leaves a counter at `max_val` unchanged
and otherwise adds exactly 1, `decrementCounter` leaves a counter at 0 unchanged and otherwise
subtracts exactly 1, and neither changes `max_val`. -/
theorem counter_bounds (b : Nat) (ops : List CounterOp) :
    0 ≤ (applyCounterOps (initSatCounter b) ops).counter ∧
    (applyCounterOps (initSatCounter b) ops).counter ≤ 2 ^ b - 1 ∧
    (applyCounterOps (initSatCounter b) ops).counter ≤
      (applyCounterOps (initSatCounter b) ops).max_val ∧
    ((applyCounterOps (initSatCounter b) ops).counter =
        (applyCounterOps (initSatCounter b) ops).max_val →
      incrementCounter (applyCounterOps (initSatCounter b) ops) =
        applyCounterOps (initSatCounter b) ops) ∧
    ((applyCounterOps (initSatCounter b) ops).counter ≠
        (applyCounterOps (initSatCounter b) ops).max_val →
      (incrementCounter (applyCounterOps (initSatCounter b) ops)).counter =
        (applyCounterOps (initSatCounter b) ops).counter + 1) ∧
    ((applyCounterOps (initSatCounter b) ops).counter = 0 →
      decrementCounter (applyCounterOps (initSatCounter b) ops) =
        applyCounterOps (initSatCounter b) ops) ∧
    ((applyCounterOps (initSatCounter b) ops).counter ≠ 0 →
      (decrementCounter (applyCounterOps (initSatCounter b) ops)).counter + 1 =
        (applyCounterOps (initSatCounter b) ops).counter) ∧
    (incrementCounter (applyCounterOps (initSatCounter b) ops)).max_val =
      (applyCounterOps (initSatCounter b) ops).max_val ∧
    (decrementCounter (applyCounterOps (initSatCounter b) ops)).max_val =
      (applyCounterOps (initSatCounter b) ops).max_val := by
  obtain ⟨h1, _, h3⟩ := applyCounterOps_inv b ops
  generalize applyCounterOps (initSatCounter b) ops = c at h1 h3
  have hmax : c.max_val ≤ 2 ^ b - 1 := by
    rw [h1, Nat.shiftLeft_eq, Nat.one_mul]
    exact Nat.mod_le _ _
  refine ⟨Nat.zero_le _, le_trans h3 hmax, h3, ?_, ?_, ?_, ?_, ?_, ?_⟩
  · intro h
    simp [incrementCounter, h]
  · intro h
    have : c.counter < c.max_val := by omega
    simp [incrementCounter, this]
  · intro h
    simp [decrementCounter, h]
  · intro h
    have : c.counter > 0 := by omega
    simp only [decrementCounter, this, if_true]
    omega
  · unfold incrementCounter
    split_ifs <;> rfl
  · unfold decrementCounter
    split_ifs <;> rfl

/-! ## Cache updates -/

@[simp] theorem setBlk_num_ways (c : Cache) (p : Nat × Nat) (b : Cache_Block) :
    (c.setBlk p b).num_ways = c.num_ways := rfl
@[simp] theorem setBlk_blk_mask (c : Cache) (p : Nat × Nat) (b : Cache_Block) :
    (c.setBlk p b).blk_mask = c.blk_mask := rfl
@[simp] theorem setBlk_set_shift (c : Cache) (p : Nat × Nat) (b : Cache_Block) :
    (c.setBlk p b).set_shift = c.set_shift := rfl
@[simp] theorem setBlk_set_mask (c : Cache) (p : Nat × Nat) (b : Cache_Block) :
    (c.setBlk p b).set_mask = c.set_mask := rfl
@[simp] theorem setBlk_tag_shift (c : Cache) (p : Nat × Nat) (b : Cache_Block) :
    (c.setBlk p b).tag_shift = c.tag_shift := rfl
@[simp] theorem setBlk_SHCT (c : Cache) (p : Nat × Nat) (b : Cache_Block) :
    (c.setBlk p b).SHCT = c.SHCT := rfl
theorem setBlk_sets (c : Cache) (p : Nat × Nat) (b : Cache_Block) (s w : Nat) :
    (c.setBlk p b).sets s w = if s = p.1 ∧ w = p.2 then b else c.sets s w := rfl
@[simp] theorem setBlk_blk_self (c : Cache) (p : Nat × Nat) (b : Cache_Block) :
    (c.setBlk p b).blk p = b := by
  simp [Cache.blk, setBlk_sets]
theorem setBlk_blk_ne (c : Cache) (p q : Nat × Nat) (b : Cache_Block) (h : q ≠ p) :
    (c.setBlk p b).blk q = c.blk q := by
  have : ¬ (q.1 = p.1 ∧ q.2 = p.2) := fun ⟨h1, h2⟩ => h (Prod.ext h1 h2)
  simp [Cache.blk, setBlk_sets, this]
theorem setBlk_sameGeom (c : Cache) (p : Nat × Nat) (b : Cache_Block) :
    SameGeom c (c.setBlk p b) := ⟨rfl, rfl, rfl, rfl, rfl, rfl, rfl⟩

@[simp] theorem setSHCT_num_ways (c : Cache) (i : Nat) (x : Sat_Counter) :
    (c.setSHCT i x).num_ways = c.num_ways := rfl
@[simp] theorem setSHCT_blk_mask (c : Cache) (i : Nat) (x : Sat_Counter) :
    (c.setSHCT i x).blk_mask = c.blk_mask := rfl
@[simp] theorem setSHCT_set_shift (c : Cache) (i : Nat) (x : Sat_Counter) :
    (c.setSHCT i x).set_shift = c.set_shift := rfl
@[simp] theorem setSHCT_set_mask (c : Cache) (i : Nat) (x : Sat_Counter) :
    (c.setSHCT i x).set_mask = c.set_mask := rfl
@[simp] theorem setSHCT_tag_shift (c : Cache) (i : Nat) (x : Sat_Counter) :
    (c.setSHCT i x).tag_shift = c.tag_shift := rfl
@[simp] theorem setSHCT_sets (c : Cache) (i : Nat) (x : Sat_Counter) :
    (c.setSHCT i x).sets = c.sets := rfl
@[simp] theorem setSHCT_blk (c : Cache) (i : Nat) (x : Sat_Counter) (p : Nat × Nat) :
    (c.setSHCT i x).blk p = c.blk p := rfl
theorem setSHCT_SHCT (c : Cache) (i : Nat) (x : Sat_Counter) (j : Nat) :
    (c.setSHCT i x).SHCT j = if j = i then x else c.SHCT j := rfl
theorem setSHCT_sameGeom (c : Cache) (i : Nat) (x : Sat_Counter) :
    SameGeom c (c.setSHCT i x) := ⟨rfl, rfl, rfl, rfl, rfl, rfl, rfl⟩

@[simp] theorem setWays_num_ways (c : Cache) (s : Nat) (ways : Nat → Cache_Block) :
    (c.setWays s ways).num_ways = c.num_ways := rfl
@[simp] theorem setWays_tag_shift (c : Cache) (s : Nat) (ways : Nat → Cache_Block) :
    (c.setWays s ways).tag_shift = c.tag_shift := rfl
@[simp] theorem setWays_SHCT (c : Cache) (s : Nat) (ways : Nat → Cache_Block) :
    (c.setWays s ways).SHCT = c.SHCT := rfl
theorem setWays_sets (c : Cache) (s : Nat) (ways : Nat → Cache_Block) (s1 w : Nat) :
    (c.setWays s ways).sets s1 w = if s1 = s then ways w else c.sets s1 w := rfl
theorem setWays_self (c : Cache) (s : Nat) : c.setWays s (c.sets s) = c := by
  cases c
  simp only [Cache.setWays, Cache.mk.injEq, true_and, and_true]
  funext s1 w
  split_ifs with h
  · rw [h]
  · rfl
theorem setWays_sameGeom (c : Cache) (s : Nat) (ways : Nat → Cache_Block) :
    SameGeom c (c.setWays s ways) := ⟨rfl, rfl, rfl, rfl, rfl, rfl, rfl⟩

theorem sameGeom_refl (c : Cache) : SameGeom c c := ⟨rfl, rfl, rfl, rfl, rfl, rfl, rfl⟩

theorem sameGeom_trans {a b c : Cache} (h1 : SameGeom a b) (h2 : SameGeom b c) :
    SameGeom a c := by
  obtain ⟨a1, a2, a3, a4, a5, a6, a7⟩ := h1
  obtain ⟨b1, b2, b3, b4, b5, b6, b7⟩ := h2
  exact ⟨b1.trans a1, b2.trans a2, b3.trans a3, b4.trans a4, b5.trans a5, b6.trans a6,
    b7.trans a7⟩

/-! ## Lookup -/

theorem findBlock_some {c : Cache} {addr : Nat} {p : Nat × Nat} (h : findBlock c addr = some p) :
    p.1 = setIdxOf c addr ∧ p.2 < c.num_ways ∧ (c.blk p).valid = true ∧
    (c.blk p).tag = tagOf c addr ∧
    ∀ m, m < p.2 → ¬ ((c.sets (setIdxOf c addr) m).valid = true ∧
      (c.sets (setIdxOf c addr) m).tag = tagOf c addr) := by
  unfold findBlock at h
  simp only at h
  split at h
  · rename_i i hi
    simp only [Option.some.injEq] at h
    subst h
    obtain ⟨_, h2, h3, h4⟩ := scanFirst_some hi
    simp only [Bool.and_eq_true, decide_eq_true_eq] at h3
    refine ⟨rfl, by simpa using h2, h3.2, h3.1.symm, ?_⟩
    intro m hm hc
    have := h4 m (Nat.zero_le _) hm
    simp only [Bool.and_eq_false_imp, decide_eq_true_eq] at this
    have hv : (c.sets (setIdxOf c addr) m).valid = false := this hc.2.symm
    rw [hc.1] at hv
    cases hv
  · cases h

theorem findBlock_exists {c : Cache} {addr : Nat} {w : Nat} (hw : w < c.num_ways)
    (hv : (c.sets (setIdxOf c addr) w).valid = true)
    (ht : (c.sets (setIdxOf c addr) w).tag = tagOf c addr) :
    ∃ w0, w0 ≤ w ∧ findBlock c addr = some (setIdxOf c addr, w0) := by
  have hp : (fun i => decide (addr >>> c.tag_shift = (c.sets (setIdxOf c addr) i).tag) &&
      (c.sets (setIdxOf c addr) i).valid) w = true := by
    simp only [Bool.and_eq_true, decide_eq_true_eq]
    exact ⟨ht.symm, hv⟩
  obtain ⟨j, hj⟩ := scanFirst_exists
    (p := fun i => decide (addr >>> c.tag_shift = (c.sets (setIdxOf c addr) i).tag) &&
      (c.sets (setIdxOf c addr) i).valid) (Nat.zero_le w) (by omega : w < 0 + c.num_ways) hp
  have hjw : j ≤ w := by
    by_contra hlt
    have := (scanFirst_some hj).2.2.2 w (Nat.zero_le _) (by omega)
    exact absurd (hp.symm.trans this) (by decide)
  refine ⟨j, hjw, ?_⟩
  unfold findBlock
  simp only
  have hj' : scanFirst (fun i => decide (addr >>> c.tag_shift =
      (c.sets ((addr >>> c.set_shift) &&& c.set_mask) i).tag) &&
      (c.sets ((addr >>> c.set_shift) &&& c.set_mask) i).valid) c.num_ways 0 = some j := hj
  rw [hj']
  rfl

theorem findBlock_none {c : Cache} {addr : Nat} (h : findBlock c addr = none) :
    ∀ w, w < c.num_ways → ¬ ((c.sets (setIdxOf c addr) w).valid = true ∧
      (c.sets (setIdxOf c addr) w).tag = tagOf c addr) := by
  intro w hw ⟨hv, ht⟩
  obtain ⟨w0, _, e⟩ := findBlock_exists hw hv ht
  rw [h] at e
  cases e

/-! ## Hit path -/

theorem accessBlock_hit_eq {c : Cache} {req : Request} {t : Nat} {p : Nat × Nat}
    (h : findBlock c (blkAlign req.load_or_store_addr c.blk_mask) = some p) :
    accessBlock c req t =
      ((c.setSHCT (sigOf (c.blk p).PC) (incrementCounter (c.SHCT (sigOf (c.blk p).PC)))).setBlk p
        (touchBlock (c.blk p) req t), true) := by
  unfold accessBlock
  simp only [h]
  rfl

theorem accessBlock_miss_eq {c : Cache} {req : Request} {t : Nat}
    (h : findBlock c (blkAlign req.load_or_store_addr c.blk_mask) = none) :
    accessBlock c req t = (c, false) := by
  unfold accessBlock
  simp only [h]

/-- C10. Hit-path update: when a way of the target set is valid with the tag of the request,
`accessBlock` returns true and, on the first such way, sets `when_touched` to the timestamp,
adds 1 to `frequency` (in 64-bit arithmetic), sets `dirty` for a STORE and keeps it for a
LOAD, sets `outcome`, zeroes the RRPV and keeps tag and validity; the SHCT counter at index
`PC & (cache_size - 1)` of that line is incremented (saturating) and no other SHCT counter
changes. -/
theorem hit_path_update (c : Cache) (req : Request) (t w : Nat) (hw : w < c.num_ways)
    (hv : (c.sets (reqSet c req) w).valid = true)
    (ht : (c.sets (reqSet c req) w).tag = reqTag c req) :
    ∃ w0, w0 ≤ w ∧
      findBlock c (blkAlign req.load_or_store_addr c.blk_mask) = some (reqSet c req, w0) ∧
      (c.sets (reqSet c req) w0).valid = true ∧
      (c.sets (reqSet c req) w0).tag = reqTag c req ∧
      (accessBlock c req t).2 = true ∧
      ((accessBlock c req t).1.sets (reqSet c req) w0).when_touched = t ∧
      ((accessBlock c req t).1.sets (reqSet c req) w0).frequency =
        ((c.sets (reqSet c req) w0).frequency + 1) % 2 ^ 64 ∧
      ((c.sets (reqSet c req) w0).frequency + 1 < 2 ^ 64 →
        ((accessBlock c req t).1.sets (reqSet c req) w0).frequency =
          (c.sets (reqSet c req) w0).frequency + 1) ∧
      (req.req_type = Request_Type.STORE →
        ((accessBlock c req t).1.sets (reqSet c req) w0).dirty = true) ∧
      (req.req_type = Request_Type.LOAD →
        ((accessBlock c req t).1.sets (reqSet c req) w0).dirty =
          (c.sets (reqSet c req) w0).dirty) ∧
      ((accessBlock c req t).1.sets (reqSet c req) w0).outcome = true ∧
      ((accessBlock c req t).1.sets (reqSet c req) w0).RRPV.counter = 0 ∧
      ((accessBlock c req t).1.sets (reqSet c req) w0).RRPV.max_val =
        (c.sets (reqSet c req) w0).RRPV.max_val ∧
      ((accessBlock c req t).1.sets (reqSet c req) w0).tag = (c.sets (reqSet c req) w0).tag ∧
      ((accessBlock c req t).1.sets (reqSet c req) w0).valid = true ∧
      (accessBlock c req t).1.SHCT (sigOf (c.sets (reqSet c req) w0).PC) =
        incrementCounter (c.SHCT (sigOf (c.sets (reqSet c req) w0).PC)) ∧
      ∀ i, i ≠ sigOf (c.sets (reqSet c req) w0).PC →
        (accessBlock c req t).1.SHCT i = c.SHCT i := by
  obtain ⟨w0, hle, hfind⟩ := findBlock_exists hw hv ht
  obtain ⟨_, _, h3, h4, _⟩ := findBlock_some hfind
  have hfind' : findBlock c (blkAlign req.load_or_store_addr c.blk_mask) =
      some (reqSet c req, w0) := hfind
  have hacc := accessBlock_hit_eq (t := t) hfind'
  have hline : (accessBlock c req t).1.sets (reqSet c req) w0 =
      touchBlock (c.sets (reqSet c req) w0) req t := by
    rw [hacc]
    simp [setBlk_sets, Cache.blk]
  refine ⟨w0, hle, hfind', h3, h4, ?_, ?_, ?_, ?_, ?_, ?_, ?_, ?_, ?_, ?_, ?_, ?_, ?_⟩
  · rw [hacc]
  · rw [hline]
    rfl
  · rw [hline]
    rfl
  · intro hlt
    rw [hline]
    exact Nat.mod_eq_of_lt hlt
  · intro hs
    rw [hline]
    simp [touchBlock, hs]
  · intro hs
    rw [hline]
    simp [touchBlock, hs]
  · rw [hline]
    rfl
  · rw [hline]
    rfl
  · rw [hline]
    rfl
  · rw [hline]
    rfl
  · rw [hline]
    exact h3
  · rw [hacc]
    simp [setSHCT_SHCT, Cache.blk]
  · intro i hi
    rw [hacc]
    simp only [setBlk_SHCT, setSHCT_SHCT, Cache.blk]
    rw [if_neg hi]

/-! ## Victim search -/

theorem setRRPV_self (b : Cache_Block) : setRRPV b b.RRPV = b := by
  cases b
  rfl

theorem invalidScan_some {c : Cache} {s i : Nat}
    (h : scanFirst (fun i => !(c.sets s i).valid) c.num_ways 0 = some i) :
    i < c.num_ways ∧ (c.sets s i).valid = false ∧ ∀ m, m < i → (c.sets s m).valid = true := by
  obtain ⟨_, h2, h3, h4⟩ := scanFirst_some h
  refine ⟨by omega, by simpa using h3, ?_⟩
  intro m hm
  simpa using h4 m (Nat.zero_le _) hm

theorem invalidScan_none {c : Cache} {s : Nat} :
    scanFirst (fun i => !(c.sets s i).valid) c.num_ways 0 = none ↔
      ∀ m, m < c.num_ways → (c.sets s m).valid = true := by
  rw [scanFirst_none]
  constructor
  · intro h m hm
    simpa using h m (Nat.zero_le _) (by omega)
  · intro h m _ hm
    simpa using h m (by omega)

theorem invalidScan_cases (c : Cache) (s : Nat) :
    (∃ i, scanFirst (fun i => !(c.sets s i).valid) c.num_ways 0 = some i) ∨
    scanFirst (fun i => !(c.sets s i).valid) c.num_ways 0 = none := by
  cases h : scanFirst (fun i => !(c.sets s i).valid) c.num_ways 0 with
  | none => exact Or.inr rfl
  | some i => exact Or.inl ⟨i, rfl⟩

theorem lru_invalid {c : Cache} {addr wb i : Nat}
    (h : scanFirst (fun i => !(c.sets (setIdxOf c addr) i).valid) c.num_ways 0 = some i) :
    lru c addr wb = ⟨c, (setIdxOf c addr, i), wb, false⟩ := by
  unfold setIdxOf at h
  unfold lru
  simp only [h]
  rfl

theorem lfu_invalid {c : Cache} {addr wb i : Nat}
    (h : scanFirst (fun i => !(c.sets (setIdxOf c addr) i).valid) c.num_ways 0 = some i) :
    lfu c addr wb = ⟨c, (setIdxOf c addr, i), wb, false⟩ := by
  unfold setIdxOf at h
  unfold lfu
  simp only [h]
  rfl

theorem srrip_invalid {c : Cache} {fuel addr wb i : Nat}
    (h : scanFirst (fun i => !(c.sets (setIdxOf c addr) i).valid) c.num_ways 0 = some i) :
    srrip fuel c addr wb = some ⟨c, (setIdxOf c addr, i), wb, false⟩ := by
  unfold setIdxOf at h
  unfold srrip
  simp only [h]
  rfl

theorem lru_full {c : Cache} {addr wb : Nat}
    (h : scanFirst (fun i => !(c.sets (setIdxOf c addr) i).valid) c.num_ways 0 = none) :
    lru c addr wb =
      ⟨c.setBlk (setIdxOf c addr,
          minScan (fun i => (c.sets (setIdxOf c addr) i).when_touched) (c.num_ways - 1) 1 0)
          (invalidate (c.sets (setIdxOf c addr)
            (minScan (fun i => (c.sets (setIdxOf c addr) i).when_touched) (c.num_ways - 1) 1 0))),
        (setIdxOf c addr,
          minScan (fun i => (c.sets (setIdxOf c addr) i).when_touched) (c.num_ways - 1) 1 0),
        wbAddrOf c (c.sets (setIdxOf c addr)
          (minScan (fun i => (c.sets (setIdxOf c addr) i).when_touched) (c.num_ways - 1) 1 0)),
        true⟩ := by
  unfold setIdxOf at h
  unfold lru
  simp only [h]
  rfl

theorem lfu_full {c : Cache} {addr wb : Nat}
    (h : scanFirst (fun i => !(c.sets (setIdxOf c addr) i).valid) c.num_ways 0 = none) :
    lfu c addr wb =
      ⟨c.setBlk (setIdxOf c addr,
          minScan (fun i => (c.sets (setIdxOf c addr) i).frequency) (c.num_ways - 1) 1 0)
          (invalidate (c.sets (setIdxOf c addr)
            (minScan (fun i => (c.sets (setIdxOf c addr) i).frequency) (c.num_ways - 1) 1 0))),
        (setIdxOf c addr,
          minScan (fun i => (c.sets (setIdxOf c addr) i).frequency) (c.num_ways - 1) 1 0),
        wbAddrOf c (c.sets (setIdxOf c addr)
          (minScan (fun i => (c.sets (setIdxOf c addr) i).frequency) (c.num_ways - 1) 1 0)),
        true⟩ := by
  unfold setIdxOf at h
  unfold lfu
  simp only [h]
  rfl

theorem srrip_full {c : Cache} {fuel addr wb : Nat} {ways1 : Nat → Cache_Block} {v p1 : Nat}
    (h : scanFirst (fun i => !(c.sets (setIdxOf c addr) i).valid) c.num_ways 0 = none)
    (hl : srripLoop c.num_ways fuel (c.sets (setIdxOf c addr)) 0 0 = some (ways1, v, p1)) :
    srrip fuel c addr wb =
      some ⟨(c.setWays (setIdxOf c addr) ways1).setBlk (setIdxOf c addr, v) (invalidate (ways1 v)),
        (setIdxOf c addr, v), wbAddrOf c (ways1 v), true⟩ := by
  unfold setIdxOf at h hl
  unfold srrip
  simp only [h, hl]
  rfl

/-- The index picked by the minimum search of `lru` / `lfu` on a set with `n > 0` ways. -/
theorem minScan_ways (key : Nat → Nat) (n : Nat) (hn : 0 < n) :
    minScan key (n - 1) 1 0 < n ∧
    (∀ w, w < n → key (minScan key (n - 1) 1 0) ≤ key w) ∧
    (∀ w, w < minScan key (n - 1) 1 0 → key (minScan key (n - 1) 1 0) < key w) := by
  obtain ⟨a1, a2, a3, a4, a5⟩ := minScan_spec key (n - 1) 1 0 (by omega)
  refine ⟨by omega, ?_, ?_⟩
  · intro w hw
    by_cases h0 : w = 0
    · subst h0
      exact a2
    · exact a3 w (by omega) (by omega)
  · intro w hw
    by_cases h0 : w = 0
    · subst h0
      exact a4 (by omega)
    · exact a5 w (by omega) hw

/-- Shape of a victim search on a full set, for the three policies. -/
theorem findVictim_full (policy : Policy) (fuel : Nat) (c : Cache) (addr wb : Nat)
    (hfuel : 4 ≤ fuel) (hn : 0 < c.num_ways)
    (hok : policy = Policy.SRRIP → SetOk c (setIdxOf c addr))
    (h : scanFirst (fun i => !(c.sets (setIdxOf c addr) i).valid) c.num_ways 0 = none) :
    ∃ ways1 v, findVictim policy fuel c addr wb =
        some ⟨(c.setWays (setIdxOf c addr) ways1).setBlk (setIdxOf c addr, v)
          (invalidate (ways1 v)), (setIdxOf c addr, v), wbAddrOf c (ways1 v), true⟩ ∧
      v < c.num_ways ∧
      (∀ j, ways1 j = setRRPV (c.sets (setIdxOf c addr) j) (ways1 j).RRPV) ∧
      (∀ j, RRPVok (c.sets (setIdxOf c addr) j) → RRPVok (ways1 j)) := by
  cases policy with
  | LRU =>
    refine ⟨c.sets (setIdxOf c addr),
      minScan (fun i => (c.sets (setIdxOf c addr) i).when_touched) (c.num_ways - 1) 1 0, ?_,
      (minScan_ways _ _ hn).1, fun j => (setRRPV_self _).symm, fun j hj => hj⟩
    simp only [findVictim]
    rw [lru_full h, setWays_self]
  | LFU =>
    refine ⟨c.sets (setIdxOf c addr),
      minScan (fun i => (c.sets (setIdxOf c addr) i).frequency) (c.num_ways - 1) 1 0, ?_,
      (minScan_ways _ _ hn).1, fun j => (setRRPV_self _).symm, fun j hj => hj⟩
    simp only [findVictim]
    rw [lfu_full h, setWays_self]
  | SRRIP =>
    have hs := hok rfl
    obtain ⟨ways1, v1, p1, e, b1, _, _, b4, b5, b6, _⟩ :=
      srripLoop_spec c.num_ways 3 fuel (c.sets (setIdxOf c addr)) 0 0 (by omega) hs
        ⟨0, hn, by omega⟩
    refine ⟨ways1, v1, ?_, b1, b5, ?_⟩
    · simp only [findVictim]
      exact srrip_full h e
    · intro j hj
      by_cases hjn : j < c.num_ways
      · exact b4 j hjn
      · rw [b6 j (by omega)]
        exact hj

theorem findVictim_invalid (policy : Policy) (fuel : Nat) {c : Cache} {addr wb i : Nat}
    (h : scanFirst (fun i => !(c.sets (setIdxOf c addr) i).valid) c.num_ways 0 = some i) :
    findVictim policy fuel c addr wb = some ⟨c, (setIdxOf c addr, i), wb, false⟩ := by
  cases policy with
  | LRU => simp only [findVictim, lru_invalid h]
  | LFU => simp only [findVictim, lfu_invalid h]
  | SRRIP => simp only [findVictim, srrip_invalid h]

/-! ## Victim choice of the three policies -/

theorem lru_choice_aux (c : Cache) (addr wb : Nat) (hn : 0 < c.num_ways)
    (hall : ∀ w, w < c.num_ways → (c.sets (setIdxOf c addr) w).valid = true) :
    (lru c addr wb).wb_required = true ∧
    (lru c addr wb).victim_blk.1 = setIdxOf c addr ∧
    (lru c addr wb).victim_blk.2 < c.num_ways ∧
    (∀ w, w < c.num_ways →
      (c.sets (setIdxOf c addr) (lru c addr wb).victim_blk.2).when_touched ≤
        (c.sets (setIdxOf c addr) w).when_touched) ∧
    (∀ w, w < c.num_ways →
      (c.sets (setIdxOf c addr) w).when_touched =
        (c.sets (setIdxOf c addr) (lru c addr wb).victim_blk.2).when_touched →
      (lru c addr wb).victim_blk.2 ≤ w) := by
  rw [lru_full (invalidScan_none.mpr hall)]
  obtain ⟨a1, a2, a3⟩ :=
    minScan_ways (fun i => (c.sets (setIdxOf c addr) i).when_touched) c.num_ways hn
  refine ⟨rfl, rfl, a1, a2, ?_⟩
  intro w _ he
  by_contra hlt
  have := a3 w (by simpa using hlt)
  simp only at this he
  omega

theorem lfu_choice_aux (c : Cache) (addr wb : Nat) (hn : 0 < c.num_ways)
    (hall : ∀ w, w < c.num_ways → (c.sets (setIdxOf c addr) w).valid = true) :
    (lfu c addr wb).wb_required = true ∧
    (lfu c addr wb).victim_blk.1 = setIdxOf c addr ∧
    (lfu c addr wb).victim_blk.2 < c.num_ways ∧
    (∀ w, w < c.num_ways →
      (c.sets (setIdxOf c addr) (lfu c addr wb).victim_blk.2).frequency ≤
        (c.sets (setIdxOf c addr) w).frequency) ∧
    (∀ w, w < c.num_ways →
      (c.sets (setIdxOf c addr) w).frequency =
        (c.sets (setIdxOf c addr) (lfu c addr wb).victim_blk.2).frequency →
      (lfu c addr wb).victim_blk.2 ≤ w) := by
  rw [lfu_full (invalidScan_none.mpr hall)]
  obtain ⟨a1, a2, a3⟩ :=
    minScan_ways (fun i => (c.sets (setIdxOf c addr) i).frequency) c.num_ways hn
  refine ⟨rfl, rfl, a1, a2, ?_⟩
  intro w _ he
  by_contra hlt
  have := a3 w (by simpa using hlt)
  simp only at this he
  omega

/-- C3. LFU victim choice: on a set whose ways are all valid, `lfu` asks for a write-back and
selects a way of minimal `frequency`, the lowest-indexed one among those of minimal
frequency; the choice is the same for any other timestamps (`when_touched` is not read), and
a way whose frequency is strictly below every other way's is the victim whatever the
timestamps are, in particular when its `when_touched` is the largest of the set. -/
theorem lfu_choice (c : Cache) (addr wb : Nat) (hn : 0 < c.num_ways)
    (hall : ∀ w, w < c.num_ways → (c.sets (setIdxOf c addr) w).valid = true) :
    (lfu c addr wb).wb_required = true ∧
    (lfu c addr wb).victim_blk.1 = setIdxOf c addr ∧
    (lfu c addr wb).victim_blk.2 < c.num_ways ∧
    (∀ w, w < c.num_ways →
      (c.sets (setIdxOf c addr) (lfu c addr wb).victim_blk.2).frequency ≤
        (c.sets (setIdxOf c addr) w).frequency) ∧
    (∀ w, w < c.num_ways →
      (c.sets (setIdxOf c addr) w).frequency =
        (c.sets (setIdxOf c addr) (lfu c addr wb).victim_blk.2).frequency →
      (lfu c addr wb).victim_blk.2 ≤ w) ∧
    (∀ (stamp : Nat → Nat) (wb1 : Nat),
      (lfu (c.setWays (setIdxOf c addr)
        (fun w => { c.sets (setIdxOf c addr) w with when_touched := stamp w })) addr wb1).victim_blk =
        (lfu c addr wb).victim_blk) ∧
    (∀ j, j < c.num_ways →
      (∀ w, w < c.num_ways → w ≠ j →
        (c.sets (setIdxOf c addr) j).frequency < (c.sets (setIdxOf c addr) w).frequency) →
      (lfu c addr wb).victim_blk = (setIdxOf c addr, j)) := by
  obtain ⟨a1, a2, a3, a4, a5⟩ := lfu_choice_aux c addr wb hn hall
  refine ⟨a1, a2, a3, a4, a5, ?_, ?_⟩
  · intro stamp wb1
    have hs : setIdxOf (c.setWays (setIdxOf c addr)
        (fun w => { c.sets (setIdxOf c addr) w with when_touched := stamp w })) addr =
        setIdxOf c addr := rfl
    have hall1 : ∀ w, w < (c.setWays (setIdxOf c addr)
        (fun w => { c.sets (setIdxOf c addr) w with when_touched := stamp w })).num_ways →
        ((c.setWays (setIdxOf c addr)
          (fun w => { c.sets (setIdxOf c addr) w with when_touched := stamp w })).sets
          (setIdxOf (c.setWays (setIdxOf c addr)
            (fun w => { c.sets (setIdxOf c addr) w with when_touched := stamp w })) addr) w).valid
          = true := by
      intro w hw
      rw [hs, setWays_sets, if_pos rfl]
      exact hall w hw
    rw [lfu_full (invalidScan_none.mpr hall1), lfu_full (invalidScan_none.mpr hall)]
    simp only [hs, setWays_sets, if_true, setWays_num_ways]
  · intro j hj hmin
    have hle := a4 j hj
    have hv : (lfu c addr wb).victim_blk.2 = j := by
      by_contra hne
      have := hmin _ a3 hne
      omega
    exact Prod.ext a2 hv

/-! ## Effect of a victim search on the cache -/

/-- What every victim search guarantees (on a set of 2-bit RRPVs when the policy is SRRIP):
it returns, the victim is a way of the target set, geometry and SHCT are untouched, the
other lines change at most in their RRPV, and the victim is either left as it was (no
write-back: the first invalid way) or invalidated (write-back: the set was full). -/
theorem findVictim_post (policy : Policy) (fuel : Nat) (c : Cache) (addr wb : Nat)
    (hfuel : 4 ≤ fuel) (hn : 0 < c.num_ways)
    (hok : policy = Policy.SRRIP → SetOk c (setIdxOf c addr)) :
    ∃ r, findVictim policy fuel c addr wb = some r ∧
      r.victim_blk.1 = setIdxOf c addr ∧ r.victim_blk.2 < c.num_ways ∧
      SameGeom c r.cache ∧ r.cache.SHCT = c.SHCT ∧
      (∀ p, p ≠ r.victim_blk → r.cache.blk p = setRRPV (c.blk p) (r.cache.blk p).RRPV) ∧
      (∀ p, RRPVok (c.blk p) → RRPVok (r.cache.blk p)) ∧
      (r.wb_required = false →
        r.cache = c ∧ r.wb_addr = wb ∧ (c.blk r.victim_blk).valid = false ∧
        ∀ m, m < r.victim_blk.2 → (c.sets (setIdxOf c addr) m).valid = true) ∧
      (r.wb_required = true →
        (∀ m, m < c.num_ways → (c.sets (setIdxOf c addr) m).valid = true) ∧
        r.cache.blk r.victim_blk =
          invalidate (setRRPV (c.blk r.victim_blk) (r.cache.blk r.victim_blk).RRPV) ∧
        r.wb_addr = wbAddrOf c (c.blk r.victim_blk)) := by
  rcases invalidScan_cases c (setIdxOf c addr) with ⟨i, hi⟩ | hnone
  · obtain ⟨h1, h2, h3⟩ := invalidScan_some hi
    refine ⟨_, findVictim_invalid policy fuel hi, rfl, h1, sameGeom_refl c, rfl, ?_, ?_, ?_, ?_⟩
    · intro p _
      exact (setRRPV_self _).symm
    · intro p hp
      exact hp
    · intro _
      exact ⟨rfl, rfl, h2, h3⟩
    · intro h
      cases h
  · obtain ⟨ways1, v, e, hv, hw1, hw2⟩ := findVictim_full policy fuel c addr wb hfuel hn hok hnone
    have hvb : ((c.setWays (setIdxOf c addr) ways1).setBlk (setIdxOf c addr, v)
        (invalidate (ways1 v))).blk (setIdxOf c addr, v) = invalidate (ways1 v) :=
      setBlk_blk_self _ _ _
    refine ⟨_, e, rfl, hv, ?_, rfl, ?_, ?_, ?_, ?_⟩
    · exact sameGeom_trans (setWays_sameGeom _ _ _) (setBlk_sameGeom _ _ _)
    · intro p hp
      simp only at hp ⊢
      rw [setBlk_blk_ne _ _ _ _ hp]
      simp only [Cache.blk, setWays_sets]
      split_ifs with hs
      · rw [hs]
        exact hw1 p.2
      · exact (setRRPV_self _).symm
    · intro p hp
      simp only
      by_cases hpv : p = (setIdxOf c addr, v)
      · rw [hpv, hvb]
        rw [hpv] at hp
        exact hw2 v hp
      · rw [setBlk_blk_ne _ _ _ _ hpv]
        simp only [Cache.blk, setWays_sets]
        split_ifs with hs
        · have := hw2 p.2
          rw [← hs] at this
          exact this hp
        · exact hp
    · intro h
      cases h
    · intro _
      refine ⟨invalidScan_none.mp hnone, ?_, ?_⟩
      · simp only
        rw [hvb]
        exact congrArg invalidate (hw1 v)
      · simp only
        rw [hw1 v]
        rfl

/-! ## The tail of `insertBlock` -/

theorem shipUpdate_sameGeom (c : Cache) (p : Nat × Nat) (req : Request) :
    SameGeom c (shipUpdate c p req) := by
  unfold shipUpdate
  simp only
  split_ifs <;> exact ⟨rfl, rfl, rfl, rfl, rfl, rfl, rfl⟩

theorem shipUpdate_blk_ne (c : Cache) (p q : Nat × Nat) (req : Request) (h : q ≠ p) :
    (shipUpdate c p req).blk q = c.blk q := by
  unfold shipUpdate
  simp only
  rw [setBlk_blk_ne _ _ _ _ h]
  split_ifs <;> rfl

/-- The SHCT after the eviction bookkeeping of `insertBlock` under SRRIP. -/
theorem shipUpdate_SHCT (c : Cache) (p : Nat × Nat) (req : Request) (j : Nat) :
    (shipUpdate c p req).SHCT j =
      if (c.blk p).outcome = false ∧ j = sigOf (c.blk p).PC then decrementCounter (c.SHCT j)
      else c.SHCT j := by
  unfold shipUpdate
  simp only [setBlk_SHCT]
  by_cases ho : (c.blk p).outcome = true
  · simp [ho]
  · have ho' : (c.blk p).outcome = false := by simpa using ho
    simp only [ho', bne_iff_ne, ne_eq, Bool.false_eq_true, not_false_eq_true, if_true,
      setSHCT_SHCT, true_and]
    unfold sigOf
    split_ifs with h
    · rw [h]
    · rfl

/-- The victim line after the `#ifdef SRRIP` part of `insertBlock`. -/
theorem shipUpdate_blk_self (c : Cache) (p : Nat × Nat) (req : Request) :
    (shipUpdate c p req).blk p =
      { c.blk p with
        outcome := false
        sig := sigOf req.PC
        RRPV :=
          if ((shipUpdate c p req).SHCT (sigOf req.PC)).counter = 0 then
            incrementCounter (setTwoCounter (c.blk p).RRPV)
          else setTwoCounter (c.blk p).RRPV } := by
  have hs : ∀ x : Sat_Counter, checkZero x = true ↔ x.counter = 0 := by
    intro x
    unfold checkZero
    split_ifs with h <;> simp [h]
  have hS : (shipUpdate c p req).SHCT (sigOf req.PC) =
      (if (c.blk p).outcome != true then
        c.setSHCT ((c.blk p).PC &&& (cache_size - 1))
          (decrementCounter (c.SHCT ((c.blk p).PC &&& (cache_size - 1))))
      else c).SHCT (req.PC &&& (cache_size - 1)) := by
    unfold shipUpdate
    simp only [setBlk_SHCT]
    rfl
  rw [hS]
  unfold shipUpdate
  simp only [setBlk_blk_self]
  congr 1
  by_cases hz : ((if (c.blk p).outcome != true then
        c.setSHCT ((c.blk p).PC &&& (cache_size - 1))
          (decrementCounter (c.SHCT ((c.blk p).PC &&& (cache_size - 1))))
      else c).SHCT (req.PC &&& (cache_size - 1))).counter = 0
  · rw [if_pos hz, if_pos ((hs _).mpr hz)]
  · rw [if_neg hz, if_neg (fun h => hz ((hs _).mp h))]

theorem insertTail_sameGeom (policy : Policy) (c : Cache) (p : Nat × Nat) (req : Request)
    (t : Nat) : SameGeom c (insertTail policy c p req t) := by
  unfold insertTail
  simp only
  split_ifs
  · exact sameGeom_trans (shipUpdate_sameGeom c p req) (setBlk_sameGeom _ _ _)
  · exact setBlk_sameGeom _ _ _

theorem insertTail_blk_ne (policy : Policy) (c : Cache) (p q : Nat × Nat) (req : Request)
    (t : Nat) (h : q ≠ p) : (insertTail policy c p req t).blk q = c.blk q := by
  unfold insertTail
  simp only
  rw [setBlk_blk_ne _ _ _ _ h]
  split_ifs
  · exact shipUpdate_blk_ne c p q req h
  · rfl

/-- The filled line under LRU and LFU. -/
theorem insertTail_blk_self_plain (policy : Policy) (c : Cache) (p : Nat × Nat) (req : Request)
    (t : Nat) (h : policy ≠ Policy.SRRIP) :
    (insertTail policy c p req t).blk p = fillBlock c (c.blk p) req t ∧
    (insertTail policy c p req t).SHCT = c.SHCT := by
  unfold insertTail
  simp only [if_neg h, setBlk_blk_self, setBlk_SHCT, and_self]

/-- The filled line under SRRIP. -/
theorem insertTail_blk_self_srrip (c : Cache) (p : Nat × Nat) (req : Request) (t : Nat) :
    (insertTail Policy.SRRIP c p req t).blk p =
      fillBlock c ((shipUpdate c p req).blk p) req t ∧
    (insertTail Policy.SRRIP c p req t).SHCT = (shipUpdate c p req).SHCT := by
  unfold insertTail
  simp only [if_true, setBlk_blk_self, setBlk_SHCT, and_true]
  unfold fillBlock
  rw [(shipUpdate_sameGeom c p req).2.2.2.2.2.2]

/-- Fields of the filled line, for every policy. -/
theorem insertTail_victim (policy : Policy) (c : Cache) (p : Nat × Nat) (req : Request)
    (t : Nat) :
    ((insertTail policy c p req t).blk p).valid = true ∧
    ((insertTail policy c p req t).blk p).tag = req.load_or_store_addr >>> c.tag_shift ∧
    ((insertTail policy c p req t).blk p).when_touched = t ∧
    ((insertTail policy c p req t).blk p).frequency = ((c.blk p).frequency + 1) % 2 ^ 64 ∧
    ((insertTail policy c p req t).blk p).set = (c.blk p).set ∧
    ((insertTail policy c p req t).blk p).way = (c.blk p).way ∧
    ((insertTail policy c p req t).blk p).PC = (c.blk p).PC ∧
    ((insertTail policy c p req t).blk p).dirty =
      (if req.req_type = Request_Type.STORE then true else (c.blk p).dirty) ∧
    (RRPVok (c.blk p) → RRPVok ((insertTail policy c p req t).blk p)) := by
  by_cases hp : policy = Policy.SRRIP
  · subst hp
    rw [(insertTail_blk_self_srrip c p req t).1, shipUpdate_blk_self]
    refine ⟨rfl, rfl, rfl, rfl, rfl, rfl, rfl, rfl, ?_⟩
    intro hok
    unfold RRPVok
    simp only [fillBlock]
    split_ifs
    · simp [setTwoCounter, incrementCounter, hok.1]
    · simp [setTwoCounter, hok.1]
  · rw [(insertTail_blk_self_plain policy c p req t hp).1]
    exact ⟨rfl, rfl, rfl, rfl, rfl, rfl, rfl, rfl, fun h => h⟩

theorem insertBlock_of_findVictim {policy : Policy} {fuel : Nat} {c : Cache} {req : Request}
    {t wb : Nat} {r : VictimResult}
    (h : findVictim policy fuel c (blkAlign req.load_or_store_addr c.blk_mask) wb = some r) :
    insertBlock policy fuel c req t wb =
      some ⟨insertTail policy r.cache r.victim_blk req t, r.wb_addr, r.wb_required,
        r.victim_blk⟩ := by
  unfold insertBlock
  simp only [h]

/-- The victim keeps its slot and history fields across the victim search. -/
theorem findVictim_victim_fields {c : Cache} {r : VictimResult}
    (h0 : r.wb_required = false → r.cache = c)
    (h1 : r.wb_required = true →
      r.cache.blk r.victim_blk =
        invalidate (setRRPV (c.blk r.victim_blk) (r.cache.blk r.victim_blk).RRPV)) :
    (r.cache.blk r.victim_blk).set = (c.blk r.victim_blk).set ∧
    (r.cache.blk r.victim_blk).way = (c.blk r.victim_blk).way ∧
    (r.cache.blk r.victim_blk).PC = (c.blk r.victim_blk).PC ∧
    (r.cache.blk r.victim_blk).outcome = (c.blk r.victim_blk).outcome := by
  cases hb : r.wb_required with
  | false =>
    rw [h0 hb]
    exact ⟨rfl, rfl, rfl, rfl⟩
  | true =>
    rw [h1 hb]
    exact ⟨rfl, rfl, rfl, rfl⟩

/-- What `insertBlock` guarantees for every policy (on a set of 2-bit RRPVs when the
policy is SRRIP). -/
theorem insertBlock_post (policy : Policy) (fuel : Nat) (c : Cache) (req : Request)
    (t wb : Nat) (hfuel : 4 ≤ fuel) (hn : 0 < c.num_ways)
    (hok : policy = Policy.SRRIP → SetOk c (reqSet c req)) :
    ∃ res, insertBlock policy fuel c req t wb = some res ∧
      res.victim.1 = reqSet c req ∧ res.victim.2 < c.num_ways ∧
      SameGeom c res.cache ∧
      (∀ p, p ≠ res.victim → res.cache.blk p = setRRPV (c.blk p) (res.cache.blk p).RRPV) ∧
      (∀ p, RRPVok (c.blk p) → RRPVok (res.cache.blk p)) ∧
      (res.cache.blk res.victim).valid = true ∧
      (res.cache.blk res.victim).tag = req.load_or_store_addr >>> c.tag_shift ∧
      (res.cache.blk res.victim).when_touched = t ∧
      (res.cache.blk res.victim).set = (c.blk res.victim).set ∧
      (res.cache.blk res.victim).way = (c.blk res.victim).way ∧
      (res.cache.blk res.victim).PC = (c.blk res.victim).PC ∧
      (res.wb_required = false →
        res.wb_addr = wb ∧ (c.blk res.victim).valid = false ∧
        (∀ m, m < res.victim.2 → (c.sets (reqSet c req) m).valid = true) ∧
        ∀ p, p ≠ res.victim → res.cache.blk p = c.blk p) ∧
      (res.wb_required = true →
        (∀ m, m < c.num_ways → (c.sets (reqSet c req) m).valid = true) ∧
        res.wb_addr = wbAddrOf c (c.blk res.victim)) := by
  obtain ⟨r, e, h1, h2, h3, _, h5, h6, h7, h8⟩ :=
    findVictim_post policy fuel c (blkAlign req.load_or_store_addr c.blk_mask) wb hfuel hn hok
  obtain ⟨f1, f2, f3, _⟩ :=
    findVictim_victim_fields (fun hb => (h7 hb).1) (fun hb => (h8 hb).2.1)
  obtain ⟨t1, t2, t3, _, t5, t6, t7, _, t9⟩ := insertTail_victim policy r.cache r.victim_blk req t
  refine ⟨_, insertBlock_of_findVictim e, h1, h2,
    sameGeom_trans h3 (insertTail_sameGeom _ _ _ _ _), ?_, ?_, t1, ?_, t3, t5.trans f1,
    t6.trans f2, t7.trans f3, ?_, ?_⟩
  · intro p hp
    simp only at hp ⊢
    rw [insertTail_blk_ne _ _ _ _ _ _ hp]
    exact h5 p hp
  · intro p hp
    simp only
    by_cases hpv : p = r.victim_blk
    · rw [hpv]
      rw [hpv] at hp
      exact t9 (h6 _ hp)
    · rw [insertTail_blk_ne _ _ _ _ _ _ hpv]
      exact h6 p hp
  · rw [t2, h3.2.2.2.2.2.2]
  · intro hb
    obtain ⟨g1, g2, g3, g4⟩ := h7 hb
    refine ⟨g2, g3, g4, ?_⟩
    intro p hp
    simp only at hp ⊢
    rw [insertTail_blk_ne _ _ _ _ _ _ hp, g1]
  · intro hb
    exact ⟨(h8 hb).1, (h8 hb).2.2⟩

/-- C7. Invalid-first preamble: for each policy `insertBlock` returns, and it returns
`wb_required = false` exactly when the target set has an invalid way; then the victim is the
lowest-indexed invalid way of that set, `*wb_addr` keeps the content it had, and every other
line of the cache is unchanged (no valid line is evicted).  When every way is valid it
returns true. -/
theorem invalid_first (policy : Policy) (fuel : Nat) (c : Cache) (req : Request) (t wb : Nat)
    (hfuel : 4 ≤ fuel) (hn : 0 < c.num_ways)
    (hok : policy = Policy.SRRIP → SetOk c (reqSet c req)) :
    ∃ res, insertBlock policy fuel c req t wb = some res ∧
      (res.wb_required = false ↔
        ∃ w, w < c.num_ways ∧ (c.sets (reqSet c req) w).valid = false) ∧
      ((∀ w, w < c.num_ways → (c.sets (reqSet c req) w).valid = true) →
        res.wb_required = true) ∧
      (res.wb_required = false →
        res.victim.1 = reqSet c req ∧ res.victim.2 < c.num_ways ∧
        (c.sets (reqSet c req) res.victim.2).valid = false ∧
        (∀ m, m < res.victim.2 → (c.sets (reqSet c req) m).valid = true) ∧
        res.wb_addr = wb ∧
        ∀ p, p ≠ res.victim → res.cache.blk p = c.blk p) := by
  obtain ⟨res, e, h1, h2, _, _, _, _, _, _, _, _, _, h13, h14⟩ :=
    insertBlock_post policy fuel c req t wb hfuel hn hok
  have hinv : res.wb_required = false → (c.sets (reqSet c req) res.victim.2).valid = false := by
    intro hb
    have := (h13 hb).2.1
    unfold Cache.blk at this
    rw [h1] at this
    exact this
  refine ⟨res, e, ⟨?_, ?_⟩, ?_, ?_⟩
  · intro hb
    exact ⟨res.victim.2, h2, hinv hb⟩
  · rintro ⟨w, hw, hv⟩
    cases hb : res.wb_required with
    | false => rfl
    | true =>
      have := (h14 hb).1 w hw
      rw [hv] at this
      cases this
  · intro hall
    cases hb : res.wb_required with
    | true => rfl
    | false =>
      have := hall _ h2
      rw [hinv hb] at this
      cases this
  · intro hb
    exact ⟨h1, h2, hinv hb, (h13 hb).2.2.1, (h13 hb).1, (h13 hb).2.2.2⟩

/-- The SRRIP-specific result of `insertBlock` in program order: the SHCT after the eviction
bookkeeping, and the RRPV, signature and outcome flag of the filled line. -/
theorem insertBlock_srrip (fuel : Nat) (c : Cache) (req : Request) (t wb : Nat)
    (hfuel : 4 ≤ fuel) (hn : 0 < c.num_ways) (hok : SetOk c (reqSet c req)) :
    ∃ res, insertBlock Policy.SRRIP fuel c req t wb = some res ∧
      res.victim.1 = reqSet c req ∧ res.victim.2 < c.num_ways ∧
      (∀ j, res.cache.SHCT j =
        if (c.blk res.victim).outcome = false ∧ j = sigOf (c.blk res.victim).PC then
          decrementCounter (c.SHCT j)
        else c.SHCT j) ∧
      (res.cache.blk res.victim).RRPV.counter =
        (if (res.cache.SHCT (sigOf req.PC)).counter = 0 then 3 else 2) ∧
      (res.cache.blk res.victim).RRPV.max_val = 3 ∧
      (res.cache.blk res.victim).sig = sigOf req.PC ∧
      (res.cache.blk res.victim).outcome = false := by
  obtain ⟨r, e, h1, h2, _, h4, _, h6, h7, h8⟩ :=
    findVictim_post Policy.SRRIP fuel c (blkAlign req.load_or_store_addr c.blk_mask) wb hfuel hn
      (fun _ => hok)
  obtain ⟨_, _, f3, f4⟩ :=
    findVictim_victim_fields (fun hb => (h7 hb).1) (fun hb => (h8 hb).2.1)
  have hvok : RRPVok (r.cache.blk r.victim_blk) := by
    apply h6
    have := hok r.victim_blk.2 h2
    unfold reqSet at this
    rw [← h1] at this
    exact this
  have hS : ∀ j, (insertTail Policy.SRRIP r.cache r.victim_blk req t).SHCT j =
      if (c.blk r.victim_blk).outcome = false ∧ j = sigOf (c.blk r.victim_blk).PC then
        decrementCounter (c.SHCT j)
      else c.SHCT j := by
    intro j
    rw [(insertTail_blk_self_srrip _ _ _ _).2, shipUpdate_SHCT, f3, f4, h4]
  have hB := (insertTail_blk_self_srrip r.cache r.victim_blk req t).1
  refine ⟨_, insertBlock_of_findVictim e, h1, h2, hS, ?_, ?_, ?_, ?_⟩
  · simp only
    rw [hB, shipUpdate_blk_self, (insertTail_blk_self_srrip _ _ _ _).2]
    simp only [fillBlock]
    split_ifs
    · simp [setTwoCounter, incrementCounter, hvok.1]
    · simp [setTwoCounter]
  · simp only
    rw [hB, shipUpdate_blk_self]
    simp only [fillBlock]
    split_ifs
    · simp [setTwoCounter, incrementCounter, hvok.1]
    · simp [setTwoCounter, hvok.1]
  · simp only
    rw [hB, shipUpdate_blk_self]
    rfl
  · simp only
    rw [hB, shipUpdate_blk_self]
    rfl

/-- C5 (amended). SHiP feedback: under SRRIP, on a set of 2-bit RRPVs, `insertBlock`
returns and the installed line has RRPV 3 when the SHCT counter at index
`PC & (cache_size - 1)` of the request is zero at the call; when that counter is non-zero at
the call the installed line has RRPV 2 provided the eviction bookkeeping does not bring it
to zero (the victim's outcome flag is set, or the victim's own index differs, or the counter
is at least 2); when the counter is exactly 1 and the bookkeeping decrements it (victim's
flag clear and same index) the installed line has RRPV 3. -/
theorem ship_feedback (fuel : Nat) (c : Cache) (req : Request) (t wb : Nat)
    (hfuel : 4 ≤ fuel) (hn : 0 < c.num_ways) (hok : SetOk c (reqSet c req)) :
    ∃ res, insertBlock Policy.SRRIP fuel c req t wb = some res ∧
      ((c.SHCT (sigOf req.PC)).counter = 0 → (res.cache.blk res.victim).RRPV.counter = 3) ∧
      ((c.SHCT (sigOf req.PC)).counter ≠ 0 →
        ((c.blk res.victim).outcome = true ∨ sigOf (c.blk res.victim).PC ≠ sigOf req.PC ∨
          2 ≤ (c.SHCT (sigOf req.PC)).counter) →
        (res.cache.blk res.victim).RRPV.counter = 2) ∧
      ((c.SHCT (sigOf req.PC)).counter = 1 → (c.blk res.victim).outcome = false →
        sigOf (c.blk res.victim).PC = sigOf req.PC →
        (res.cache.blk res.victim).RRPV.counter = 3) := by
  obtain ⟨res, e, _, _, hS, hR, _, _, _⟩ := insertBlock_srrip fuel c req t wb hfuel hn hok
  refine ⟨res, e, ?_, ?_, ?_⟩
  · intro h0
    rw [hR, hS]
    have : (decrementCounter (c.SHCT (sigOf req.PC))).counter = 0 := by
      simp [decrementCounter, h0]
    split_ifs <;> rfl
  · intro hne hcase
    rw [hR, hS]
    by_cases hcond : (c.blk res.victim).outcome = false ∧
        sigOf req.PC = sigOf (c.blk res.victim).PC
    · rw [if_pos hcond]
      have h2 : 2 ≤ (c.SHCT (sigOf req.PC)).counter := by
        rcases hcase with h | h | h
        · rw [hcond.1] at h
          cases h
        · exact absurd hcond.2.symm h
        · exact h
      have : (decrementCounter (c.SHCT (sigOf req.PC))).counter ≠ 0 := by
        unfold decrementCounter
        split_ifs with hpos
        · simp only
          omega
        · omega
      rw [if_neg this]
    · rw [if_neg hcond, if_neg hne]
  · intro h1 ho hsig
    have hcond : (c.blk res.victim).outcome = false ∧
        sigOf req.PC = sigOf (c.blk res.victim).PC := ⟨ho, hsig.symm⟩
    rw [hR, hS, if_pos hcond]
    have : (decrementCounter (c.SHCT (sigOf req.PC))).counter = 0 := by
      simp [decrementCounter, h1]
    rw [if_pos this]

/-! ## Invariants along sequences of calls -/

theorem sameLine_refl (b : Cache_Block) : SameLine b b := ⟨rfl, rfl, rfl, rfl, rfl⟩

theorem sameLine_trans {a b c : Cache_Block} (h1 : SameLine a b) (h2 : SameLine b c) :
    SameLine a c := by
  obtain ⟨a1, a2, a3, a4, a5⟩ := h1
  obtain ⟨b1, b2, b3, b4, b5⟩ := h2
  exact ⟨b1.trans a1, b2.trans a2, b3.trans a3, b4.trans a4, b5.trans a5⟩

theorem sameLine_of_setRRPV {b b1 : Cache_Block} (h : b1 = setRRPV b b1.RRPV) :
    SameLine b b1 := by
  rw [h]
  exact ⟨rfl, rfl, rfl, rfl, rfl⟩

/-- `accessBlock` keeps the geometry, the tag, validity and slot of every line, and 2-bit
RRPVs. -/
theorem accessBlock_post (c : Cache) (req : Request) (t : Nat) :
    SameGeom c (accessBlock c req t).1 ∧
    (∀ p, SameLine (c.blk p) ((accessBlock c req t).1.blk p)) ∧
    (∀ p, RRPVok (c.blk p) → RRPVok ((accessBlock c req t).1.blk p)) := by
  cases hf : findBlock c (blkAlign req.load_or_store_addr c.blk_mask) with
  | none =>
    rw [accessBlock_miss_eq hf]
    exact ⟨sameGeom_refl c, fun p => sameLine_refl _, fun p hp => hp⟩
  | some q =>
    rw [accessBlock_hit_eq hf]
    refine ⟨sameGeom_trans (setSHCT_sameGeom _ _ _) (setBlk_sameGeom _ _ _), ?_, ?_⟩
    · intro p
      by_cases hpq : p = q
      · rw [hpq]
        simp only [setBlk_blk_self, setSHCT_blk]
        exact ⟨rfl, rfl, rfl, rfl, rfl⟩
      · simp only
        rw [setBlk_blk_ne _ _ _ _ hpq]
        exact sameLine_refl _
    · intro p hp
      by_cases hpq : p = q
      · rw [hpq] at hp ⊢
        simp only [setBlk_blk_self, setSHCT_blk]
        exact ⟨hp.1, Nat.zero_le _⟩
      · simp only
        rw [setBlk_blk_ne _ _ _ _ hpq]
        exact hp

theorem WF_of_post {c c1 : Cache} (hwf : WF c) (hg : SameGeom c c1)
    (hr : ∀ p, RRPVok (c.blk p) → RRPVok (c1.blk p)) : WF c1 := by
  obtain ⟨w1, w2, w3⟩ := hwf
  obtain ⟨g1, _, _, g4, _, _, g7⟩ := hg
  refine ⟨by omega, by rw [g1, g7]; exact w2, ?_⟩
  intro s w hw
  exact hr (s, w) (w3 s w (by omega))

theorem findVictim_victim_set {policy : Policy} {fuel : Nat} {c : Cache} {addr wb : Nat}
    {r : VictimResult} (h : findVictim policy fuel c addr wb = some r) :
    r.victim_blk.1 = setIdxOf c addr := by
  rcases invalidScan_cases c (setIdxOf c addr) with ⟨i, hi⟩ | hnone
  · rw [findVictim_invalid policy fuel hi] at h
    cases h
    rfl
  · cases policy with
    | LRU =>
      simp only [findVictim, lru_full hnone, Option.some.injEq] at h
      rw [← h]
    | LFU =>
      simp only [findVictim, lfu_full hnone, Option.some.injEq] at h
      rw [← h]
    | SRRIP =>
      simp only [findVictim] at h
      cases hl : srripLoop c.num_ways fuel (c.sets (setIdxOf c addr)) 0 0 with
      | none =>
        unfold srrip at h
        unfold setIdxOf at hnone hl
        simp only [hnone, hl] at h
        cases h
      | some x =>
        obtain ⟨ways1, v, p1⟩ := x
        rw [srrip_full hnone hl] at h
        cases h
        rfl

/-- An `insertBlock` only ever fills a line of the set its address maps to. -/
theorem insertBlock_victim_set {policy : Policy} {fuel : Nat} {c : Cache} {req : Request}
    {t wb : Nat} {res : InsertResult} (h : insertBlock policy fuel c req t wb = some res) :
    res.victim.1 = reqSet c req := by
  unfold insertBlock at h
  simp only at h
  cases hf : findVictim policy fuel c (blkAlign req.load_or_store_addr c.blk_mask) wb with
  | none =>
    rw [hf] at h
    cases h
  | some r =>
    rw [hf] at h
    cases h
    exact findVictim_victim_set hf

/-- One call on a well-formed cache returns, keeps it well-formed, and keeps the tag,
validity and slot of every line except the one an `insertBlock` fills. -/
theorem stepOp_post (policy : Policy) (fuel : Nat) (c : Cache) (op : Op) (hfuel : 4 ≤ fuel)
    (hwf : WF c) :
    ∃ c1 v, stepOp policy fuel c op = some (c1, v) ∧ WF c1 ∧ SameGeom c c1 ∧
      ∀ p, v ≠ some p → SameLine (c.blk p) (c1.blk p) := by
  cases op with
  | access req t =>
    obtain ⟨h1, h2, h3⟩ := accessBlock_post c req t
    exact ⟨_, none, rfl, WF_of_post hwf h1 h3, h1, fun p _ => h2 p⟩
  | insert req t wb =>
    obtain ⟨res, e, _, _, h3, h4, h5, _⟩ :=
      insertBlock_post policy fuel c req t wb hfuel hwf.1 (fun _ => hwf.2.2 _)
    refine ⟨res.cache, some res.victim, ?_, WF_of_post hwf h3 h5, h3, ?_⟩
    · simp only [stepOp, e]
    · intro p hp
      apply sameLine_of_setRRPV
      apply h4
      intro hpe
      exact hp (by rw [hpe])

/-- A sequence of calls that never refills the line `L` returns and leaves the tag,
validity and slot of `L` as they were. -/
theorem runOps_post (policy : Policy) (fuel : Nat) (L : Nat × Nat) (hfuel : 4 ≤ fuel)
    (ops : List Op) : ∀ c : Cache, WF c → Avoids policy fuel L ops c →
    ∃ c1, runOps policy fuel ops c = some c1 ∧ WF c1 ∧ SameGeom c c1 ∧
      SameLine (c.blk L) (c1.blk L) := by
  induction ops with
  | nil =>
    intro c hwf _
    exact ⟨c, rfl, hwf, sameGeom_refl c, sameLine_refl _⟩
  | cons op ops ih =>
    intro c hwf hav
    obtain ⟨c1, v, e, hwf1, hg1, hl1⟩ := stepOp_post policy fuel c op hfuel hwf
    simp only [Avoids, e] at hav
    obtain ⟨c2, e2, hwf2, hg2, hl2⟩ := ih c1 hwf1 hav.2
    refine ⟨c2, ?_, hwf2, sameGeom_trans hg1 hg2, sameLine_trans (hl1 L hav.1) hl2⟩
    simp only [runOps, e]
    exact e2

theorem reqSet_congr {c c1 : Cache} (hg : SameGeom c c1) (req req1 : Request)
    (h : req1.load_or_store_addr = req.load_or_store_addr) : reqSet c1 req1 = reqSet c req := by
  obtain ⟨g1, _, _, _, g5, g6, _⟩ := hg
  unfold reqSet setIdxOf
  rw [g1, g5, g6, h]

theorem reqTag_eq (c : Cache) (req : Request) (ha : req.load_or_store_addr < 2 ^ 64)
    (hm : c.blk_mask < 2 ^ c.tag_shift) :
    reqTag c req = req.load_or_store_addr >>> c.tag_shift := by
  unfold reqTag tagOf
  exact shiftRight_blkAlign _ _ _ ha hm

/-- A valid line with the tag of the request, in the set of the request, makes `accessBlock`
hit. -/
theorem accessBlock_hit_of_line (c : Cache) (L : Nat × Nat) (req : Request) (t : Nat)
    (h1 : L.1 = reqSet c req) (h2 : L.2 < c.num_ways) (hv : (c.blk L).valid = true)
    (ht : (c.blk L).tag = reqTag c req) : (accessBlock c req t).2 = true := by
  unfold Cache.blk at hv ht
  rw [h1] at hv ht
  obtain ⟨w0, _, hf⟩ := @findBlock_exists c
    (blkAlign req.load_or_store_addr c.blk_mask) L.2 h2 hv ht
  rw [accessBlock_hit_eq hf]

/-- C1. Hit persistence: on a well-formed cache, for every policy, `insertBlock` of a 64-bit
address returns; an `accessBlock` on that address right after it hits; it still hits after
any further sequence of `accessBlock` and `insertBlock` calls none of which selects the
filled line as victim; and an `insertBlock` whose address maps to another set never selects
that line. -/
theorem hit_persistence (policy : Policy) (fuel : Nat) (c : Cache) (req : Request)
    (t wb : Nat) (hfuel : 4 ≤ fuel) (hwf : WF c) (ha : req.load_or_store_addr < 2 ^ 64) :
    ∃ res, insertBlock policy fuel c req t wb = some res ∧
      (∀ req1 t1, req1.load_or_store_addr = req.load_or_store_addr →
        (accessBlock res.cache req1 t1).2 = true) ∧
      (∀ ops, Avoids policy fuel res.victim ops res.cache →
        ∃ c1, runOps policy fuel ops res.cache = some c1 ∧
          ∀ req1 t1, req1.load_or_store_addr = req.load_or_store_addr →
            (accessBlock c1 req1 t1).2 = true) ∧
      (∀ c1 req1 t1 wb1 res1, insertBlock policy fuel c1 req1 t1 wb1 = some res1 →
        reqSet c1 req1 ≠ res.victim.1 → res1.victim ≠ res.victim) := by
  obtain ⟨res, e, h1, h2, h3, _, h5, h6, h7, _⟩ :=
    insertBlock_post policy fuel c req t wb hfuel hwf.1 (fun _ => hwf.2.2 _)
  have hwf1 : WF res.cache := WF_of_post hwf h3 h5
  have key : ∀ c1, WF c1 → SameGeom res.cache c1 → SameLine (res.cache.blk res.victim)
      (c1.blk res.victim) → ∀ req1 t1, req1.load_or_store_addr = req.load_or_store_addr →
      (accessBlock c1 req1 t1).2 = true := by
    intro c1 hw1 hg hl req1 t1 hreq
    have hg' : SameGeom c c1 := sameGeom_trans h3 hg
    apply accessBlock_hit_of_line c1 res.victim req1 t1
    · rw [h1, reqSet_congr hg' req req1 hreq]
    · rw [hg'.2.2.2.1]
      exact h2
    · rw [hl.2.1]
      exact h6
    · rw [hl.1, h7, reqTag_eq c1 req1 (by rw [hreq]; exact ha) hw1.2.1, hreq, hg'.2.2.2.2.2.2]
  refine ⟨res, e, ?_, ?_, ?_⟩
  · exact key res.cache hwf1 (sameGeom_refl _) (sameLine_refl _)
  · intro ops hav
    obtain ⟨c1, e1, hw1, hg1, hl1⟩ := runOps_post policy fuel res.victim hfuel ops res.cache hwf1 hav
    exact ⟨c1, e1, key c1 hw1 hg1 hl1⟩
  · intro c1 req1 t1 wb1 res1 e1 hne heq
    apply hne
    rw [← insertBlock_victim_set e1, heq]

/-! ## Write-back address -/

theorem wbAddr_round_trip (a : Nat) (ha : a < 2 ^ 64) :
    (((a >>> 16) <<< 16) % 2 ^ 64) ||| (((((blkAlign a 63) >>> 6) &&& 1023) <<< 6) % 2 ^ 32) =
      blkAlign a 63 := by
  have hx : blkAlign a 63 < 2 ^ 64 := lt_of_le_of_lt (blkAlign_le a 63) ha
  have e : a >>> 16 = blkAlign a 63 >>> 16 :=
    (shiftRight_blkAlign a 63 16 ha (by norm_num)).symm
  rw [e, Nat.mod_eq_of_lt (shl16_lt _ hx), Nat.mod_eq_of_lt (shl6_lt _)]
  exact round_trip_bits _ (fun i hi => blkAlign_low a i hi)

/-- Block alignment with mask 63 clears the low 6 bits. -/
theorem blkAlign_clear_low (a : Nat) (ha : a < 2 ^ 64) : blkAlign a 63 = a / 64 * 64 := by
  have e : a / 64 * 64 = (a >>> 6) <<< 6 := by
    rw [Nat.shiftLeft_eq, Nat.shiftRight_eq_div_pow]
  rw [e]
  apply Nat.eq_of_testBit_eq
  intro i
  have e63 : (63 : Nat) = 2 ^ 6 - 1 := by norm_num
  rw [blkAlign_testBit, Nat.testBit_shiftLeft, Nat.testBit_shiftRight, e63,
    Nat.testBit_two_pow_sub_one]
  by_cases h6 : 6 ≤ i
  · have e2 : 6 + (i - 6) = i := by omega
    have h6' : ¬ i < 6 := by omega
    by_cases h64 : i < 64
    · simp [h6, h6', h64, e2]
    · have hbit : a.testBit i = false := by
        apply Nat.testBit_lt_two_pow
        calc a < 2 ^ 64 := ha
          _ ≤ 2 ^ i := Nat.pow_le_pow_right (by norm_num) (by omega)
      simp [h6, e2, hbit]
  · have h6' : i < 6 := by omega
    have h64 : i < 64 := by omega
    simp [h6, h6', h64]

theorem WF_of_initGeom {c : Cache} (hg : InitGeom c) (hrr : ∀ s, SetOk c s) : WF c := by
  obtain ⟨g1, g2, _, _, g5⟩ := hg
  refine ⟨by omega, ?_, hrr⟩
  rw [g1, g5]
  norm_num

theorem avoids_access (policy : Policy) (fuel : Nat) (L : Nat × Nat)
    (accs : List (Request × Nat)) :
    ∀ c : Cache, Avoids policy fuel L (accs.map fun x => Op.access x.1 x.2) c := by
  induction accs with
  | nil =>
    intro c
    trivial
  | cons x xs ih =>
    intro c
    simp only [List.map_cons, Avoids, stepOp]
    exact ⟨by simp, ih _⟩

/-- C6. Write-back address round trip: on a cache with the geometry of `initCache`, 2-bit
RRPVs and consistent `set` fields, let a line be installed by `insertBlock` for the 64-bit
address `A`; after any sequence of calls that does not refill that line (every sequence of
`accessBlock` calls is one), whenever `insertBlock` (under LRU, LFU or SRRIP) selects that
line as victim it asks for a write-back and reports
`(tag << tag_shift) | (set << set_shift)` of that line, which equals `blkAlign A`, that is
`A` with its low 6 bits cleared. -/
theorem writeback_round_trip (policy : Policy) (fuel : Nat) (c : Cache) (req : Request)
    (t wb : Nat) (hfuel : 4 ≤ fuel) (hgeom : InitGeom c) (hrr : ∀ s, SetOk c s)
    (hset : SetFieldOk c) (ha : req.load_or_store_addr < 2 ^ 64) :
    ∃ res, insertBlock policy fuel c req t wb = some res ∧
      (∀ accs : List (Request × Nat),
        Avoids policy fuel res.victim (accs.map fun x => Op.access x.1 x.2) res.cache) ∧
      ∀ ops, Avoids policy fuel res.victim ops res.cache →
        ∃ c2, runOps policy fuel ops res.cache = some c2 ∧
          ∀ req2 t2 wb2, ∃ res2, insertBlock policy fuel c2 req2 t2 wb2 = some res2 ∧
            (res2.victim = res.victim →
              res2.wb_required = true ∧
              res2.wb_addr = wbAddrOf c2 (c2.blk res.victim) ∧
              res2.wb_addr = blkAlign req.load_or_store_addr c.blk_mask ∧
              res2.wb_addr = req.load_or_store_addr / 64 * 64) := by
  have hwf : WF c := WF_of_initGeom hgeom hrr
  obtain ⟨res, e, h1, h2, h3, _, h5, h6, h7, _, h9, _⟩ :=
    insertBlock_post policy fuel c req t wb hfuel hwf.1 (fun _ => hwf.2.2 _)
  have hwf1 : WF res.cache := WF_of_post hwf h3 h5
  refine ⟨res, e, fun accs => avoids_access policy fuel res.victim accs res.cache, ?_⟩
  intro ops hav
  obtain ⟨c2, e2, hwf2, hg2, hl2⟩ :=
    runOps_post policy fuel res.victim hfuel ops res.cache hwf1 hav
  refine ⟨c2, e2, ?_⟩
  intro req2 t2 wb2
  obtain ⟨res2, e3, _, _, _, _, _, _, _, _, _, _, _, k13, k14⟩ :=
    insertBlock_post policy fuel c2 req2 t2 wb2 hfuel hwf2.1 (fun _ => hwf2.2.2 _)
  refine ⟨res2, e3, ?_⟩
  intro hv
  have hvalid : (c2.blk res.victim).valid = true := by
    rw [hl2.2.1]
    exact h6
  have hb : res2.wb_required = true := by
    cases hb : res2.wb_required with
    | true => rfl
    | false =>
      have := (k13 hb).2.1
      rw [hv, hvalid] at this
      cases this
  have hwb : res2.wb_addr = wbAddrOf c2 (c2.blk res.victim) := by
    rw [(k14 hb).2, hv]
  have hg : SameGeom c c2 := sameGeom_trans h3 hg2
  suffices hmain : res2.wb_addr = blkAlign req.load_or_store_addr c.blk_mask by
    refine ⟨hb, hwb, hmain, ?_⟩
    rw [hmain, hgeom.1]
    exact blkAlign_clear_low _ ha
  obtain ⟨g1, _, g3, g4, g5⟩ := hgeom
  have hs : reqSet c req ≤ c.set_mask := by
    unfold reqSet setIdxOf
    exact Nat.and_le_right
  have hsetv : (c2.blk res.victim).set = ((blkAlign req.load_or_store_addr 63) >>> 6) &&& 1023 := by
    rw [hl2.2.2.1, h9]
    unfold Cache.blk
    rw [hset _ _ (by rw [h1]; exact hs) h2, h1]
    unfold reqSet setIdxOf
    rw [g1, g3, g4]
  have htag : (c2.blk res.victim).tag = req.load_or_store_addr >>> 16 := by
    rw [hl2.1, h7, g5]
  rw [hwb]
  unfold wbAddrOf
  rw [hsetv, htag, hg.2.2.2.2.2.2, hg.2.2.2.2.1, g5, g3, g1]
  exact wbAddr_round_trip _ ha

/-! ## Filling a set and the LRU scenario -/

theorem runOps_append (policy : Policy) (fuel : Nat) (l1 l2 : List Op) :
    ∀ c : Cache, runOps policy fuel (l1 ++ l2) c =
      (runOps policy fuel l1 c).bind (runOps policy fuel l2) := by
  induction l1 with
  | nil =>
    intro c
    rfl
  | cons op ops ih =>
    intro c
    simp only [List.cons_append, runOps]
    cases stepOp policy fuel c op with
    | none => rfl
    | some x => exact ih x.1

theorem insertBlock_lru_eq (fuel : Nat) (c : Cache) (req : Request) (t wb : Nat) :
    insertBlock Policy.LRU fuel c req t wb =
      some ⟨insertTail Policy.LRU (lru c (blkAlign req.load_or_store_addr c.blk_mask) wb).cache
          (lru c (blkAlign req.load_or_store_addr c.blk_mask) wb).victim_blk req t,
        (lru c (blkAlign req.load_or_store_addr c.blk_mask) wb).wb_addr,
        (lru c (blkAlign req.load_or_store_addr c.blk_mask) wb).wb_required,
        (lru c (blkAlign req.load_or_store_addr c.blk_mask) wb).victim_blk⟩ :=
  insertBlock_of_findVictim rfl

/-- One insert into a set whose ways below `k` are valid and whose way `k` is invalid fills
way `k` and nothing else. -/
theorem insertBlock_fill (policy : Policy) (fuel : Nat) (c : Cache) (req : Request)
    (t wb k : Nat) (hfuel : 4 ≤ fuel)
    (hok : policy = Policy.SRRIP → SetOk c (reqSet c req))
    (hk : k < c.num_ways)
    (hlow : ∀ w, w < k → (c.sets (reqSet c req) w).valid = true)
    (hinv : (c.sets (reqSet c req) k).valid = false) :
    ∃ res, insertBlock policy fuel c req t wb = some res ∧ res.victim = (reqSet c req, k) ∧
      res.wb_required = false ∧ SameGeom c res.cache ∧
      (res.cache.sets (reqSet c req) k).valid = true ∧
      (res.cache.sets (reqSet c req) k).tag = req.load_or_store_addr >>> c.tag_shift ∧
      (res.cache.sets (reqSet c req) k).when_touched = t ∧
      ∀ p, p ≠ (reqSet c req, k) → res.cache.blk p = c.blk p := by
  obtain ⟨res, e, h1, h2, h3, _, _, h6, h7, h8, _, _, _, h13, h14⟩ :=
    insertBlock_post policy fuel c req t wb hfuel (by omega) hok
  have hb : res.wb_required = false := by
    cases hb : res.wb_required with
    | false => rfl
    | true =>
      have := (h14 hb).1 k hk
      rw [hinv] at this
      cases this
  obtain ⟨_, g2, g3, g4⟩ := h13 hb
  have hv2 : res.victim.2 = k := by
    unfold Cache.blk at g2
    rw [h1] at g2
    rcases Nat.lt_trichotomy res.victim.2 k with h | h | h
    · have := hlow _ h
      rw [g2] at this
      cases this
    · exact h
    · have := g3 k h
      rw [hinv] at this
      cases this
  have hv : res.victim = (reqSet c req, k) := Prod.ext h1 hv2
  rw [hv] at h6 h7 h8 g4
  exact ⟨res, e, hv, hb, h3, h6, h7, h8, g4⟩

/-- State of the target set after the first `k` inserts of the fill. -/
theorem fill_first (policy : Policy) (fuel : Nat) (c0 : Cache) (a : Nat → Request)
    (t wb : Nat → Nat) (s : Nat) (hfuel : 4 ≤ fuel)
    (hok : policy = Policy.SRRIP → SetOk c0 s)
    (hempty : ∀ w, w < c0.num_ways → (c0.sets s w).valid = false)
    (hset : ∀ i, i < c0.num_ways → reqSet c0 (a i) = s) :
    ∀ k, k ≤ c0.num_ways →
      ∃ ck, runOps policy fuel (fillOpsOf a t wb k) c0 = some ck ∧ SameGeom c0 ck ∧
        (policy = Policy.SRRIP → SetOk ck s) ∧
        (∀ w, w < k → (ck.sets s w).valid = true ∧
          (ck.sets s w).tag = (a w).load_or_store_addr >>> c0.tag_shift ∧
          (ck.sets s w).when_touched = t w) ∧
        (∀ w, k ≤ w → w < c0.num_ways → (ck.sets s w).valid = false) := by
  intro k
  induction k with
  | zero =>
    intro _
    refine ⟨c0, rfl, sameGeom_refl c0, hok, ?_, ?_⟩
    · intro w hw
      omega
    · intro w _ hw
      exact hempty w hw
  | succ k ih =>
    intro hk
    obtain ⟨ck, e, hg, hokk, hfilled, hrest⟩ := ih (by omega)
    have hs : reqSet ck (a k) = s := by
      rw [reqSet_congr hg (a k) (a k) rfl]
      exact hset k (by omega)
    obtain ⟨res, e1, _, _, r3, r4, r5, r6, r7⟩ :=
      insertBlock_fill policy fuel ck (a k) (t k) (wb k) k hfuel
        (by rw [hs]; exact hokk) (by rw [hg.2.2.2.1]; omega)
        (by rw [hs]; exact fun w hw => (hfilled w hw).1)
        (by rw [hs]; exact hrest k (le_refl _) (by omega))
    rw [hs] at r4 r5 r6 r7
    have hne : ∀ w, w ≠ k → res.cache.sets s w = ck.sets s w := by
      intro w hw
      have := r7 (s, w) (by
        intro h
        exact hw (congrArg Prod.snd h))
      exact this
    refine ⟨res.cache, ?_, sameGeom_trans hg r3, ?_, ?_, ?_⟩
    · unfold fillOpsOf
      rw [List.range_succ, List.map_append, runOps_append]
      have e' : runOps policy fuel (List.map (fun i => Op.insert (a i) (t i) (wb i))
          (List.range k)) c0 = some ck := e
      rw [e']
      simp only [List.map_cons, List.map_nil, Option.some_bind, runOps, stepOp, e1]
    · intro hp
      obtain ⟨res', e', _, _, _, _, q5, _⟩ :=
        insertBlock_post policy fuel ck (a k) (t k) (wb k) hfuel (by rw [hg.2.2.2.1]; omega)
          (by rw [hs]; exact hokk)
      rw [e1] at e'
      cases e'
      intro w hw
      rw [r3.2.2.2.1] at hw
      exact q5 (s, w) (hokk hp w hw)
    · intro w hw
      by_cases hwk : w = k
      · rw [hwk, r4, r5, r6, hg.2.2.2.2.2.2]
        exact ⟨rfl, rfl, rfl⟩
      · rw [hne w hwk]
        exact hfilled w (by omega)
    · intro w hw1 hw2
      rw [hne w (by omega)]
      exact hrest w (by omega) hw2

theorem stepOp_lru_fuel (f1 f2 : Nat) (c : Cache) (op : Op) :
    stepOp Policy.LRU f1 c op = stepOp Policy.LRU f2 c op := by
  cases op with
  | access req t => rfl
  | insert req t wb => rfl

theorem runOps_lru_fuel (f1 f2 : Nat) (ops : List Op) :
    ∀ c : Cache, runOps Policy.LRU f1 ops c = runOps Policy.LRU f2 ops c := by
  induction ops with
  | nil =>
    intro c
    rfl
  | cons op ops ih =>
    intro c
    simp only [runOps, stepOp_lru_fuel f1 f2 c op]
    cases stepOp Policy.LRU f2 c op with
    | none => rfl
    | some x => exact ih x.1

/-- The LRU scenario: an empty 8-way set is filled by 8 conflicting addresses with pairwise
distinct tags at increasing timestamps, address number `j` is hit later, and one more
conflicting insert follows. -/
theorem lru_scenario (fuel : Nat) (c0 : Cache) (a : Nat → Request) (t wb : Nat → Nat)
    (s j : Nat) (hit : Request) (th : Nat) (r9 : Request) (t9 wb9 : Nat)
    (hn : c0.num_ways = 8) (hm : c0.blk_mask < 2 ^ c0.tag_shift)
    (hempty : ∀ w, w < 8 → (c0.sets s w).valid = false)
    (haddr : ∀ i, i < 8 → (a i).load_or_store_addr < 2 ^ 64)
    (hset : ∀ i, i < 8 → reqSet c0 (a i) = s)
    (hdist : ∀ i k, i < k → k < 8 → reqTag c0 (a i) ≠ reqTag c0 (a k))
    (htime : ∀ i k, i < k → k < 8 → t i < t k)
    (hlater : ∀ i, i < 8 → t i < th)
    (hj : j < 8) (hhit : hit.load_or_store_addr = (a j).load_or_store_addr)
    (h9 : reqSet c0 r9 = s) :
    ∃ c8 res, runOps Policy.LRU fuel (fillOpsOf a t wb 8) c0 = some c8 ∧
      (∀ w, w < 8 → (c8.sets s w).valid = true ∧ (c8.sets s w).tag = reqTag c0 (a w) ∧
        (c8.sets s w).when_touched = t w) ∧
      (accessBlock c8 hit th).2 = true ∧
      insertBlock Policy.LRU fuel (accessBlock c8 hit th).1 r9 t9 wb9 = some res ∧
      res.wb_required = true ∧
      res.victim = (s, if j = 0 then 1 else 0) ∧ res.victim ≠ (s, j) ∧
      ((accessBlock c8 hit th).1.blk res.victim).tag = reqTag c0 (a (if j = 0 then 1 else 0)) ∧
      ((accessBlock c8 hit th).1.blk res.victim).tag ≠ reqTag c0 (a j) ∧
      (∀ w, w < 8 → w ≠ j →
        ((accessBlock c8 hit th).1.blk res.victim).when_touched ≤
          ((accessBlock c8 hit th).1.sets s w).when_touched) := by
  obtain ⟨c8, e8, hg8, _, hfilled, _⟩ :=
    fill_first Policy.LRU 4 c0 a t wb s (le_refl _) (fun h => by cases h)
      (by rw [hn]; exact hempty) (by rw [hn]; exact hset) 8 (by omega)
  have htagc : ∀ w, w < 8 → (a w).load_or_store_addr >>> c0.tag_shift = reqTag c0 (a w) :=
    fun w hw => (reqTag_eq c0 (a w) (haddr w hw) hm).symm
  have hfilled' : ∀ w, w < 8 → (c8.sets s w).valid = true ∧
      (c8.sets s w).tag = reqTag c0 (a w) ∧ (c8.sets s w).when_touched = t w := by
    intro w hw
    obtain ⟨f1, f2, f3⟩ := hfilled w hw
    exact ⟨f1, f2.trans (htagc w hw), f3⟩
  have hn8 : c8.num_ways = 8 := by rw [hg8.2.2.2.1, hn]
  -- the hit
  have hs8 : reqSet c8 hit = s := by
    rw [reqSet_congr hg8 (a j) hit hhit]
    exact hset j hj
  have ht8 : reqTag c8 hit = reqTag c0 (a j) := by
    unfold reqTag tagOf
    rw [hg8.1, hg8.2.2.2.2.2.2, hhit]
  obtain ⟨w0, hw0, hfind⟩ := @findBlock_exists c8
    (blkAlign hit.load_or_store_addr c8.blk_mask) j (by rw [hn8]; exact hj)
    (by
      show (c8.sets (reqSet c8 hit) j).valid = true
      rw [hs8]
      exact (hfilled' j hj).1)
    (by
      show (c8.sets (reqSet c8 hit) j).tag = reqTag c8 hit
      rw [hs8, ht8]
      exact (hfilled' j hj).2.1)
  have hfind : findBlock c8 (blkAlign hit.load_or_store_addr c8.blk_mask) =
      some (reqSet c8 hit, w0) := hfind
  have htag0 : (c8.sets (reqSet c8 hit) w0).tag = reqTag c8 hit := (findBlock_some hfind).2.2.2.1
  have hhitflag : (accessBlock c8 hit th).2 = true := by
    rw [accessBlock_hit_eq hfind]
  have hw0j : w0 = j := by
    by_contra hne
    have hlt : w0 < j := by omega
    rw [hs8, ht8, (hfilled' w0 (by omega)).2.1] at htag0
    exact hdist w0 j hlt hj htag0
  rw [hw0j, hs8] at hfind
  have hacc := accessBlock_hit_eq (t := th) hfind
  have hc9 : ∀ w, w ≠ j → (accessBlock c8 hit th).1.sets s w = c8.sets s w := by
    intro w hw
    rw [hacc]
    simp only [setBlk_sets, setSHCT_sets]
    rw [if_neg]
    intro h
    exact hw h.2
  have hc9j : (accessBlock c8 hit th).1.sets s j = touchBlock (c8.sets s j) hit th := by
    rw [hacc]
    simp only [setBlk_sets, setSHCT_sets, Cache.blk, and_self, if_true]
  have hg9 : SameGeom c8 (accessBlock c8 hit th).1 := (accessBlock_post c8 hit th).1
  have hn9 : (accessBlock c8 hit th).1.num_ways = 8 := by rw [hg9.2.2.2.1, hn8]
  have hs9 : setIdxOf (accessBlock c8 hit th).1
      (blkAlign r9.load_or_store_addr (accessBlock c8 hit th).1.blk_mask) = s := by
    have := reqSet_congr (sameGeom_trans hg8 hg9) r9 r9 rfl
    unfold reqSet at this h9
    rw [this]
    exact h9
  have hvalid9 : ∀ w, w < (accessBlock c8 hit th).1.num_ways →
      ((accessBlock c8 hit th).1.sets (setIdxOf (accessBlock c8 hit th).1
        (blkAlign r9.load_or_store_addr (accessBlock c8 hit th).1.blk_mask)) w).valid = true := by
    intro w hw
    rw [hs9]
    rw [hn9] at hw
    by_cases hwj : w = j
    · rw [hwj, hc9j]
      exact (hfilled' j hj).1
    · rw [hc9 w hwj]
      exact (hfilled' w hw).1
  have hkey : ∀ w, w < 8 → ((accessBlock c8 hit th).1.sets s w).when_touched =
      if w = j then th else t w := by
    intro w hw
    by_cases hwj : w = j
    · rw [if_pos hwj, hwj, hc9j]
      rfl
    · rw [if_neg hwj, hc9 w hwj]
      exact (hfilled' w hw).2.2
  obtain ⟨l1, l2, l3, l4, _⟩ := lru_choice_aux (accessBlock c8 hit th).1
    (blkAlign r9.load_or_store_addr (accessBlock c8 hit th).1.blk_mask) wb9
    (by rw [hn9]; norm_num) hvalid9
  rw [hs9] at l2 l4
  rw [hn9] at l3 l4
  have hv0 : (if j = 0 then 1 else 0) < 8 := by split_ifs <;> norm_num
  have hv0j : (if j = 0 then 1 else 0) ≠ j := by split_ifs <;> omega
  have hvict : (lru (accessBlock c8 hit th).1
      (blkAlign r9.load_or_store_addr (accessBlock c8 hit th).1.blk_mask) wb9).victim_blk.2 =
      if j = 0 then 1 else 0 := by
    by_contra hne
    have hle := l4 _ hv0
    rw [hkey _ l3, hkey _ hv0, if_neg hv0j] at hle
    by_cases hvj : (lru (accessBlock c8 hit th).1
        (blkAlign r9.load_or_store_addr (accessBlock c8 hit th).1.blk_mask) wb9).victim_blk.2 = j
    · rw [if_pos hvj] at hle
      have := hlater _ hv0
      omega
    · rw [if_neg hvj] at hle
      have hlt : (if j = 0 then 1 else 0) < (lru (accessBlock c8 hit th).1
          (blkAlign r9.load_or_store_addr (accessBlock c8 hit th).1.blk_mask) wb9).victim_blk.2 := by
        split_ifs at hne ⊢ <;> omega
      have := htime _ _ hlt l3
      omega
  have hvb : (lru (accessBlock c8 hit th).1
      (blkAlign r9.load_or_store_addr (accessBlock c8 hit th).1.blk_mask) wb9).victim_blk =
      (s, if j = 0 then 1 else 0) := Prod.ext l2 hvict
  have htagv : ((accessBlock c8 hit th).1.blk (s, if j = 0 then 1 else 0)).tag =
      reqTag c0 (a (if j = 0 then 1 else 0)) := by
    unfold Cache.blk
    simp only
    rw [hc9 _ hv0j]
    exact (hfilled' _ hv0).2.1
  refine ⟨c8, _, (runOps_lru_fuel fuel 4 _ c0).trans e8, hfilled', hhitflag,
    insertBlock_lru_eq fuel _ r9 t9 wb9, l1, hvb, ?_, ?_, ?_, ?_⟩
  · simp only
    rw [hvb]
    intro h
    exact hv0j (congrArg Prod.snd h)
  · simp only
    rw [hvb]
    exact htagv
  · simp only
    rw [hvb, htagv]
    intro h
    rcases Nat.lt_or_gt_of_ne hv0j with hlt | hgt
    · exact hdist _ _ hlt hj h
    · exact hdist _ _ hgt hv0 h.symm
  · intro w hw hwj
    simp only
    rw [hvb]
    have := l4 w hw
    rw [hvict] at this
    exact this

/-! ## The cache built by `initCache` -/

theorem initGeom_initCache (heap : Nat → Cache_Block) : InitGeom (initCache heap) := by
  rw [initCache_eq]
  exact ⟨rfl, rfl, rfl, rfl, rfl⟩

theorem setOk_initCache (heap : Nat → Cache_Block) (s : Nat) : SetOk (initCache heap) s := by
  rw [initCache_eq]
  intro w _
  exact ⟨rfl, Nat.zero_le 3⟩

theorem WF_initCache (heap : Nat → Cache_Block) : WF (initCache heap) :=
  WF_of_initGeom (initGeom_initCache heap) (setOk_initCache heap)

theorem setFieldOk_initCache (heap : Nat → Cache_Block) : SetFieldOk (initCache heap) := by
  rw [initCache_eq]
  intro s w _ hw
  show (s * 8 + w) / assoc = s
  simp only [assoc]
  simp only at hw
  omega

theorem initCache_SHCT (heap : Nat → Cache_Block) (i : Nat) :
    ((initCache heap).SHCT i).counter = 2 := rfl

theorem initCache_invalid (heap : Nat → Cache_Block) (s w : Nat) :
    ((initCache heap).sets s w).valid = false := rfl

/-! ## Facts about the concrete fill -/

theorem conflictReq_set (i : Nat) (hi : i < 9) : reqSet (initCache heap0) (conflictReq i) = 0 := by
  rw [initCache_eq]
  interval_cases i <;> rfl

theorem conflictReq_tag (i : Nat) (hi : i < 9) : reqTag (initCache heap0) (conflictReq i) = i := by
  rw [initCache_eq]
  interval_cases i <;> rfl

theorem conflictReq_addr (i : Nat) (hi : i < 9) : (conflictReq i).load_or_store_addr < 2 ^ 64 := by
  show i * 0x10000 < 2 ^ 64
  omega

theorem fillState_lru_full :
    0 < (fillState Policy.LRU 8).num_ways ∧
    ∀ w, w < (fillState Policy.LRU 8).num_ways →
      ((fillState Policy.LRU 8).sets (setIdxOf (fillState Policy.LRU 8) 0x80000) w).valid = true := by
  unfold fillState
  rw [initCache_eq]
  decide

theorem fillState_lfu_full :
    0 < (fillState Policy.LFU 8).num_ways ∧
    ∀ w, w < (fillState Policy.LFU 8).num_ways →
      ((fillState Policy.LFU 8).sets (setIdxOf (fillState Policy.LFU 8) 0x80000) w).valid = true := by
  unfold fillState
  rw [initCache_eq]
  decide

theorem fillState_srrip_full :
    0 < (fillState Policy.SRRIP 8).num_ways ∧
    (∀ w, w < (fillState Policy.SRRIP 8).num_ways →
      ((fillState Policy.SRRIP 8).sets (setIdxOf (fillState Policy.SRRIP 8) 0x80000) w).valid = true) ∧
    ∀ w, w < (fillState Policy.SRRIP 8).num_ways →
      ((fillState Policy.SRRIP 8).sets (setIdxOf (fillState Policy.SRRIP 8) 0x80000) w).RRPV.max_val = 3 ∧
      ((fillState Policy.SRRIP 8).sets (setIdxOf (fillState Policy.SRRIP 8) 0x80000) w).RRPV.counter ≤ 3 := by
  unfold fillState
  rw [initCache_eq]
  decide

theorem fillState_lru_one :
    0 < (fillState Policy.LRU 1).num_ways ∧
    ((fillState Policy.LRU 1).sets (reqSet (fillState Policy.LRU 1) (conflictReq 0)) 0).valid = true ∧
    ((fillState Policy.LRU 1).sets (reqSet (fillState Policy.LRU 1) (conflictReq 0)) 0).tag =
      reqTag (fillState Policy.LRU 1) (conflictReq 0) := by
  unfold fillState
  rw [initCache_eq]
  decide

/-! ## The remaining claims and concrete instances -/

/-- C2. LRU victim choice: on a set whose ways are all valid, `lru` asks for a write-back and
selects a way of minimal `when_touched`, the lowest-indexed one among those of minimal
value.  Consequently, when an empty 8-way set is filled by 8 conflicting addresses with
pairwise distinct tags at strictly increasing timestamps and address number `j` (for
instance the second one) is then hit at a later timestamp, the next conflicting insert evicts
the line with the smallest `when_touched` among the other 7 (the first address, or the
second when `j` is the first) and not the line of address `j`. -/
theorem lru_choice (c : Cache) (addr wb : Nat) (hn : 0 < c.num_ways)
    (hall : ∀ w, w < c.num_ways → (c.sets (setIdxOf c addr) w).valid = true) :
    ((lru c addr wb).wb_required = true ∧
      (lru c addr wb).victim_blk.1 = setIdxOf c addr ∧
      (lru c addr wb).victim_blk.2 < c.num_ways ∧
      (∀ w, w < c.num_ways →
        (c.sets (setIdxOf c addr) (lru c addr wb).victim_blk.2).when_touched ≤
          (c.sets (setIdxOf c addr) w).when_touched) ∧
      (∀ w, w < c.num_ways →
        (c.sets (setIdxOf c addr) w).when_touched =
          (c.sets (setIdxOf c addr) (lru c addr wb).victim_blk.2).when_touched →
        (lru c addr wb).victim_blk.2 ≤ w)) ∧
    (∀ (fuel : Nat) (c0 : Cache) (a : Nat → Request) (t wbs : Nat → Nat) (s j : Nat)
      (hit : Request) (th : Nat) (r9 : Request) (t9 wb9 : Nat),
      c0.num_ways = 8 → c0.blk_mask < 2 ^ c0.tag_shift →
      (∀ w, w < 8 → (c0.sets s w).valid = false) →
      (∀ i, i < 8 → (a i).load_or_store_addr < 2 ^ 64) →
      (∀ i, i < 8 → reqSet c0 (a i) = s) →
      (∀ i k, i < k → k < 8 → reqTag c0 (a i) ≠ reqTag c0 (a k)) →
      (∀ i k, i < k → k < 8 → t i < t k) →
      (∀ i, i < 8 → t i < th) →
      j < 8 → hit.load_or_store_addr = (a j).load_or_store_addr →
      reqSet c0 r9 = s →
      ∃ c8 res, runOps Policy.LRU fuel (fillOpsOf a t wbs 8) c0 = some c8 ∧
        (∀ w, w < 8 → (c8.sets s w).valid = true ∧ (c8.sets s w).tag = reqTag c0 (a w) ∧
          (c8.sets s w).when_touched = t w) ∧
        (accessBlock c8 hit th).2 = true ∧
        insertBlock Policy.LRU fuel (accessBlock c8 hit th).1 r9 t9 wb9 = some res ∧
        res.wb_required = true ∧
        res.victim = (s, if j = 0 then 1 else 0) ∧ res.victim ≠ (s, j) ∧
        ((accessBlock c8 hit th).1.blk res.victim).tag =
          reqTag c0 (a (if j = 0 then 1 else 0)) ∧
        ((accessBlock c8 hit th).1.blk res.victim).tag ≠ reqTag c0 (a j) ∧
        (∀ w, w < 8 → w ≠ j →
          ((accessBlock c8 hit th).1.blk res.victim).when_touched ≤
            ((accessBlock c8 hit th).1.sets s w).when_touched)) :=
  ⟨lru_choice_aux c addr wb hn hall,
    fun fuel c0 a t wbs s j hit th r9 t9 wb9 h1 h2 h3 h4 h5 h6 h7 h8 h9 h10 h11 =>
      lru_scenario fuel c0 a t wbs s j hit th r9 t9 wb9 h1 h2 h3 h4 h5 h6 h7 h8 h9 h10 h11⟩

/-- Instance of C2: the set filled under LRU by the eight conflicting requests, and the
fill / hit on the second address / insert scenario run from `initCache` on a zeroed heap. -/
theorem lru_choice_witness :
    (0 < (fillState Policy.LRU 8).num_ways ∧
      (lru (fillState Policy.LRU 8) 0x80000 0).wb_required = true) ∧
    ∃ c8 res, runOps Policy.LRU 4
        (fillOpsOf conflictReq (fun i => i + 1) (fun _ => 0) 8) (initCache heap0) = some c8 ∧
      insertBlock Policy.LRU 4 (accessBlock c8 (conflictReq 1) 9).1 (conflictReq 8) 10 0 =
        some res ∧
      res.victim = (0, 0) :=
  ⟨⟨fillState_lru_full.1,
      (lru_choice (fillState Policy.LRU 8) 0x80000 0 fillState_lru_full.1
        fillState_lru_full.2).1.1⟩,
    let ⟨c8, res, e1, _, _, e2, _, e3, _⟩ :=
      (lru_choice (fillState Policy.LRU 8) 0x80000 0 fillState_lru_full.1
        fillState_lru_full.2).2 4 (initCache heap0) conflictReq (fun i => i + 1) (fun _ => 0)
        0 1 (conflictReq 1) 9 (conflictReq 8) 10 0
        (initGeom_initCache heap0).2.1 (WF_initCache heap0).2.1
        (fun w _ => initCache_invalid heap0 0 w)
        (fun i hi => conflictReq_addr i (by omega))
        (fun i hi => conflictReq_set i (by omega))
        (fun i k hik hk => by
          rw [conflictReq_tag i (by omega), conflictReq_tag k (by omega)]
          omega)
        (fun i k hik _ => Nat.succ_lt_succ hik)
        (fun i hi => Nat.succ_lt_succ hi)
        (by decide) rfl (conflictReq_set 8 (by decide))
    ⟨c8, res, e1, e2, e3⟩⟩

/-- Instance of C3: the set filled under LFU by the eight conflicting requests. -/
theorem lfu_choice_witness :
    0 < (fillState Policy.LFU 8).num_ways ∧
    (lfu (fillState Policy.LFU 8) 0x80000 0).wb_required = true ∧
    (lfu (fillState Policy.LFU 8) 0x80000 0).victim_blk.2 < (fillState Policy.LFU 8).num_ways :=
  ⟨fillState_lfu_full.1,
    (lfu_choice (fillState Policy.LFU 8) 0x80000 0 fillState_lfu_full.1
      fillState_lfu_full.2).1,
    (lfu_choice (fillState Policy.LFU 8) 0x80000 0 fillState_lfu_full.1
      fillState_lfu_full.2).2.2.1⟩

/-- C4 (amended). SRRIP victim choice: on a set whose ways are all valid and carry 2-bit
RRPVs, the search loop of `srrip` returns (with at least 4 scans of fuel) and the victim is
the last way in scan order, that is the highest way index, among the ways whose RRPV equals
3 at the moment the search succeeds; `ways1` is the set at that moment and the returned
cache carries the same RRPVs. -/
theorem srrip_choice (fuel : Nat) (c : Cache) (addr wb : Nat) (hfuel : 4 ≤ fuel)
    (hn : 0 < c.num_ways) (hok : SetOk c (setIdxOf c addr))
    (hall : ∀ w, w < c.num_ways → (c.sets (setIdxOf c addr) w).valid = true) :
    ∃ ways1 v passes r,
      srripLoop c.num_ways fuel (c.sets (setIdxOf c addr)) 0 0 = some (ways1, v, passes) ∧
      srrip fuel c addr wb = some r ∧ r.wb_required = true ∧
      r.victim_blk = (setIdxOf c addr, v) ∧ v < c.num_ways ∧
      (ways1 v).RRPV.counter = 3 ∧
      (∀ w, v < w → w < c.num_ways → (ways1 w).RRPV.counter ≠ 3) ∧
      (∀ w, (r.cache.sets (setIdxOf c addr) w).RRPV = (ways1 w).RRPV) := by
  obtain ⟨ways1, v1, p1, e, b1, b2, b3, _, _, _, _⟩ :=
    srripLoop_spec c.num_ways 3 fuel (c.sets (setIdxOf c addr)) 0 0 (by omega) hok
      ⟨0, hn, by omega⟩
  refine ⟨ways1, v1, p1, _, e, srrip_full (invalidScan_none.mpr hall) e, rfl, rfl, b1, b2, b3, ?_⟩
  intro w
  simp only [setBlk_sets, setWays_sets, if_true]
  split_ifs with hw
  · rw [hw.2]
    rfl
  · rfl

/-- Instance of C4 (amended): the set filled under SRRIP by the eight conflicting requests. -/
theorem srrip_choice_witness :
    (4 ≤ 4 ∧ 0 < (fillState Policy.SRRIP 8).num_ways) ∧
    ∃ r v, srrip 4 (fillState Policy.SRRIP 8) 0x80000 0 = some r ∧
      r.victim_blk = (setIdxOf (fillState Policy.SRRIP 8) 0x80000, v) ∧
      (r.cache.sets (setIdxOf (fillState Policy.SRRIP 8) 0x80000) v).RRPV.counter = 3 :=
  ⟨⟨le_refl 4, fillState_srrip_full.1⟩,
    let ⟨_, v, _, r, _, e, _, hv, _, h3, _, hr⟩ :=
      srrip_choice 4 (fillState Policy.SRRIP 8) 0x80000 0 (le_refl 4) fillState_srrip_full.1
        fillState_srrip_full.2.2 fillState_srrip_full.2.1
    ⟨r, v, e, hv, (congrArg Sat_Counter.counter (hr v)).trans h3⟩⟩

/-- C4 counterexample. In the cache built by `initCache` on a zeroed heap, the eight
conflicting requests `0x0, 0x10000, ..., 0x70000` are inserted under SRRIP (every insert
returns).  Set 0 is then full and way 1 has RRPV 3.  The search of `srrip` for the next
conflicting address succeeds without any aging pass, with way 1 still at RRPV 3, and selects
way 7: not the lowest way whose RRPV is 3. -/
theorem srrip_first_way_counterexample :
    (runOps Policy.SRRIP 4 (fillOpsOf conflictReq (fun i => i + 1) (fun _ => 0) 8)
      (initCache heap0)).isSome = true ∧
    (∀ w, w < 8 → ((fillState Policy.SRRIP 8).sets 0 w).valid = true) ∧
    ((fillState Policy.SRRIP 8).sets 0 1).RRPV.counter = 3 ∧
    (srripLoop 8 4 ((fillState Policy.SRRIP 8).sets 0) 0 0).map
      (fun r => ((r.1 1).RRPV.counter, r.2.1, r.2.2)) = some (3, 7, 0) ∧
    (srrip 4 (fillState Policy.SRRIP 8) 0x80000 0).map
      (fun r => (r.victim_blk, (r.cache.sets 0 1).RRPV.counter)) = some ((0, 7), 3) := by
  unfold fillState
  rw [initCache_eq]
  decide

/-- C5 counterexample. In the cache built by `initCache` on a zeroed heap, the request
`0x0` (PC 0) is inserted under SRRIP (the insert returns).  The SHCT counter at the index
of PC 0 is then 1, hence non-zero, when `insertBlock` is called for the request `0x10000`
(PC 0); the line that this call installs, way 1 of set 0, nevertheless has RRPV 3, not 2. -/
theorem ship_feedback_counterexample :
    (runOps Policy.SRRIP 4 (fillOpsOf conflictReq (fun i => i + 1) (fun _ => 0) 1)
      (initCache heap0)).isSome = true ∧
    ((fillState Policy.SRRIP 1).SHCT (sigOf (conflictReq 1).PC)).counter = 1 ∧
    (insertBlock Policy.SRRIP 4 (fillState Policy.SRRIP 1) (conflictReq 1) 2 0).map
      (fun res => (res.victim, (res.cache.blk res.victim).RRPV.counter)) = some ((0, 1), 3) := by
  unfold fillState
  rw [initCache_eq]
  decide

/-- Instance of C5 (amended): the first insert into the cache built by `initCache`, where the
SHCT counter is 2 at the call and the installed line gets RRPV 2. -/
theorem ship_feedback_witness :
    (4 ≤ 4 ∧ 0 < (initCache heap0).num_ways) ∧
    ∃ res, insertBlock Policy.SRRIP 4 (initCache heap0) (conflictReq 0) 1 0 = some res ∧
      (res.cache.blk res.victim).RRPV.counter = 2 :=
  ⟨⟨le_refl 4, (WF_initCache heap0).1⟩,
    let ⟨res, e, _, h2, _⟩ :=
      ship_feedback 4 (initCache heap0) (conflictReq 0) 1 0 (le_refl 4) (WF_initCache heap0).1
        (setOk_initCache heap0 _)
    ⟨res, e, h2 (by rw [initCache_SHCT]; decide)
      (Or.inr (Or.inr (le_of_eq (initCache_SHCT heap0 _).symm)))⟩⟩

/-- Instance of C1: an insert under SRRIP into the cache built by `initCache`, followed by an
access to the same address. -/
theorem hit_persistence_witness :
    (4 ≤ 4 ∧ WF (initCache heap0) ∧ (conflictReq 3).load_or_store_addr < 2 ^ 64) ∧
    ∃ res, insertBlock Policy.SRRIP 4 (initCache heap0) (conflictReq 3) 1 0 = some res ∧
      (accessBlock res.cache (conflictReq 3) 2).2 = true :=
  ⟨⟨le_refl 4, WF_initCache heap0, conflictReq_addr 3 (by decide)⟩,
    let ⟨res, e, h, _⟩ :=
      hit_persistence Policy.SRRIP 4 (initCache heap0) (conflictReq 3) 1 0 (le_refl 4)
        (WF_initCache heap0) (conflictReq_addr 3 (by decide))
    ⟨res, e, h (conflictReq 3) 2 rfl⟩⟩

/-- Instance of C7: an insert under SRRIP into the empty cache built by `initCache` needs no
write-back. -/
theorem invalid_first_witness :
    (4 ≤ 4 ∧ 0 < (initCache heap0).num_ways) ∧
    ∃ res, insertBlock Policy.SRRIP 4 (initCache heap0) (conflictReq 3) 1 0 = some res ∧
      res.wb_required = false :=
  ⟨⟨le_refl 4, (WF_initCache heap0).1⟩,
    let ⟨res, e, h, _⟩ :=
      invalid_first Policy.SRRIP 4 (initCache heap0) (conflictReq 3) 1 0 (le_refl 4)
        (WF_initCache heap0).1 (fun _ => setOk_initCache heap0 _)
    ⟨res, e, h.mpr ⟨0, (WF_initCache heap0).1, initCache_invalid heap0 _ 0⟩⟩⟩

/-- Instance of C10: an access to the address inserted first. -/
theorem hit_path_update_witness :
    (0 < (fillState Policy.LRU 1).num_ways ∧
      ((fillState Policy.LRU 1).sets (reqSet (fillState Policy.LRU 1) (conflictReq 0)) 0).valid =
        true) ∧
    (accessBlock (fillState Policy.LRU 1) (conflictReq 0) 5).2 = true := by
  refine ⟨⟨fillState_lru_one.1, fillState_lru_one.2.1⟩, ?_⟩
  obtain ⟨_, _, _, _, _, h, _⟩ :=
    hit_path_update (fillState Policy.LRU 1) (conflictReq 0) 5 0 fillState_lru_one.1
      fillState_lru_one.2.1 fillState_lru_one.2.2
  exact h

/-- Instance of C8 at the address `0x12345`. -/
theorem address_round_trip_witness :
    (0x12345 : Nat) < 2 ^ 64 ∧ (initCache heap0).tag_shift = 16 ∧
    ((tagOf (initCache heap0) (blkAlign 0x12345 (initCache heap0).blk_mask)
        <<< (initCache heap0).tag_shift) |||
      (setIdxOf (initCache heap0) (blkAlign 0x12345 (initCache heap0).blk_mask)
        <<< (initCache heap0).set_shift)) = blkAlign 0x12345 (initCache heap0).blk_mask :=
  ⟨by norm_num, (address_round_trip heap0 0x12345 (by norm_num)).2.2.2.1,
    (address_round_trip heap0 0x12345 (by norm_num)).2.2.2.2.1⟩

/-! ## Miss path and SHiP bookkeeping -/

/-- C11. Miss has no side effects: for a 64-bit address (and block-offset bits below the tag
bits) `accessBlock` returns false exactly when no way of the target set is valid with a tag
equal to `address >> tag_shift` (which is the tag `findBlock` looks for), and in that case
the cache it returns is the cache it was given: every line and every SHCT counter is
unchanged. -/
theorem miss_no_side_effects (c : Cache) (req : Request) (t : Nat)
    (ha : req.load_or_store_addr < 2 ^ 64) (hm : c.blk_mask < 2 ^ c.tag_shift) :
    ((accessBlock c req t).2 = false ↔
      ∀ w, w < c.num_ways → ¬ ((c.sets (reqSet c req) w).valid = true ∧
        (c.sets (reqSet c req) w).tag = req.load_or_store_addr >>> c.tag_shift)) ∧
    reqTag c req = req.load_or_store_addr >>> c.tag_shift ∧
    ((accessBlock c req t).2 = false → (accessBlock c req t).1 = c) := by
  have htag := reqTag_eq c req ha hm
  cases hf : findBlock c (blkAlign req.load_or_store_addr c.blk_mask) with
  | none =>
    rw [accessBlock_miss_eq hf]
    refine ⟨⟨fun _ => ?_, fun _ => rfl⟩, htag, fun _ => rfl⟩
    intro w hw
    rw [← htag]
    exact findBlock_none hf w hw
  | some p =>
    rw [accessBlock_hit_eq hf]
    obtain ⟨h1, h2, h3, h4, _⟩ := findBlock_some hf
    refine ⟨⟨fun h => ?_, fun h => ?_⟩, htag, fun h => ?_⟩
    · cases h
    · exfalso
      apply h p.2 h2
      unfold Cache.blk at h3 h4
      rw [h1] at h3 h4
      refine ⟨h3, ?_⟩
      rw [← htag]
      exact h4
    · cases h

/-- C17. Insertion RRPV decision in program order: under SRRIP, on a set of 2-bit RRPVs,
`insertBlock` returns; the SHCT counter it reads at index `PC & (cache_size - 1)` of the
request is the one left by the victim's eviction bookkeeping (decremented when the victim's
outcome flag is clear and the victim's own index is the same, else as at the call); the
installed line has RRPV 3 if that counter is zero and 2 otherwise, and its `sig` field is
the index of the request. -/
theorem insertion_rrpv_program_order (fuel : Nat) (c : Cache) (req : Request) (t wb : Nat)
    (hfuel : 4 ≤ fuel) (hn : 0 < c.num_ways) (hok : SetOk c (reqSet c req)) :
    ∃ res, insertBlock Policy.SRRIP fuel c req t wb = some res ∧
      res.cache.SHCT (sigOf req.PC) =
        (if (c.blk res.victim).outcome = false ∧ sigOf req.PC = sigOf (c.blk res.victim).PC then
          decrementCounter (c.SHCT (sigOf req.PC))
        else c.SHCT (sigOf req.PC)) ∧
      ((res.cache.SHCT (sigOf req.PC)).counter = 0 →
        (res.cache.blk res.victim).RRPV.counter = 3) ∧
      ((res.cache.SHCT (sigOf req.PC)).counter ≠ 0 →
        (res.cache.blk res.victim).RRPV.counter = 2) ∧
      (res.cache.blk res.victim).sig = sigOf req.PC := by
  obtain ⟨res, e, _, _, hS, hR, _, hsig, _⟩ := insertBlock_srrip fuel c req t wb hfuel hn hok
  refine ⟨res, e, hS _, ?_, ?_, hsig⟩
  · intro h0
    rw [hR, if_pos h0]
  · intro h0
    rw [hR, if_neg h0]

/-- C18. Eviction bookkeeping: under SRRIP, on a set of 2-bit RRPVs, `insertBlock` returns;
the SHCT counter at index `PC & (cache_size - 1)` of the victim is decremented by one,
saturating at 0, if the victim's outcome flag is false and is left alone if the flag is true;
no other SHCT counter changes; the line's outcome flag is false after the call.  This holds
in particular when a valid victim is evicted (`wb_required = true`, the victim was valid). -/
theorem eviction_bookkeeping (fuel : Nat) (c : Cache) (req : Request) (t wb : Nat)
    (hfuel : 4 ≤ fuel) (hn : 0 < c.num_ways) (hok : SetOk c (reqSet c req)) :
    ∃ res, insertBlock Policy.SRRIP fuel c req t wb = some res ∧
      (res.wb_required = true → (c.blk res.victim).valid = true) ∧
      ((c.blk res.victim).outcome = false →
        res.cache.SHCT (sigOf (c.blk res.victim).PC) =
          decrementCounter (c.SHCT (sigOf (c.blk res.victim).PC)) ∧
        (res.cache.SHCT (sigOf (c.blk res.victim).PC)).counter =
          (c.SHCT (sigOf (c.blk res.victim).PC)).counter - 1) ∧
      ((c.blk res.victim).outcome = true →
        res.cache.SHCT (sigOf (c.blk res.victim).PC) =
          c.SHCT (sigOf (c.blk res.victim).PC)) ∧
      (∀ j, j ≠ sigOf (c.blk res.victim).PC → res.cache.SHCT j = c.SHCT j) ∧
      (res.cache.blk res.victim).outcome = false := by
  obtain ⟨res, e, h1, h2, hS, _, _, _, hout⟩ := insertBlock_srrip fuel c req t wb hfuel hn hok
  obtain ⟨res1, e1, _, _, _, _, _, _, _, _, _, _, _, _, k14⟩ :=
    insertBlock_post Policy.SRRIP fuel c req t wb hfuel hn (fun _ => hok)
  rw [e] at e1
  cases e1
  refine ⟨res, e, ?_, ?_, ?_, ?_, hout⟩
  · intro hb
    have := (k14 hb).1 res.victim.2 h2
    unfold Cache.blk
    rw [h1]
    exact this
  · intro ho
    have hc : (c.blk res.victim).outcome = false ∧
        sigOf (c.blk res.victim).PC = sigOf (c.blk res.victim).PC := ⟨ho, rfl⟩
    have hs := hS (sigOf (c.blk res.victim).PC)
    rw [if_pos hc] at hs
    refine ⟨hs, ?_⟩
    rw [hs]
    unfold decrementCounter
    split_ifs with hpos
    · rfl
    · omega
  · intro ho
    have hs := hS (sigOf (c.blk res.victim).PC)
    rw [if_neg] at hs
    · exact hs
    · intro hc
      rw [ho] at hc
      cases hc.1
  · intro j hj
    have hs := hS j
    rw [if_neg] at hs
    · exact hs
    · intro hc
      exact hj hc.2

/-! ## Fuel -/

theorem srripLoop_mono (n : Nat) : ∀ (f : Nat) (ways : Nat → Cache_Block) (v p : Nat)
    (r : (Nat → Cache_Block) × Nat × Nat), srripLoop n f ways v p = some r →
    ∀ k, srripLoop n (f + k) ways v p = some r := by
  intro f
  induction f with
  | zero =>
    intro ways v p r h
    simp [srripLoop] at h
  | succ f ih =>
    intro ways v p r h k
    rw [Nat.succ_add]
    unfold srripLoop at h ⊢
    simp only at h ⊢
    split_ifs at h ⊢ with hfound
    · exact h
    · exact ih _ _ _ _ h k

theorem findVictim_mono {policy : Policy} {fuel : Nat} {c : Cache} {addr wb : Nat}
    {r : VictimResult} (h : findVictim policy fuel c addr wb = some r) (k : Nat) :
    findVictim policy (fuel + k) c addr wb = some r := by
  cases policy with
  | LRU => exact h
  | LFU => exact h
  | SRRIP =>
    simp only [findVictim] at h ⊢
    rcases invalidScan_cases c (setIdxOf c addr) with ⟨i, hi⟩ | hnone
    · rw [srrip_invalid hi] at h
      rw [srrip_invalid hi]
      exact h
    · cases hl : srripLoop c.num_ways fuel (c.sets (setIdxOf c addr)) 0 0 with
      | none =>
        unfold srrip at h
        unfold setIdxOf at hnone hl
        simp only [hnone, hl] at h
        cases h
      | some x =>
        obtain ⟨ways1, v, p1⟩ := x
        rw [srrip_full hnone hl] at h
        rw [srrip_full hnone (srripLoop_mono _ _ _ _ _ _ hl k)]
        exact h

/-- An `insertBlock` that returns with some fuel returns the same with more fuel. -/
theorem insertBlock_mono {policy : Policy} {fuel : Nat} {c : Cache} {req : Request}
    {t wb : Nat} {res : InsertResult} (h : insertBlock policy fuel c req t wb = some res)
    (k : Nat) : insertBlock policy (fuel + k) c req t wb = some res := by
  cases hf : findVictim policy fuel c (blkAlign req.load_or_store_addr c.blk_mask) wb with
  | none =>
    unfold insertBlock at h
    simp only [hf] at h
    cases h
  | some r =>
    rw [insertBlock_of_findVictim hf] at h
    rw [insertBlock_of_findVictim (findVictim_mono hf k)]
    exact h

/-- The guarantees of `insertBlock_post` for a call that returned, whatever its fuel. -/
theorem insertBlock_post_of_some {policy : Policy} {fuel : Nat} {c : Cache} {req : Request}
    {t wb : Nat} {res : InsertResult} (h : insertBlock policy fuel c req t wb = some res)
    (hn : 0 < c.num_ways) (hok : policy = Policy.SRRIP → SetOk c (reqSet c req)) :
    res.victim.1 = reqSet c req ∧ res.victim.2 < c.num_ways ∧
    SameGeom c res.cache ∧
    (∀ p, p ≠ res.victim → res.cache.blk p = setRRPV (c.blk p) (res.cache.blk p).RRPV) ∧
    (∀ p, RRPVok (c.blk p) → RRPVok (res.cache.blk p)) ∧
    (res.cache.blk res.victim).valid = true ∧
    (res.cache.blk res.victim).tag = req.load_or_store_addr >>> c.tag_shift ∧
    (res.cache.blk res.victim).PC = (c.blk res.victim).PC := by
  obtain ⟨res1, e1, h1, h2, h3, h4, h5, h6, h7, _, _, _, h12, _⟩ :=
    insertBlock_post policy (fuel + 4) c req t wb (by omega) hn hok
  rw [insertBlock_mono h 4] at e1
  cases e1
  exact ⟨h1, h2, h3, h4, h5, h6, h7, h12⟩

/-! ## Invariants of the reachable states -/

theorem clean_initCache (heap : Nat → Cache_Block) (p : Nat × Nat) :
    Clean ((initCache heap).blk p) := fun _ => ⟨rfl, rfl⟩

theorem accessBlock_clean (c : Cache) (req : Request) (t : Nat)
    (h : ∀ p, Clean (c.blk p)) : ∀ p, Clean ((accessBlock c req t).1.blk p) := by
  cases hf : findBlock c (blkAlign req.load_or_store_addr c.blk_mask) with
  | none =>
    rw [accessBlock_miss_eq hf]
    exact h
  | some q =>
    rw [accessBlock_hit_eq hf]
    intro p
    by_cases hpq : p = q
    · rw [hpq]
      simp only [setBlk_blk_self]
      intro hv
      have hq := (findBlock_some hf).2.2.1
      have hv' : (c.blk q).valid = false := hv
      rw [hq] at hv'
      cases hv'
    · simp only
      rw [setBlk_blk_ne _ _ _ _ hpq]
      exact h p

theorem clean_setRRPV {b : Cache_Block} (x : Sat_Counter) (h : Clean b) :
    Clean (setRRPV b x) := h

/-- Every reachable state is well-formed and its invalid lines are clean. -/
theorem reach_inv (policy : Policy) (guard : Cache → Request → Prop) (c : Cache)
    (h : Reach policy guard c) : WF c ∧ ∀ p, Clean (c.blk p) := by
  induction h with
  | init heap => exact ⟨WF_initCache heap, clean_initCache heap⟩
  | access c req t _ ih =>
    obtain ⟨hwf, hcl⟩ := ih
    obtain ⟨a1, _, a3⟩ := accessBlock_post c req t
    exact ⟨WF_of_post hwf a1 a3, accessBlock_clean c req t hcl⟩
  | insert c req t wb fuel res _ _ e ih =>
    obtain ⟨hwf, hcl⟩ := ih
    obtain ⟨_, _, h3, h4, h5, h6, _, _⟩ :=
      insertBlock_post_of_some e hwf.1 (fun _ => hwf.2.2 _)
    refine ⟨WF_of_post hwf h3 h5, ?_⟩
    intro p
    by_cases hpv : p = res.victim
    · rw [hpv]
      intro hv
      rw [h6] at hv
      cases hv
    · rw [h4 p hpv]
      exact clean_setRRPV _ (hcl p)

/-- The reference count and dirty flag of the line filled by `insertBlock` when the invalid
lines of the cache are clean. -/
theorem insertBlock_fresh (policy : Policy) (fuel : Nat) (c : Cache) (req : Request)
    (t wb : Nat) (hfuel : 4 ≤ fuel) (hn : 0 < c.num_ways)
    (hok : policy = Policy.SRRIP → SetOk c (reqSet c req)) (hcl : ∀ p, Clean (c.blk p)) :
    ∃ res, insertBlock policy fuel c req t wb = some res ∧
      (res.cache.blk res.victim).frequency = 1 ∧
      (res.cache.blk res.victim).dirty =
        (if req.req_type = Request_Type.STORE then true else false) := by
  obtain ⟨r, e, _, _, _, _, _, _, h7, h8⟩ :=
    findVictim_post policy fuel c (blkAlign req.load_or_store_addr c.blk_mask) wb hfuel hn hok
  obtain ⟨_, _, _, t4, _, _, _, t8, _⟩ := insertTail_victim policy r.cache r.victim_blk req t
  have hpre : (r.cache.blk r.victim_blk).frequency = 0 ∧
      (r.cache.blk r.victim_blk).dirty = false := by
    cases hb : r.wb_required with
    | false =>
      obtain ⟨g1, _, g3, _⟩ := h7 hb
      rw [g1]
      exact ⟨(hcl _ g3).2, (hcl _ g3).1⟩
    | true =>
      rw [(h8 hb).2.1]
      exact ⟨rfl, rfl⟩
  refine ⟨_, insertBlock_of_findVictim e, ?_, ?_⟩
  · simp only
    rw [t4, hpre.1]
    norm_num
  · simp only
    rw [t8, hpre.2]

/-- C13. Insertion finalization: in every state reachable from `initCache` by `accessBlock`
and `insertBlock` calls, for every policy, `insertBlock` returns and the installed line has
`tag = address >> tag_shift`, `valid = true`, `when_touched` equal to the timestamp, `dirty`
true exactly when the request is a STORE (false for a LOAD), and `frequency = 1`. -/
theorem insertion_finalization (policy : Policy) (c : Cache) (fuel : Nat) (req : Request)
    (t wb : Nat) (hr : Reachable policy c) (hfuel : 4 ≤ fuel) :
    ∃ res, insertBlock policy fuel c req t wb = some res ∧
      (res.cache.blk res.victim).tag = req.load_or_store_addr >>> c.tag_shift ∧
      (res.cache.blk res.victim).valid = true ∧
      (res.cache.blk res.victim).when_touched = t ∧
      ((res.cache.blk res.victim).dirty = true ↔ req.req_type = Request_Type.STORE) ∧
      (req.req_type = Request_Type.LOAD → (res.cache.blk res.victim).dirty = false) ∧
      (res.cache.blk res.victim).frequency = 1 := by
  obtain ⟨hwf, hcl⟩ := reach_inv policy _ c hr
  obtain ⟨res, e, _, _, _, _, _, h6, h7, h8, _⟩ :=
    insertBlock_post policy fuel c req t wb hfuel hwf.1 (fun _ => hwf.2.2 _)
  obtain ⟨res1, e1, f1, f2⟩ :=
    insertBlock_fresh policy fuel c req t wb hfuel hwf.1 (fun _ => hwf.2.2 _) hcl
  rw [e] at e1
  cases e1
  refine ⟨res, e, h7, h6, h8, ?_, ?_, f1⟩
  · rw [f2]
    by_cases hs : req.req_type = Request_Type.STORE
    · simp [hs]
    · simp [hs]
  · intro hl
    rw [f2, hl]
    rfl

/-! ## Tag uniqueness under the access-then-insert-on-miss protocol -/

theorem tagUnique_initCache (heap : Nat → Cache_Block) : TagUnique (initCache heap) := by
  intro s w1 w2 _ _ hv _ _
  rw [initCache_invalid] at hv
  cases hv

theorem tagUnique_access (c : Cache) (req : Request) (t : Nat) (h : TagUnique c) :
    TagUnique (accessBlock c req t).1 := by
  obtain ⟨a1, a2, _⟩ := accessBlock_post c req t
  intro s w1 w2 h1 h2 hv1 hv2 ht
  rw [a1.2.2.2.1] at h1 h2
  have l1 := a2 (s, w1)
  have l2 := a2 (s, w2)
  unfold Cache.blk at l1 l2
  simp only at l1 l2
  rw [l1.2.1] at hv1
  rw [l2.2.1] at hv2
  rw [l1.1, l2.1] at ht
  exact h s w1 w2 h1 h2 hv1 hv2 ht

theorem tagUnique_insert {policy : Policy} {fuel : Nat} {c : Cache} {req : Request}
    {t wb : Nat} {res : InsertResult} (hwf : WF c) (h : TagUnique c)
    (ha : req.load_or_store_addr < 2 ^ 64)
    (hmiss : findBlock c (blkAlign req.load_or_store_addr c.blk_mask) = none)
    (e : insertBlock policy fuel c req t wb = some res) : TagUnique res.cache := by
  obtain ⟨h1, h2, h3, h4, _, h6, h7, _⟩ :=
    insertBlock_post_of_some e hwf.1 (fun _ => hwf.2.2 _)
  have hnone := findBlock_none hmiss
  have htagv : (res.cache.blk res.victim).tag = reqTag c req := by
    rw [h7, reqTag_eq c req ha hwf.2.1]
  -- a line other than the filled one keeps tag and validity
  have hother : ∀ s w, (s, w) ≠ res.victim →
      (res.cache.sets s w).tag = (c.sets s w).tag ∧
      (res.cache.sets s w).valid = (c.sets s w).valid := by
    intro s w hne
    have hl := sameLine_of_setRRPV (h4 (s, w) hne)
    exact ⟨hl.1, hl.2.1⟩
  -- no other valid way of the target set has the new tag
  have hclash : ∀ w, w < c.num_ways → (reqSet c req, w) ≠ res.victim →
      (res.cache.sets (reqSet c req) w).valid = true →
      (res.cache.sets (reqSet c req) w).tag ≠ reqTag c req := by
    intro w hw hne hv ht
    obtain ⟨o1, o2⟩ := hother _ _ hne
    rw [o2] at hv
    rw [o1] at ht
    exact hnone w hw ⟨hv, ht⟩
  intro s w1 w2 hw1 hw2 hv1 hv2 ht
  rw [h3.2.2.2.1] at hw1 hw2
  by_cases e1 : (s, w1) = res.victim
  · by_cases e2 : (s, w2) = res.victim
    · have := e1.trans e2.symm
      exact congrArg Prod.snd this
    · exfalso
      have hs : s = reqSet c req := (congrArg Prod.fst e1).trans h1
      subst hs
      have hvt : (res.cache.sets (reqSet c req) w1).tag = reqTag c req := by
        have := htagv
        rw [← e1] at this
        exact this
      exact hclash w2 hw2 e2 hv2 (ht.symm.trans hvt)
  · by_cases e2 : (s, w2) = res.victim
    · exfalso
      have hs : s = reqSet c req := (congrArg Prod.fst e2).trans h1
      subst hs
      have hvt : (res.cache.sets (reqSet c req) w2).tag = reqTag c req := by
        have := htagv
        rw [← e2] at this
        exact this
      exact hclash w1 hw1 e1 hv1 (ht.trans hvt)
    · obtain ⟨o1, o2⟩ := hother _ _ e1
      obtain ⟨p1, p2⟩ := hother _ _ e2
      rw [o2] at hv1
      rw [p2] at hv2
      rw [o1, p1] at ht
      exact h s w1 w2 hw1 hw2 hv1 hv2 ht

/-- C14. Tag uniqueness invariant: in every state reached from `initCache` by `accessBlock`
calls and by `insertBlock` calls that are issued (for a 64-bit address `A`) only when
`findBlock (blkAlign A)` is `NULL`, every set contains at most one valid way with any given
tag. -/
theorem tag_uniqueness (policy : Policy) (c : Cache) (h : MissDriven policy c) :
    ∀ s w1 w2, w1 < c.num_ways → w2 < c.num_ways →
      (c.sets s w1).valid = true → (c.sets s w2).valid = true →
      (c.sets s w1).tag = (c.sets s w2).tag → w1 = w2 := by
  have key : TagUnique c := by
    unfold MissDriven at h
    induction h with
    | init heap => exact tagUnique_initCache heap
    | access c req t _ ih => exact tagUnique_access c req t ih
    | insert c req t wb fuel res hprev hg e ih =>
      exact tagUnique_insert (reach_inv policy _ c hprev).1 ih hg.1 hg.2 e
  exact key

/-! ## Geometry -/

theorem conflict_bits (i : Nat) (hi : i < 8) :
    ((i * 0x10000) >>> 6) &&& 1023 = 0 ∧ (i * 0x10000) >>> 16 = i ∧
    blkAlign (i * 0x10000) 63 = i * 0x10000 := by
  interval_cases i <;> decide

/-- C16. Geometry derivation: for `block_size = 64`, `cache_size = 512` and `assoc = 8`,
`initCache` yields `num_blocks = 8192`, `num_sets = 1024`, `set_shift = 6`,
`set_mask = 1023`, `tag_shift = 16`, with `num_sets * num_ways = num_blocks`; block `i` gets
`set = i / 8`, `way = i % 8` and is way `i % 8` of set `i / 8`; and the eight addresses
`i * 0x10000`, `i = 0..7`, have set index 0 and the pairwise distinct tags `i`. -/
theorem geometry_derivation (heap : Nat → Cache_Block) :
    (block_size = 64 ∧ cache_size = 512 ∧ assoc = 8) ∧
    (initCache heap).num_blocks = 8192 ∧ (initCache heap).num_sets = 1024 ∧
    (initCache heap).num_ways = 8 ∧ (initCache heap).set_shift = 6 ∧
    (initCache heap).set_mask = 1023 ∧ (initCache heap).tag_shift = 16 ∧
    (initCache heap).num_sets * (initCache heap).num_ways = (initCache heap).num_blocks ∧
    (∀ i, (initBlock heap i).set = i / 8 ∧ (initBlock heap i).way = i % 8 ∧
      (initCache heap).sets (i / 8) (i % 8) = initBlock heap i) ∧
    (∀ i, i < 8 → setIdxOf (initCache heap) (i * 0x10000) = 0 ∧
      tagOf (initCache heap) (i * 0x10000) = i ∧
      blkAlign (i * 0x10000) (initCache heap).blk_mask = i * 0x10000) ∧
    (∀ i j, i < 8 → j < 8 → i ≠ j →
      tagOf (initCache heap) (i * 0x10000) ≠ tagOf (initCache heap) (j * 0x10000)) := by
  have htag : ∀ i, i < 8 → setIdxOf (initCache heap) (i * 0x10000) = 0 ∧
      tagOf (initCache heap) (i * 0x10000) = i ∧
      blkAlign (i * 0x10000) (initCache heap).blk_mask = i * 0x10000 := by
    intro i hi
    rw [initCache_eq]
    exact conflict_bits i hi
  refine ⟨⟨rfl, rfl, rfl⟩, ?_, ?_, ?_, ?_, ?_, ?_, ?_, ?_, htag, ?_⟩
  · rw [initCache_eq]
  · rw [initCache_eq]
  · rw [initCache_eq]
  · rw [initCache_eq]
  · rw [initCache_eq]
  · rw [initCache_eq]
  · rw [initCache_eq]
    rfl
  · intro i
    refine ⟨rfl, rfl, ?_⟩
    rw [initCache_eq]
    show initBlock heap (i / 8 * 8 + i % 8) = initBlock heap i
    rw [Nat.div_add_mod']
  · intro i j hi hj hne h
    rw [(htag i hi).2.1, (htag j hj).2.1] at h
    exact hne h

/-! ## The installing PC -/

/-- C12, the code at a failing input. In the cache built by `initCache` on a zeroed heap,
the request `pcReq` (address `0x12345`, PC `0x400`) is inserted; under each policy the call
fills way 0 of set 141 with tag 1, and the `PC` field of that line is still 0, the content
of the allocation, not `0x400`: no statement of `insertBlock` writes the field. -/
theorem installing_pc_not_recorded :
    pcReq.PC = 0x400 ∧
    (insertBlock Policy.LRU 4 (initCache heap0) pcReq 1 0).map
      (fun res => (res.victim, (res.cache.blk res.victim).tag, (res.cache.blk res.victim).PC)) =
        some ((141, 0), 1, 0) ∧
    (insertBlock Policy.LFU 4 (initCache heap0) pcReq 1 0).map
      (fun res => (res.victim, (res.cache.blk res.victim).tag, (res.cache.blk res.victim).PC)) =
        some ((141, 0), 1, 0) ∧
    (insertBlock Policy.SRRIP 4 (initCache heap0) pcReq 1 0).map
      (fun res => (res.victim, (res.cache.blk res.victim).tag, (res.cache.blk res.victim).PC)) =
        some ((141, 0), 1, 0) := by
  rw [initCache_eq]
  decide

/-! ## Aging passes of the SRRIP search -/

/-- One aging pass adds 1 to an RRPV below 3 of a 2-bit counter. -/
theorem ageLoop_counter (n : Nat) (ways : Nat → Cache_Block) (m : Nat) (hm : m < n)
    (hok : RRPVok (ways m)) (hlt : (ways m).RRPV.counter < 3) :
    ageLoop n 0 ways m =
      setRRPV (ways m) { (ways m).RRPV with counter := (ways m).RRPV.counter + 1 } := by
  rw [ageLoop_apply]
  have hc : 0 ≤ m ∧ m < 0 + n := by omega
  rw [if_pos hc]
  have hlt' : (ways m).RRPV.counter < (ways m).RRPV.max_val := by
    rw [hok.1]
    exact hlt
  unfold incrementCounter
  rw [if_pos hlt']

/-- The search loop on a set of 2-bit RRPVs whose largest value is `3 - d`: it performs
exactly `d` aging passes and stops on the last way whose RRPV is then 3. -/
theorem srripLoop_exact (n : Nat) (d : Nat) :
    ∀ (fuel : Nat) (ways : Nat → Cache_Block) (v p : Nat), d < fuel →
    (∀ m, m < n → RRPVok (ways m)) →
    (∀ m, m < n → (ways m).RRPV.counter + d ≤ 3) →
    (∃ m, m < n ∧ (ways m).RRPV.counter + d = 3) →
    ∃ v1, srripLoop n fuel ways v p = some ((ageLoop n 0)^[d] ways, v1, p + d) ∧ v1 < n ∧
      (((ageLoop n 0)^[d] ways) v1).RRPV.counter = 3 ∧
      ∀ m, v1 < m → m < n → (((ageLoop n 0)^[d] ways) m).RRPV.counter ≠ 3 := by
  induction d with
  | zero =>
    intro fuel ways v p hf _ _ hex
    obtain ⟨m, hm, hm3⟩ := hex
    obtain ⟨f, rfl⟩ : ∃ f, fuel = f + 1 := ⟨fuel - 1, by omega⟩
    rcases scanThree_spec ways n 0 (v, false) with ⟨a1, _⟩ | ⟨a1, _, a3, a4, a5⟩
    · exact absurd (by omega) (a1 m (by omega) (by omega))
    · refine ⟨_, srripLoop_found n f ways v p a1, by omega, a4, ?_⟩
      intro j h1 h2
      exact a5 j h1 (by omega)
  | succ d ih =>
    intro fuel ways v p hf hok hle hex
    obtain ⟨f, rfl⟩ : ∃ f, fuel = f + 1 := ⟨fuel - 1, by omega⟩
    have hno : ∀ m, m < n → (ways m).RRPV.counter ≠ 3 := by
      intro m hm
      have := hle m hm
      omega
    have hcnt : ∀ m, m < n → (ageLoop n 0 ways m).RRPV.counter = (ways m).RRPV.counter + 1 ∧
        (ageLoop n 0 ways m).RRPV.max_val = 3 := by
      intro m hm
      have hlt : (ways m).RRPV.counter < 3 := by
        have := hle m hm
        omega
      rw [ageLoop_counter n ways m hm (hok m hm) hlt]
      exact ⟨rfl, (hok m hm).1⟩
    have hok1 : ∀ m, m < n → RRPVok (ageLoop n 0 ways m) := by
      intro m hm
      obtain ⟨c1, c2⟩ := hcnt m hm
      have := hle m hm
      exact ⟨c2, by rw [c1]; omega⟩
    have hle1 : ∀ m, m < n → (ageLoop n 0 ways m).RRPV.counter + d ≤ 3 := by
      intro m hm
      rw [(hcnt m hm).1]
      have := hle m hm
      omega
    have hex1 : ∃ m, m < n ∧ (ageLoop n 0 ways m).RRPV.counter + d = 3 := by
      obtain ⟨m, hm, hm3⟩ := hex
      refine ⟨m, hm, ?_⟩
      rw [(hcnt m hm).1]
      omega
    obtain ⟨v1, e, b1, b2, b3⟩ := ih f (ageLoop n 0 ways) v (p + 1) (by omega) hok1 hle1 hex1
    refine ⟨v1, ?_, b1, ?_, ?_⟩
    · rw [srripLoop_age n f ways v p hno, e, Function.iterate_succ_apply]
      have : p + 1 + d = p + (d + 1) := by omega
      rw [this]
    · rw [Function.iterate_succ_apply]
      exact b2
    · rw [Function.iterate_succ_apply]
      exact b3

/-- C19. SRRIP aging terminates: on a target set with at least one way, all ways valid and
every RRPV a 2-bit counter (`max_val = 3`, value at most 3), whose largest RRPV is `M`, the
search loop of `srrip` returns (with fuel for 4 scans), `srrip` returns the victim it found,
and the number of aging passes performed is exactly `3 - M`, hence at most 3. -/
theorem srrip_aging_terminates (fuel : Nat) (c : Cache) (addr wb M : Nat) (hfuel : 4 ≤ fuel)
    (hok : SetOk c (setIdxOf c addr))
    (hall : ∀ w, w < c.num_ways → (c.sets (setIdxOf c addr) w).valid = true)
    (hmax : ∀ w, w < c.num_ways → (c.sets (setIdxOf c addr) w).RRPV.counter ≤ M)
    (hatt : ∃ w, w < c.num_ways ∧ (c.sets (setIdxOf c addr) w).RRPV.counter = M) :
    ∃ ways1 v passes r,
      srripLoop c.num_ways fuel (c.sets (setIdxOf c addr)) 0 0 = some (ways1, v, passes) ∧
      srrip fuel c addr wb = some r ∧ r.wb_required = true ∧
      r.victim_blk = (setIdxOf c addr, v) ∧
      passes = 3 - M ∧ passes ≤ 3 := by
  obtain ⟨w0, hw0, hw0M⟩ := hatt
  have hM3 : M ≤ 3 := by
    have := (hok w0 hw0).2
    omega
  obtain ⟨v1, e, _, _, _⟩ := srripLoop_exact c.num_ways (3 - M) fuel
    (c.sets (setIdxOf c addr)) 0 0 (by omega) hok
    (by
      intro m hm
      have := hmax m hm
      omega)
    ⟨w0, hw0, by omega⟩
  rw [Nat.zero_add] at e
  exact ⟨_, v1, 3 - M, _, e, srrip_full (invalidScan_none.mpr hall) e, rfl, rfl, rfl, by omega⟩

/-- C20. SRRIP aging effect: on a full set in which every line has RRPV 2 (of a 2-bit
counter), the search of `srrip` performs exactly one aging pass, after which every line of
the set has RRPV 3; the victim is then selected (the last way); every other line of the set
ends the search with RRPV 3 and all its other fields unchanged. -/
theorem srrip_aging_effect (fuel : Nat) (c : Cache) (addr wb : Nat) (hfuel : 4 ≤ fuel)
    (hn : 0 < c.num_ways)
    (hall : ∀ w, w < c.num_ways → (c.sets (setIdxOf c addr) w).valid = true)
    (htwo : ∀ w, w < c.num_ways → (c.sets (setIdxOf c addr) w).RRPV.counter = 2 ∧
      (c.sets (setIdxOf c addr) w).RRPV.max_val = 3) :
    ∃ ways1 v r,
      srripLoop c.num_ways fuel (c.sets (setIdxOf c addr)) 0 0 = some (ways1, v, 1) ∧
      srrip fuel c addr wb = some r ∧ r.wb_required = true ∧
      r.victim_blk = (setIdxOf c addr, v) ∧ v = c.num_ways - 1 ∧
      (∀ w, w < c.num_ways → (ways1 w).RRPV.counter = 3) ∧
      (∀ w, w < c.num_ways → w ≠ v →
        (r.cache.sets (setIdxOf c addr) w).RRPV.counter = 3 ∧
        r.cache.sets (setIdxOf c addr) w =
          setRRPV (c.sets (setIdxOf c addr) w)
            { (c.sets (setIdxOf c addr) w).RRPV with counter := 3 }) := by
  have hok : ∀ m, m < c.num_ways → RRPVok (c.sets (setIdxOf c addr) m) := by
    intro m hm
    obtain ⟨h1, h2⟩ := htwo m hm
    exact ⟨h2, by omega⟩
  obtain ⟨v1, e, b1, _, b3⟩ := srripLoop_exact c.num_ways 1 fuel
    (c.sets (setIdxOf c addr)) 0 0 (by omega) hok
    (by
      intro m hm
      have := (htwo m hm).1
      omega)
    ⟨0, hn, by
      have := (htwo 0 hn).1
      omega⟩
  rw [Function.iterate_one, Nat.zero_add] at e
  rw [Function.iterate_one] at b3
  have hways : ∀ w, w < c.num_ways → ageLoop c.num_ways 0 (c.sets (setIdxOf c addr)) w =
      setRRPV (c.sets (setIdxOf c addr) w)
        { (c.sets (setIdxOf c addr) w).RRPV with counter := 3 } := by
    intro w hw
    rw [ageLoop_counter c.num_ways _ w hw (hok w hw) (by rw [(htwo w hw).1]; norm_num),
      (htwo w hw).1]
  have hlast : v1 = c.num_ways - 1 := by
    by_contra hne
    have hlt : v1 < c.num_ways - 1 := by omega
    apply b3 (c.num_ways - 1) hlt (by omega)
    rw [hways _ (by omega)]
    rfl
  refine ⟨_, v1, _, e, srrip_full (invalidScan_none.mpr hall) e, rfl, rfl, hlast, ?_, ?_⟩
  · intro w hw
    rw [hways w hw]
    rfl
  · intro w hw hne
    have hsets : ((c.setWays (setIdxOf c addr)
        (ageLoop c.num_ways 0 (c.sets (setIdxOf c addr)))).setBlk (setIdxOf c addr, v1)
        (invalidate (ageLoop c.num_ways 0 (c.sets (setIdxOf c addr)) v1))).sets
        (setIdxOf c addr) w = ageLoop c.num_ways 0 (c.sets (setIdxOf c addr)) w := by
      rw [setBlk_sets, setWays_sets, if_pos rfl, if_neg]
      intro h
      exact hne h.2
    simp only
    rw [hsets, hways w hw]
    exact ⟨rfl, rfl⟩

/-! ## Concrete instances -/

theorem pcFillState_full :
    0 < (pcFillState 8).num_ways ∧
    (∀ w, w < (pcFillState 8).num_ways →
      ((pcFillState 8).sets (setIdxOf (pcFillState 8) 0x80000) w).valid = true) ∧
    ∀ w, w < (pcFillState 8).num_ways →
      ((pcFillState 8).sets (setIdxOf (pcFillState 8) 0x80000) w).RRPV.counter = 2 ∧
      ((pcFillState 8).sets (setIdxOf (pcFillState 8) 0x80000) w).RRPV.max_val = 3 := by
  unfold pcFillState
  rw [initCache_eq]
  decide

theorem initCache_miss (heap : Nat → Cache_Block) (addr : Nat) :
    findBlock (initCache heap) addr = none := by
  cases hf : findBlock (initCache heap) addr with
  | none => rfl
  | some p =>
    have h := (findBlock_some hf).2.2.1
    unfold Cache.blk at h
    rw [initCache_invalid] at h
    cases h

/-- Instance of C11: an access to the empty cache built by `initCache` misses and returns
the cache unchanged. -/
theorem miss_no_side_effects_witness :
    ((conflictReq 1).load_or_store_addr < 2 ^ 64 ∧
      (initCache heap0).blk_mask < 2 ^ (initCache heap0).tag_shift) ∧
    (accessBlock (initCache heap0) (conflictReq 1) 1).2 = false ∧
    (accessBlock (initCache heap0) (conflictReq 1) 1).1 = initCache heap0 := by
  have ha := conflictReq_addr 1 (by decide)
  have hm := (WF_initCache heap0).2.1
  obtain ⟨h1, _, h3⟩ := miss_no_side_effects (initCache heap0) (conflictReq 1) 1 ha hm
  have hmiss : (accessBlock (initCache heap0) (conflictReq 1) 1).2 = false := by
    apply h1.mpr
    intro w _ hv
    rw [initCache_invalid] at hv
    cases hv.1
  exact ⟨⟨ha, hm⟩, hmiss, h3 hmiss⟩

/-- Instance of C13: a store inserted under LFU into the cache built by `initCache`. -/
theorem insertion_finalization_witness :
    (Reachable Policy.LFU (initCache heap0) ∧ 4 ≤ 4) ∧
    ∃ res, insertBlock Policy.LFU 4 (initCache heap0) pcReq 7 0 = some res ∧
      (res.cache.blk res.victim).when_touched = 7 ∧
      (res.cache.blk res.victim).dirty = true ∧
      (res.cache.blk res.victim).frequency = 1 := by
  obtain ⟨res, e, _, _, h3, h4, _, h6⟩ :=
    insertion_finalization Policy.LFU (initCache heap0) 4 pcReq 7 0 (Reach.init heap0)
      (le_refl 4)
  exact ⟨⟨Reach.init heap0, le_refl 4⟩, res, e, h3, h4.mpr rfl, h6⟩

/-- Instance of C14: the state after a miss in the cache built by `initCache` and the
insert that follows it. -/
theorem tag_uniqueness_witness :
    ∃ res, insertBlock Policy.LRU 4 (initCache heap0) (conflictReq 1) 1 0 = some res ∧
      MissDriven Policy.LRU res.cache ∧
      ∀ s w1 w2, w1 < res.cache.num_ways → w2 < res.cache.num_ways →
        (res.cache.sets s w1).valid = true → (res.cache.sets s w2).valid = true →
        (res.cache.sets s w1).tag = (res.cache.sets s w2).tag → w1 = w2 := by
  obtain ⟨res, e, _⟩ :=
    insertBlock_post Policy.LRU 4 (initCache heap0) (conflictReq 1) 1 0 (le_refl 4)
      (WF_initCache heap0).1 (fun _ => setOk_initCache heap0 _)
  have hr : MissDriven Policy.LRU res.cache :=
    Reach.insert (initCache heap0) (conflictReq 1) 1 0 4 res (Reach.init heap0)
      ⟨conflictReq_addr 1 (by decide), initCache_miss heap0 _⟩ e
  exact ⟨res, e, hr, tag_uniqueness Policy.LRU res.cache hr⟩

/-- Instance of C17: the first insert into the cache built by `initCache`.  The request index
`0x400 & 511 = 0` is also the index of the victim's `PC`, so the counter read is the 1 that
the bookkeeping of the same call has left, and the installed line gets RRPV 2. -/
theorem insertion_rrpv_program_order_witness :
    (4 ≤ 4 ∧ 0 < (initCache heap0).num_ways ∧
      SetOk (initCache heap0) (reqSet (initCache heap0) pcReq)) ∧
    ∃ res, insertBlock Policy.SRRIP 4 (initCache heap0) pcReq 1 0 = some res ∧
      (res.cache.blk res.victim).sig = sigOf pcReq.PC := by
  obtain ⟨res, e, _, _, _, h⟩ :=
    insertion_rrpv_program_order 4 (initCache heap0) pcReq 1 0 (le_refl 4)
      (WF_initCache heap0).1 (setOk_initCache heap0 _)
  exact ⟨⟨le_refl 4, (WF_initCache heap0).1, setOk_initCache heap0 _⟩, res, e, h⟩

/-- Instance of C19: the set filled under SRRIP by eight requests of distinct instructions,
whose RRPVs are all 2: the search makes `3 - 2` passes. -/
theorem srrip_aging_terminates_witness :
    (4 ≤ 4 ∧ SetOk (pcFillState 8) (setIdxOf (pcFillState 8) 0x80000)) ∧
    ∃ ways1 v, srripLoop (pcFillState 8).num_ways 4
      ((pcFillState 8).sets (setIdxOf (pcFillState 8) 0x80000)) 0 0 = some (ways1, v, 3 - 2) := by
  have hok : SetOk (pcFillState 8) (setIdxOf (pcFillState 8) 0x80000) := by
    intro w hw
    obtain ⟨h1, h2⟩ := pcFillState_full.2.2 w hw
    exact ⟨h2, by omega⟩
  obtain ⟨ways1, v, passes, _, e, _, _, _, hp, _⟩ :=
    srrip_aging_terminates 4 (pcFillState 8) 0x80000 0 2 (le_refl 4) hok pcFillState_full.2.1
      (fun w hw => le_of_eq (pcFillState_full.2.2 w hw).1)
      ⟨0, pcFillState_full.1, (pcFillState_full.2.2 0 pcFillState_full.1).1⟩
  rw [hp] at e
  exact ⟨⟨le_refl 4, hok⟩, ways1, v, e⟩

/-- Instance of C20: the set filled under SRRIP by eight requests of distinct instructions. -/
theorem srrip_aging_effect_witness :
    (4 ≤ 4 ∧ 0 < (pcFillState 8).num_ways) ∧
    ∃ r, srrip 4 (pcFillState 8) 0x80000 0 = some r ∧
      r.victim_blk = (setIdxOf (pcFillState 8) 0x80000, (pcFillState 8).num_ways - 1) := by
  obtain ⟨_, v, r, _, e, _, hv, hlast, _⟩ :=
    srrip_aging_effect 4 (pcFillState 8) 0x80000 0 (le_refl 4) pcFillState_full.1
      pcFillState_full.2.1 pcFillState_full.2.2
  rw [hlast] at hv
  exact ⟨⟨le_refl 4, pcFillState_full.1⟩, r, e, hv⟩

/-! ## Counter ranges and the outcome flag on reachable states -/

theorem sigOf_lt (pc : Nat) : sigOf pc < cache_size := by
  have h : pc &&& 511 ≤ 511 := Nat.and_le_right
  exact Nat.lt_succ_of_le h

theorem counterOk_increment {x : Sat_Counter} (h : CounterOk x) :
    CounterOk (incrementCounter x) := by
  obtain ⟨h1, h2⟩ := h
  unfold incrementCounter
  split_ifs with hlt
  · exact ⟨h1, by show x.counter + 1 ≤ 3; omega⟩
  · exact ⟨h1, h2⟩

theorem counterOk_decrement {x : Sat_Counter} (h : CounterOk x) :
    CounterOk (decrementCounter x) := by
  obtain ⟨h1, h2⟩ := h
  unfold decrementCounter
  split_ifs with hlt
  · exact ⟨h1, by show x.counter - 1 ≤ 3; omega⟩
  · exact ⟨h1, h2⟩

theorem counterOk_initCache (heap : Nat → Cache_Block) (i : Nat) :
    CounterOk ((initCache heap).SHCT i) :=
  ⟨rfl, (by decide : (2 : Nat) ≤ 3)⟩

theorem untouched_initCache (heap : Nat → Cache_Block) (p : Nat × Nat) :
    Untouched ((initCache heap).blk p) := fun _ => rfl

/-- The SHCT after `accessBlock`: at most one counter has been incremented. -/
theorem accessBlock_SHCT (c : Cache) (req : Request) (t : Nat) (j : Nat) :
    (accessBlock c req t).1.SHCT j = c.SHCT j ∨
    (accessBlock c req t).1.SHCT j = incrementCounter (c.SHCT j) := by
  cases hf : findBlock c (blkAlign req.load_or_store_addr c.blk_mask) with
  | none =>
    rw [accessBlock_miss_eq hf]
    exact Or.inl rfl
  | some q =>
    rw [accessBlock_hit_eq hf]
    simp only [setBlk_SHCT, setSHCT_SHCT]
    split_ifs with hj
    · rw [hj]
      exact Or.inr rfl
    · exact Or.inl rfl

theorem accessBlock_untouched (c : Cache) (req : Request) (t : Nat)
    (h : ∀ p, Untouched (c.blk p)) : ∀ p, Untouched ((accessBlock c req t).1.blk p) := by
  cases hf : findBlock c (blkAlign req.load_or_store_addr c.blk_mask) with
  | none =>
    rw [accessBlock_miss_eq hf]
    exact h
  | some q =>
    rw [accessBlock_hit_eq hf]
    intro p
    by_cases hpq : p = q
    · rw [hpq]
      simp only [setBlk_blk_self]
      intro hv
      have hq := (findBlock_some hf).2.2.1
      have hv1 : (c.blk q).valid = false := hv
      rw [hq] at hv1
      cases hv1
    · simp only
      rw [setBlk_blk_ne _ _ _ _ hpq]
      exact h p

theorem insertTail_SHCT (policy : Policy) (c : Cache) (p : Nat × Nat) (req : Request)
    (t : Nat) (j : Nat) :
    (insertTail policy c p req t).SHCT j =
      if policy = Policy.SRRIP ∧ (c.blk p).outcome = false ∧ j = sigOf (c.blk p).PC then
        decrementCounter (c.SHCT j)
      else c.SHCT j := by
  unfold insertTail
  simp only [setBlk_SHCT]
  by_cases hp : policy = Policy.SRRIP
  · rw [if_pos hp, shipUpdate_SHCT]
    simp only [hp, true_and]
  · rw [if_neg hp]
    simp only [hp, false_and, if_false]

/-- The SHCT after an `insertBlock` that returned: only the counter at the index of the
victim's `PC` can have changed, by one decrement, and only under SRRIP with the victim's
outcome flag clear. -/
theorem insertBlock_SHCT_of_some {policy : Policy} {fuel : Nat} {c : Cache} {req : Request}
    {t wb : Nat} {res : InsertResult} (h : insertBlock policy fuel c req t wb = some res)
    (hn : 0 < c.num_ways) (hok : policy = Policy.SRRIP → SetOk c (reqSet c req)) (j : Nat) :
    res.cache.SHCT j =
      if policy = Policy.SRRIP ∧ (c.blk res.victim).outcome = false ∧
          j = sigOf (c.blk res.victim).PC then
        decrementCounter (c.SHCT j)
      else c.SHCT j := by
  obtain ⟨r, e, _, _, _, hS, hne, _, h7, h8⟩ :=
    findVictim_post policy (fuel + 4) c (blkAlign req.load_or_store_addr c.blk_mask) wb
      (by omega) hn hok
  have e1 := @insertBlock_of_findVictim policy (fuel + 4) c req t wb r e
  rw [insertBlock_mono h 4] at e1
  cases e1
  simp only
  rw [insertTail_SHCT, hS]
  have hvic : (r.cache.blk r.victim_blk).outcome = (c.blk r.victim_blk).outcome ∧
      (r.cache.blk r.victim_blk).PC = (c.blk r.victim_blk).PC := by
    cases hb : r.wb_required with
    | false =>
      rw [(h7 hb).1]
      exact ⟨rfl, rfl⟩
    | true =>
      rw [(h8 hb).2.1]
      exact ⟨rfl, rfl⟩
  rw [hvic.1, hvic.2]

theorem untouched_setRRPV {b : Cache_Block} (x : Sat_Counter) (h : Untouched b) :
    Untouched (setRRPV b x) := h

/-- Every SHCT counter of a reachable state is a 2-bit counter, and every line of a
reachable state that is not valid has its outcome flag clear. -/
theorem reach_counters (policy : Policy) (guard : Cache → Request → Prop) (c : Cache)
    (h : Reach policy guard c) : (∀ i, CounterOk (c.SHCT i)) ∧ ∀ p, Untouched (c.blk p) := by
  induction h with
  | init heap => exact ⟨counterOk_initCache heap, untouched_initCache heap⟩
  | access c req t _ ih =>
    obtain ⟨hS, hU⟩ := ih
    refine ⟨?_, accessBlock_untouched c req t hU⟩
    intro i
    rcases accessBlock_SHCT c req t i with e | e
    · rw [e]
      exact hS i
    · rw [e]
      exact counterOk_increment (hS i)
  | insert c req t wb fuel res hprev _ e ih =>
    obtain ⟨hS, hU⟩ := ih
    have hwf := (reach_inv policy _ c hprev).1
    obtain ⟨_, _, _, h4, _, h6, _, _⟩ :=
      insertBlock_post_of_some e hwf.1 (fun _ => hwf.2.2 _)
    refine ⟨?_, ?_⟩
    · intro i
      rw [insertBlock_SHCT_of_some e hwf.1 (fun _ => hwf.2.2 _) i]
      split_ifs
      · exact counterOk_decrement (hS i)
      · exact hS i
    · intro p
      by_cases hpv : p = res.victim
      · rw [hpv]
        intro hv
        rw [h6] at hv
        cases hv
      · rw [h4 p hpv]
        exact untouched_setRRPV _ (hU p)

/-- The state after a sequence of calls on a reachable state is reachable. -/
theorem reachable_runOps (policy : Policy) (fuel : Nat) (ops : List Op) :
    ∀ c c1 : Cache, Reachable policy c → runOps policy fuel ops c = some c1 →
      Reachable policy c1 := by
  induction ops with
  | nil =>
    intro c c1 hr h
    simp only [runOps, Option.some.injEq] at h
    rw [← h]
    exact hr
  | cons op ops ih =>
    intro c c1 hr h
    cases op with
    | access req t =>
      simp only [runOps, stepOp] at h
      exact ih _ c1 (Reach.access c req t hr) h
    | insert req t wb =>
      cases hi : insertBlock policy fuel c req t wb with
      | none =>
        simp only [runOps, stepOp, hi] at h
        cases h
      | some res =>
        simp only [runOps, stepOp, hi] at h
        exact ih _ c1 (Reach.insert c req t wb fuel res hr trivial hi) h

/-- C21. Counter-range invariant of the cache: in every state reachable from `initCache` by
`accessBlock` and `insertBlock` calls, under any policy, the RRPV of every line and every
SHCT counter has `max_val = 3` and a value between 0 and 3; in the cache built by
`initCache` every SHCT counter is 2 and every RRPV is 0; and every SHCT index
`PC & (cache_size - 1)` is below the SHCT length `cache_size = 512`. -/
theorem counter_range_invariant (policy : Policy) (c : Cache) (hr : Reachable policy c) :
    (∀ s w, w < c.num_ways → (c.sets s w).RRPV.max_val = 3 ∧
      0 ≤ (c.sets s w).RRPV.counter ∧ (c.sets s w).RRPV.counter ≤ 3) ∧
    (∀ i, (c.SHCT i).max_val = 3 ∧ 0 ≤ (c.SHCT i).counter ∧ (c.SHCT i).counter ≤ 3) ∧
    (∀ heap i, ((initCache heap).SHCT i).counter = 2) ∧
    (∀ heap s w, ((initCache heap).sets s w).RRPV.counter = 0) ∧
    (∀ pc, sigOf pc = pc &&& (cache_size - 1) ∧ sigOf pc < cache_size) ∧
    cache_size = 512 := by
  obtain ⟨hwf, _⟩ := reach_inv policy _ c hr
  obtain ⟨hS, _⟩ := reach_counters policy _ c hr
  refine ⟨?_, ?_, fun _ _ => rfl, fun _ _ _ => rfl, fun pc => ⟨rfl, sigOf_lt pc⟩, rfl⟩
  · intro s w hw
    obtain ⟨h1, h2⟩ := hwf.2.2 s w hw
    exact ⟨h1, Nat.zero_le _, h2⟩
  · intro i
    obtain ⟨h1, h2⟩ := hS i
    exact ⟨h1, Nat.zero_le _, h2⟩

/-- C22. First fill also penalises the SHCT: under SRRIP, in every state reachable from
`initCache`, every line that is not valid has `outcome = false`; `insertBlock` returns, and
when it fills an invalid line (`wb_required = false`) the line was not valid, its outcome
flag was clear, and the SHCT counter at index `PC & (cache_size - 1)` of that line's `PC`
field is decremented by one, saturating at 0, and stays in range.  The same decrement is
what a victim with a clear outcome flag gets in every case, an evicted valid line
included. -/
theorem first_fill_penalises_shct (c : Cache) (hr : Reachable Policy.SRRIP c) :
    (∀ s w, (c.sets s w).valid = false → (c.sets s w).outcome = false) ∧
    ∀ (fuel : Nat) (req : Request) (t wb : Nat), 4 ≤ fuel →
      ∃ res, insertBlock Policy.SRRIP fuel c req t wb = some res ∧
        (res.wb_required = false →
          (c.blk res.victim).valid = false ∧ (c.blk res.victim).outcome = false ∧
          res.cache.SHCT (sigOf (c.blk res.victim).PC) =
            decrementCounter (c.SHCT (sigOf (c.blk res.victim).PC)) ∧
          (res.cache.SHCT (sigOf (c.blk res.victim).PC)).counter =
            (c.SHCT (sigOf (c.blk res.victim).PC)).counter - 1 ∧
          sigOf (c.blk res.victim).PC < cache_size) ∧
        ((c.blk res.victim).outcome = false →
          res.cache.SHCT (sigOf (c.blk res.victim).PC) =
            decrementCounter (c.SHCT (sigOf (c.blk res.victim).PC))) := by
  obtain ⟨hwf, _⟩ := reach_inv Policy.SRRIP _ c hr
  obtain ⟨_, hU⟩ := reach_counters Policy.SRRIP _ c hr
  refine ⟨fun s w => hU (s, w), ?_⟩
  intro fuel req t wb hfuel
  obtain ⟨res, e, _, _, _, _, _, _, _, _, _, _, _, k13, _⟩ :=
    insertBlock_post Policy.SRRIP fuel c req t wb hfuel hwf.1 (fun _ => hwf.2.2 _)
  have hdec : (c.blk res.victim).outcome = false →
      res.cache.SHCT (sigOf (c.blk res.victim).PC) =
        decrementCounter (c.SHCT (sigOf (c.blk res.victim).PC)) := by
    intro ho
    rw [insertBlock_SHCT_of_some e hwf.1 (fun _ => hwf.2.2 _), if_pos ⟨rfl, ho, rfl⟩]
  refine ⟨res, e, ?_, hdec⟩
  intro hb
  have hv := (k13 hb).2.1
  have ho := hU res.victim hv
  refine ⟨hv, ho, hdec ho, ?_, sigOf_lt _⟩
  rw [hdec ho]
  unfold decrementCounter
  split_ifs with hpos
  · rfl
  · omega

theorem pcFillState_reachable : Reachable Policy.SRRIP (pcFillState 8) := by
  have hs : (runOps Policy.SRRIP 4 (fillOpsOf pcConflictReq (fun i => i + 1) (fun _ => 0) 8)
      (initCache heap0)).isSome = true := by
    rw [initCache_eq]
    decide
  obtain ⟨c1, hc1⟩ := Option.isSome_iff_exists.mp hs
  have hc : pcFillState 8 = c1 := by
    unfold pcFillState
    rw [hc1]
    rfl
  rw [hc]
  exact reachable_runOps Policy.SRRIP 4 _ _ c1 (Reach.init heap0) hc1

/-- Instance of C21: the state after eight inserts under SRRIP. -/
theorem counter_range_invariant_witness :
    Reachable Policy.SRRIP (pcFillState 8) ∧
    ((pcFillState 8).SHCT (sigOf 0)).max_val = 3 ∧
    ((pcFillState 8).SHCT (sigOf 0)).counter ≤ 3 :=
  ⟨pcFillState_reachable,
    ((counter_range_invariant Policy.SRRIP (pcFillState 8) pcFillState_reachable).2.1 _).1,
    ((counter_range_invariant Policy.SRRIP (pcFillState 8) pcFillState_reachable).2.1 _).2.2⟩

/-- Instance of C22: the first insert into the cache built by `initCache` fills an invalid
line and takes the SHCT counter of that line's `PC` from 2 to 1. -/
theorem first_fill_penalises_shct_witness :
    (Reachable Policy.SRRIP (initCache heap0) ∧ 4 ≤ 4) ∧
    ∃ res, insertBlock Policy.SRRIP 4 (initCache heap0) pcReq 1 0 = some res ∧
      res.wb_required = false ∧
      (res.cache.SHCT (sigOf ((initCache heap0).blk res.victim).PC)).counter = 1 := by
  obtain ⟨res, e, h, _⟩ :=
    (first_fill_penalises_shct (initCache heap0) (Reach.init heap0)).2 4 pcReq 1 0 (le_refl 4)
  obtain ⟨res1, e1, _, _, _, _, _, _, _, _, _, _, _, _, k14⟩ :=
    insertBlock_post Policy.SRRIP 4 (initCache heap0) pcReq 1 0 (le_refl 4)
      (WF_initCache heap0).1 (fun _ => setOk_initCache heap0 _)
  rw [e] at e1
  cases e1
  have hb : res.wb_required = false := by
    cases hw : res.wb_required with
    | false => rfl
    | true =>
      have hv := (k14 hw).1 0 (WF_initCache heap0).1
      rw [initCache_invalid] at hv
      cases hv
  obtain ⟨_, _, _, hc, _⟩ := h hb
  refine ⟨⟨Reach.init heap0, le_refl 4⟩, res, e, hb, ?_⟩
  rw [hc, initCache_SHCT]

/-! ## The geometry that construction builds -/

theorem avoidsB_iff (policy : Policy) (fuel : Nat) (line : Nat × Nat) (ops : List Op) :
    ∀ c : Cache, avoidsB policy fuel line ops c = true ↔ Avoids policy fuel line ops c := by
  induction ops with
  | nil =>
    intro c
    simp [avoidsB, Avoids]
  | cons op ops ih =>
    intro c
    unfold avoidsB Avoids
    cases h : stepOp policy fuel c op with
    | none => simp
    | some x =>
      obtain ⟨c1, v⟩ := x
      simp only [Bool.and_eq_true, decide_eq_true_eq, ih c1]

theorem wbOps_avoid :
    (insertBlock Policy.LRU 4 (initCache heap0) wbReq 1 0).map
      (fun res => (res.victim, avoidsB Policy.LRU 4 res.victim wbOps res.cache)) =
        some ((0, 0), true) := by
  rw [initCache_eq]
  decide

theorem wbOps_evict :
    ((insertBlock Policy.LRU 4 (initCache heap0) wbReq 1 0).bind fun res =>
      (runOps Policy.LRU 4 wbOps res.cache).bind fun c2 =>
        (insertBlock Policy.LRU 4 c2 (conflictReq 8) 10 5).map fun res2 =>
          (res2.victim, res2.wb_addr)) = some ((0, 0), 0x30000) := by
  rw [initCache_eq]
  decide

theorem hitState_evict :
    0 < hitState.num_ways ∧
    (∀ w, w < hitState.num_ways →
      (hitState.sets (reqSet hitState (pcConflictReq 8)) w).RRPV.max_val = 3 ∧
      (hitState.sets (reqSet hitState (pcConflictReq 8)) w).RRPV.counter ≤ 3) ∧
    (insertBlock Policy.SRRIP 4 hitState (pcConflictReq 8) 10 0).map
      (fun res => (res.wb_required, res.victim, (hitState.blk res.victim).outcome,
        (hitState.SHCT (sigOf (hitState.blk res.victim).PC)).counter)) =
      some (true, (0, 6), false, 1) := by
  rw [hitState, initCache_eq]
  decide

/-- Instance of C6: under LRU the store to the unaligned address `0x3003f` is installed in
way 0 of set 0 of the cache built by `initCache`; seven inserts fill the other ways without
touching that line; the insert of a ninth conflicting address then selects the line as
victim, asks for a write-back and reports `0x30000`, the block-aligned address, in place of
the 5 that `*wb_addr` held. -/
theorem writeback_round_trip_witness :
    (4 ≤ 4 ∧ InitGeom (initCache heap0) ∧ SetFieldOk (initCache heap0) ∧
      wbReq.load_or_store_addr < 2 ^ 64) ∧
    ∃ res c2 res2, insertBlock Policy.LRU 4 (initCache heap0) wbReq 1 0 = some res ∧
      Avoids Policy.LRU 4 res.victim wbOps res.cache ∧
      runOps Policy.LRU 4 wbOps res.cache = some c2 ∧
      insertBlock Policy.LRU 4 c2 (conflictReq 8) 10 5 = some res2 ∧
      res2.victim = res.victim ∧ res2.wb_required = true ∧
      res2.wb_addr = blkAlign wbReq.load_or_store_addr (initCache heap0).blk_mask ∧
      res2.wb_addr = 0x30000 := by
  have ha : wbReq.load_or_store_addr < 2 ^ 64 := by decide
  obtain ⟨res, e, _, h⟩ :=
    writeback_round_trip Policy.LRU 4 (initCache heap0) wbReq 1 0 (le_refl 4)
      (initGeom_initCache heap0) (setOk_initCache heap0) (setFieldOk_initCache heap0) ha
  have f1 := wbOps_avoid
  simp only [e, Option.map_some', Option.some.injEq, Prod.mk.injEq] at f1
  have hav : Avoids Policy.LRU 4 res.victim wbOps res.cache :=
    (avoidsB_iff Policy.LRU 4 res.victim wbOps res.cache).mp f1.2
  obtain ⟨c2, e2, h2⟩ := h wbOps hav
  obtain ⟨res2, e3, h3⟩ := h2 (conflictReq 8) 10 5
  have f2 := wbOps_evict
  simp only [e, Option.some_bind, e2, e3, Option.map_some', Option.some.injEq,
    Prod.mk.injEq] at f2
  have hv : res2.victim = res.victim := f2.1.trans f1.1.symm
  obtain ⟨w1, _, w3, _⟩ := h3 hv
  exact ⟨⟨le_refl 4, initGeom_initCache heap0, setFieldOk_initCache heap0, ha⟩,
    res, c2, res2, e, hav, e2, e3, hv, w1, w3, f2.2⟩

/-- Instance of C18: in `hitState` set 0 is full and only the line in way 7 has been hit.
The insert of a ninth conflicting request evicts the valid line in way 6, whose outcome flag
is clear, and takes the SHCT counter at the index of that line's `PC` from 1 to 0. -/
theorem eviction_bookkeeping_witness :
    (4 ≤ 4 ∧ 0 < hitState.num_ways ∧ SetOk hitState (reqSet hitState (pcConflictReq 8))) ∧
    ∃ res, insertBlock Policy.SRRIP 4 hitState (pcConflictReq 8) 10 0 = some res ∧
      res.wb_required = true ∧ res.victim = (0, 6) ∧
      (hitState.blk res.victim).valid = true ∧
      (hitState.blk res.victim).outcome = false ∧
      (hitState.SHCT (sigOf (hitState.blk res.victim).PC)).counter = 1 ∧
      (res.cache.SHCT (sigOf (hitState.blk res.victim).PC)).counter = 0 ∧
      (res.cache.blk res.victim).outcome = false := by
  have hok : SetOk hitState (reqSet hitState (pcConflictReq 8)) :=
    fun w hw => hitState_evict.2.1 w hw
  obtain ⟨res, e, h1, h2, _, _, h5⟩ :=
    eviction_bookkeeping 4 hitState (pcConflictReq 8) 10 0 (le_refl 4) hitState_evict.1 hok
  have f := hitState_evict.2.2
  simp only [e, Option.map_some', Option.some.injEq, Prod.mk.injEq] at f
  obtain ⟨f1, f2, f3, f4⟩ := f
  refine ⟨⟨le_refl 4, hitState_evict.1, hok⟩, res, e, f1, f2, h1 f1, f3, f4, ?_, h5⟩
  rw [(h2 f3).2, f4]

end CachePolicy
